import Mathlib

/-!
# Single-elimination bracket: seeding, building, round derivation

A shallow embedding of `src/App.jsx` (the bracket engine of the React
component `BracketApp`) together with the properties proved about it.

Conventions of the embedding

* JavaScript `null` / `undefined` object slots are `Option`, with `none` for both.
* Identifiers (`id`, match ids, store values) are `String`.  A string is
  truthy exactly when it is not the empty string.
* The outcome store `winnersMap` is a plain object.  Its own keys are a map from keys to
  values, `String → Option String` (`none` = the store has no such key of its own).  A lookup
  `winnersMap[key]` under a name that the store does not have and that `Object.prototype` has
  (`inheritedKeys`) answers the inherited property, which is not a string and is truthy.  The
  round-0 lookup of the effect is under the id that the stored match carries, which is
  arbitrary, and goes through `lookupOrNull`; every other lookup of the effect is under a key
  `matchId r i`, which is never such a name (`matchId_not_inherited`), so that there the own
  keys decide (`lookupOrNull_matchId`).
* `Math.random` is an explicit parameter (`Rand`).
* A thrown `TypeError` is the result `none` of the operation that throws.
* Arrays are lists of any length, and numbers are natural numbers or integers; the one
  32-bit operation of the source, the shift `p <<= 1`, wraps as in the source.
* Loops carry a bound on their number of passes; for each of them a theorem shows that the
  bound is not what ends the loop.
-/

namespace Bracket

/-! ## Data model -/

/-- An entrant or a bye placeholder: `{ id, name, seed, isBye }`. -/
structure Competitor where
  id : String
  name : String
  seed : Nat
  isBye : Bool
  deriving DecidableEq, Repr

/-- A value of the field `winnerId` that is not `null`: a string read from the store, or the
property of `Object.prototype` with the given name, which the lookup `winnersMap[name]` answers
when the store has no key `name` of its own. -/
inductive WinnerId where
  | id (s : String)
  | inherited (name : String)
  deriving DecidableEq, Repr

/-- A match: `{ id, playerA, playerB, winnerId }`. -/
structure Match where
  id : String
  playerA : Option Competitor
  playerB : Option Competitor
  winnerId : Option WinnerId
  deriving DecidableEq, Repr

/-- The outcome store `winnersMap`: match id ↦ chosen competitor id. -/
abbrev Store := String → Option String

/-- The empty store `{}`. -/
def Store.empty : Store := fun _ => none

/-- The store `{ ...prev, [key]: value }`. -/
def Store.set (prev : Store) (key value : String) : Store :=
  fun k => if k = key then some value else prev k

/-- The value of `x || null` for an own entry `x` of the store: a present, non-empty string,
else nothing.  For a key `matchId r i` the test `if (winnersMap[m.id])` succeeds exactly when
this is `some`. -/
def orNull (x : Option String) : Option String :=
  match x with
  | some s => if s = "" then none else some s
  | none => none

/-- The names of the properties of `Object.prototype`, which every plain object inherits. -/
def inheritedKeys : List String :=
  ["constructor", "__defineGetter__", "__defineSetter__", "hasOwnProperty", "__lookupGetter__",
    "__lookupSetter__", "isPrototypeOf", "propertyIsEnumerable", "toString", "valueOf",
    "__proto__", "toLocaleString"]

/-- The value of `winnersMap[key] || null` for an arbitrary `key`: an own entry shadows the
inherited property and counts when it is a non-empty string; without an own entry the lookup
answers the inherited property of that name, if there is one. -/
def lookupOrNull (winnersMap : Store) (key : String) : Option WinnerId :=
  match winnersMap key with
  | some s => if s = "" then none else some (WinnerId.id s)
  | none => if key ∈ inheritedKeys then some (WinnerId.inherited key) else none

/-! ## `matchId`, `nextPowerOfTwo`, `generateSeeding` -/

/-- The template string of `matchId(r, i)`: "r", r in decimal, "-m", i in decimal. -/
def matchId (r i : Nat) : String :=
  "r" ++ Nat.repr r ++ "-m" ++ Nat.repr i

/-- The conversion ToInt32 of a mathematical integer. -/
def toInt32 (x : Int) : Int :=
  let m := x % 4294967296
  if m ≥ 2147483648 then m - 4294967296 else m

/-- The assignment `p <<= 1` (a 32-bit signed left shift). -/
def shl1 (p : Int) : Int := toInt32 (toInt32 p * 2)

/-- The loop `while (p < n) p <<= 1;` run for at most `fuel` tests of its condition;
`none` when the loop has not been left by then. -/
def nextPowerOfTwoLoop : Nat → Int → Int → Option Int
  | 0, _, _ => none
  | fuel + 1, p, n => if p < n then nextPowerOfTwoLoop fuel (shl1 p) n else some p

/-- The function `nextPowerOfTwo(n)`.  After 32 shifts `p` is `0` and stays `0`, so a loop that
has not been left after 64 tests is never left (`nextPowerOfTwoLoop_fuel`): `none` means
that the call does not return. -/
def nextPowerOfTwo (n : Nat) : Option Int :=
  nextPowerOfTwoLoop 64 1 n

/-- The body of one pass of the `while` loop of `generateSeeding`:
`for (const x of arr) next.push(x, S + 1 - x)`.  The entries of `arr` never exceed its length
(`seedIter_bounds`), so the subtraction in `ℕ` is the subtraction of the source. -/
def pushPairs (S : Nat) : List Nat → List Nat
  | [] => []
  | x :: xs => x :: (S + 1 - x) :: pushPairs S xs

/-- One pass of the `while` loop: `S = arr.length * 2`, then the `for` loop. -/
def seedingStep (arr : List Nat) : List Nat :=
  pushPairs (arr.length * 2) arr

/-- The loop `while (arr.length < size) { ... }` with a bound on the number of passes. -/
def generateSeedingLoop : Nat → Nat → List Nat → List Nat
  | 0, _, arr => arr
  | fuel + 1, size, arr =>
    if arr.length < size then generateSeedingLoop fuel size (seedingStep arr) else arr

/-- The function `generateSeeding(size)`.  The bound `size` on the number of passes is never
reached (`generateSeedingLoop_fuel`). -/
def generateSeeding (size : Nat) : List Nat :=
  if size < 2 then [1] else generateSeedingLoop size size [1, 2]

/-- The array `arr` after `j` passes of the `while` loop of `generateSeeding`. -/
def seedIter : Nat → List Nat
  | 0 => [1, 2]
  | j + 1 => seedingStep (seedIter j)

/-! ## `buildBracket` -/

/-- The outcomes of `Math.random` used by one call of `buildBracket`: the seven-character
suffix drawn by `uid("p")` for the entrant at index `i`, the suffix drawn by `uid("bye")` for
the seeding position `pos`, and the number `Math.random() * (i + 1)` rounded down of the shuffle
loop at index `i` (taken modulo `i + 1`, its range). -/
structure Rand where
  entrant : Nat → String
  bye : Nat → String
  draw : Nat → Nat

/-- The function `uid(pre)`, for a given random suffix. -/
def uid (pre suffix : String) : String :=
  pre ++ "_" ++ suffix

/-- The competitors `entrants.map((name, i) => ({ id: uid("p"), name, seed: i + 1, isBye: false }))`,
for the entrants from index `i` on. -/
def mkSeeded (rnd : Rand) : Nat → List String → List Competitor
  | _, [] => []
  | i, name :: rest =>
    { id := uid "p" (rnd.entrant i), name := name, seed := i + 1, isBye := false }
      :: mkSeeded rnd (i + 1) rest

/-- The swap `[seeded[i], seeded[j]] = [seeded[j], seeded[i]]`. -/
def swap (l : List Competitor) (i j : Nat) : List Competitor :=
  match l[i]?, l[j]? with
  | some a, some b => (l.set i b).set j a
  | _, _ => l

/-- The loop `for (let i = seeded.length - 1; i > 0; i--)`, entered with the value `i`. -/
def shuffleLoop (rnd : Rand) : Nat → List Competitor → List Competitor
  | 0, l => l
  | i + 1, l => shuffleLoop rnd i (swap l (i + 1) (rnd.draw (i + 1) % (i + 2)))

/-- The renumbering `seeded.map((p, idx) => ({ ...p, seed: idx + 1 }))`, from index `idx` on. -/
def renumber : Nat → List Competitor → List Competitor
  | _, [] => []
  | idx, p :: rest => { p with seed := idx + 1 } :: renumber (idx + 1) rest

/-- The value of `seeded` after the `if (shuffle) { ... }` block. -/
def finalOrder (rnd : Rand) (shuffle : Bool) (entrants : List String) : List Competitor :=
  let seeded := mkSeeded rnd 0 entrants
  if shuffle then renumber 0 (shuffleLoop rnd (seeded.length - 1) seeded) else seeded

/-- The array read `seeded[seed - 1]` (`undefined` below index 0 and past the end). -/
def seededAt (seeded : List Competitor) (seed : Nat) : Option Competitor :=
  match seed with
  | 0 => none
  | s + 1 => seeded[s]?

/-- The callback of `seedingPositions.map`, at position `pos` of the seed order. -/
def slotFor (rnd : Rand) (seeded : List Competitor) (n pos seed : Nat) : Option Competitor :=
  if seed ≤ n then seededAt seeded seed
  else some { id := uid "bye" (rnd.bye pos), name := "BYE", seed := seed, isBye := true }

/-- The array `slots`, for the seed order from position `pos` on. -/
def mkSlots (rnd : Rand) (seeded : List Competitor) (n : Nat) :
    Nat → List Nat → List (Option Competitor)
  | _, [] => []
  | pos, seed :: rest => slotFor rnd seeded n pos seed :: mkSlots rnd seeded n (pos + 1) rest

/-- The loop `for (let i = 0; i < slots.length; i += 2) round0.push(...)`; the argument is `i / 2`
and the list holds `slots[i]`, `slots[i + 1]`, ... -/
def pairUp : Nat → List (Option Competitor) → List Match
  | _, [] => []
  | i, [a] => [{ id := matchId 0 i, playerA := a, playerB := none, winnerId := none }]
  | i, a :: b :: rest =>
    { id := matchId 0 i, playerA := a, playerB := b, winnerId := none } :: pairUp (i + 1) rest

/-- The body of `for (const m of round0)`, acting on `autoWins`. -/
def autoWinsStep (autoWins : Store) (m : Match) : Store :=
  match m.playerA, m.playerB with
  | some a, some b =>
    let s1 := if a.isBye && !b.isBye then autoWins.set m.id b.id else autoWins
    if b.isBye && !a.isBye then s1.set m.id a.id else s1
  | _, _ => autoWins

/-- The object `autoWins` after the loop over `round0`. -/
def mkAutoWins (round0 : List Match) : Store :=
  round0.foldl autoWinsStep Store.empty

/-- What a call of `buildBracket` does to the state: nothing (the early `return`), or
`setInitialMatches(round0); setWinnersMap(autoWins)`. -/
inductive BuildResult where
  | noop
  | built (round0 : List Match) (autoWins : Store)

/-- The function `buildBracket()`, for the current `entrants` and `shuffle`; `none` when
the call of `nextPowerOfTwo` does not return. -/
def buildBracket (rnd : Rand) (shuffle : Bool) (entrants : List String) : Option BuildResult :=
  if entrants.length = 0 then some BuildResult.noop
  else
    let n := entrants.length
    match nextPowerOfTwo n with
    | none => none
    | some p =>
      let size := (max 2 p).toNat
      let seeded := finalOrder rnd shuffle entrants
      let slots := mkSlots rnd seeded n 0 (generateSeeding size)
      let round0 := pairUp 0 slots
      some (BuildResult.built round0 (mkAutoWins round0))

/-! ## Round derivation (the `useEffect` on `initialMatches`, `winnersMap`) -/

/-- Round 0 of `rds`: `initialMatches.map((m, i) => ({ ...m, id: matchId(0, i),
winnerId: winnersMap[m.id] || null }))`, from index `i` on.  The lookup is under the id that the
stored match `m` carries, which need not be a `matchId`. -/
def overlayRound0 (winnersMap : Store) : Nat → List Match → List Match
  | _, [] => []
  | i, m :: rest =>
    { m with id := matchId 0 i, winnerId := lookupOrNull winnersMap m.id }
      :: overlayRound0 winnersMap (i + 1) rest

/-- The array `blank` of round `r`: `Array.from({ length }, (_, idx) => ...)`. -/
def blankRound (winnersMap : Store) (r length : Nat) : List Match :=
  (List.range length).map fun idx =>
    { id := matchId r idx, playerA := none, playerB := none,
      winnerId := lookupOrNull winnersMap (matchId r idx) }

/-- The loop `for (let r = 1; r < numRounds; r++) rds.push(blank)`, entered with the value `r`
and run for at most `fuel` passes.  `numRounds` is `Math.log2(size)`, taken as the real
logarithm, so `r < numRounds` is `2 ^ r < size`; the `length` given to `Array.from` is
`size / Math.pow(2, r + 1)` rounded down. -/
def blankRounds (winnersMap : Store) (size : Nat) : Nat → Nat → List (List Match)
  | 0, _ => []
  | fuel + 1, r =>
    if 2 ^ r < size then
      blankRound winnersMap r (size / 2 ^ (r + 1)) :: blankRounds winnersMap size fuel (r + 1)
    else []

/-- The search `[a, b].find((p) => p && p.id === id) || null`. -/
def findById (a b : Option Competitor) (id : String) : Option Competitor :=
  match a with
  | some p => if p.id = id then some p else
    match b with
    | some q => if q.id = id then some q else none
    | none => none
  | none =>
    match b with
    | some q => if q.id = id then some q else none
    | none => none

/-- The value of `winner` computed by the body of the inner loop for the match `m` of `rds`,
whose id is a `matchId r i`. -/
def resolveWinner (winnersMap : Store) (m : Match) : Option Competitor :=
  match orNull (winnersMap m.id) with
  | some id => findById m.playerA m.playerB id
  | none =>
    match m.playerA, m.playerB with
    | some a, some b =>
      let w := if a.isBye && !b.isBye then some b else none
      if b.isBye && !a.isBye then some a else w
    | _, _ => none

/-- The assignment `m.winnerId = winnersMap[m.id]` under `if (winnersMap[m.id])`, for the match
`m` of `rds`, whose id is a `matchId r i`. -/
def stampWinner (winnersMap : Store) (m : Match) : Match :=
  match orNull (winnersMap m.id) with
  | some id => { m with winnerId := some (WinnerId.id id) }
  | none => m

/-- The call `placeNext(r, mIdx, competitor)` for `r < rds.length - 1`, acting on the round
`nextRound = rds[r + 1]`; `none` is the TypeError of writing to `nextRound[parentIdx]` when that
is `undefined`. -/
def placeNext (nextRound : List Match) (mIdx : Nat) (competitor : Option Competitor) :
    Option (List Match) :=
  match competitor with
  | none => some nextRound
  | some c =>
    match nextRound[mIdx / 2]? with
    | none => none
    | some parent =>
      if mIdx % 2 = 0 then some (nextRound.set (mIdx / 2) { parent with playerA := some c })
      else some (nextRound.set (mIdx / 2) { parent with playerB := some c })

/-- The inner loop `for (let i = 0; i < cur.length; i++)` over the matches `cur[i]`, `cur[i+1]`,
... of round `r`; it returns the new `rds[r]` (from index `i`) and the new `rds[r + 1]`. -/
def processRound (winnersMap : Store) : Nat → List Match → List Match →
    Option (List Match × List Match)
  | _, [], nextRound => some ([], nextRound)
  | i, m :: rest, nextRound =>
    match placeNext nextRound i (resolveWinner winnersMap m) with
    | none => none
    | some next1 =>
      match processRound winnersMap (i + 1) rest next1 with
      | none => none
      | some (rest1, next2) => some (stampWinner winnersMap m :: rest1, next2)

/-- The outer loop `for (let r = 0; r < rds.length - 1; r++)`, acting on `cur = rds[r]` and on
the later rounds `rds[r + 1]`, ...: a pass reads `rds[r]` and writes to `rds[r]` and `rds[r + 1]`
only.  The result is `rds[r]`, `rds[r + 1]`, ... after the loop. -/
def propagate (winnersMap : Store) : List Match → List (List Match) → Option (List (List Match))
  | cur, [] => some [cur]
  | cur, nextRound :: rest =>
    match processRound winnersMap 0 cur nextRound with
    | none => none
    | some (cur1, next1) =>
      match propagate winnersMap next1 rest with
      | none => none
      | some tail => some (cur1 :: tail)

/-- The value given to `setRounds` by the effect; `none` when the effect throws instead.  The
bound `size` on the passes of the loop over the later rounds is never reached
(`blankRounds_fuel`). -/
def deriveRounds (initialMatches : List Match) (winnersMap : Store) :
    Option (List (List Match)) :=
  if initialMatches.length = 0 then some []
  else
    let size := initialMatches.length * 2
    propagate winnersMap (overlayRound0 winnersMap 0 initialMatches)
      (blankRounds winnersMap size size 1)

/-! ## `champion` -/

/-- The memo `champion`, for the current `rounds` and `winnersMap`. -/
def champion (rounds : List (List Match)) (winnersMap : Store) : Option Competitor :=
  match rounds.getLast? with
  | none => none
  | some lastRound =>
    match lastRound[0]? with
    | none => none
    | some last =>
      match last.playerA, last.playerB, winnersMap last.id with
      | some a, some b, some selectedId => findById (some a) (some b) selectedId
      | _, _, _ => none

/-! ## `handlePickWinner` -/

/-- The function `handlePickWinner(rIdx, mIdx, pick)`, for the current `rounds` and
`winnersMap`: the new value of `winnersMap`.  The result `none` is the TypeError of the read
`rounds[rIdx][mIdx]` when `rounds[rIdx]` is `undefined`. -/
def handlePickWinner (rounds : List (List Match)) (winnersMap : Store) (rIdx mIdx : Nat)
    (pick : Option Competitor) : Option Store :=
  match rounds[rIdx]? with
  | none => none
  | some round =>
    match round[mIdx]?, pick with
    | some m, some p => if p.isBye then some winnersMap else some (winnersMap.set m.id p.id)
    | _, _ => some winnersMap

/-! ## Auxiliary definitions for the statements about round derivation -/

/-- The new content of a slot: the competitor placed into it, else what it held. -/
def orKeep (w old : Option Competitor) : Option Competitor :=
  match w with
  | some c => some c
  | none => old

/-- The winner computed for the match with index `t`, when `cur` holds the matches with the
indices `i0`, `i0 + 1`, ... -/
def winnerAt (winnersMap : Store) (i0 : Nat) (cur : List Match) (t : Nat) : Option Competitor :=
  if i0 ≤ t then (cur[t - i0]?).bind (resolveWinner winnersMap) else none

/-- The match `parent` at position `j` of the next round after the winners of `cur` are placed. -/
def fed (winnersMap : Store) (i0 : Nat) (cur : List Match) (j : Nat) (parent : Match) : Match :=
  { parent with
    playerA := orKeep (winnerAt winnersMap i0 cur (2 * j)) parent.playerA
    playerB := orKeep (winnerAt winnersMap i0 cur (2 * j + 1)) parent.playerB }

/-- The match `parent` at position `j` after the single call `placeNext(r, i, w)`. -/
def placed (i : Nat) (w : Option Competitor) (j : Nat) (parent : Match) : Match :=
  if j = i / 2 then
    if i % 2 = 0 then { parent with playerA := orKeep w parent.playerA }
    else { parent with playerB := orKeep w parent.playerB }
  else parent

/-- What `resolveWinner` reads of a match: its id and its two players. -/
def core (m : Match) : String × Option Competitor × Option Competitor :=
  (m.id, m.playerA, m.playerB)

/-- The entry `rounds[r][i]` of a round list. -/
def matchAt (rounds : List (List Match)) (r i : Nat) : Option Match :=
  match rounds[r]? with
  | some round => round[i]?
  | none => none

/-- The slot of a parent match fed by the child with index `i`: `playerA` for an even `i`,
`playerB` for an odd one. -/
def parentSlot (parent : Match) (i : Nat) : Option Competitor :=
  if i % 2 = 0 then parent.playerA else parent.playerB

/-- Every round has at least half as many matches as the round before it. -/
def Halving : List Match → List (List Match) → Prop
  | _, [] => True
  | cur, nextRound :: rest => cur.length ≤ 2 * nextRound.length ∧ Halving nextRound rest

/-- All matches of the rounds have both slots empty. -/
def Blank (rounds : List (List Match)) : Prop :=
  ∀ round ∈ rounds, ∀ m ∈ round, m.playerA = none ∧ m.playerB = none

/-- The ids of the derived tree over `2 ^ k` first-round matches: round `r` (0 ≤ r ≤ k) holds
the ids `matchId r 0`, ..., `matchId r (2 ^ (k - r) - 1)`. -/
def idTree (k : Nat) : List (List String) :=
  (List.range' 0 (k + 1)).map fun r => (List.range (2 ^ (k - r))).map (matchId r)

/-! ## The winner rule in words -/

/-- The first of `playerA`, `playerB` that is present and has the id `entry`. -/
def playerWithId (m : Match) (entry : String) : Option Competitor :=
  ([m.playerA, m.playerB].filterMap fun p => p).find? fun p => decide (p.id = entry)

/-- The non-bye player of a match whose two players are present and of which exactly one is a
bye. -/
def byeAdvance (m : Match) : Option Competitor :=
  match m.playerA, m.playerB with
  | some a, some b =>
    if a.isBye = true ∧ b.isBye = false then some b
    else if a.isBye = false ∧ b.isBye = true then some a
    else none
  | _, _ => none

/-- The winner of a match as the propagation rule is worded: a store entry for `m.id` decides
(the player with that id, if any); without an entry the bye rule applies. -/
def claimedWinner (winnersMap : Store) (m : Match) : Option Competitor :=
  match winnersMap m.id with
  | some entry => playerWithId m entry
  | none => byeAdvance m

/-- The winner of a match by the rule that the code follows: a non-empty store entry for `m.id`
decides (the player with that id, if any); without an entry, or with the empty string as the
entry, the bye rule applies. -/
def ruleWinner (winnersMap : Store) (m : Match) : Option Competitor :=
  match winnersMap m.id with
  | some entry => if entry = "" then byeAdvance m else playerWithId m entry
  | none => byeAdvance m

/-- A first round of two matches: an entrant against a bye, and two entrants. -/
def staleRound0 : List Match :=
  [ { id := "r0-m0", winnerId := none,
      playerA := some { id := "p_a", name := "A", seed := 1, isBye := false },
      playerB := some { id := "bye_x", name := "BYE", seed := 4, isBye := true } },
    { id := "r0-m1", winnerId := none,
      playerA := some { id := "p_b", name := "B", seed := 2, isBye := false },
      playerB := some { id := "p_c", name := "C", seed := 3, isBye := false } } ]

/-- A store whose entry for the match `r0-m0` is the empty string. -/
def emptyEntryStore : Store := Store.empty.set "r0-m0" ""

/-- A first round of two matches between four entrants. -/
def fullRound0 : List Match :=
  [ { id := "r0-m0", winnerId := none,
      playerA := some { id := "p_a", name := "A", seed := 1, isBye := false },
      playerB := some { id := "p_d", name := "D", seed := 4, isBye := false } },
    { id := "r0-m1", winnerId := none,
      playerA := some { id := "p_b", name := "B", seed := 2, isBye := false },
      playerB := some { id := "p_c", name := "C", seed := 3, isBye := false } } ]

/-- The picks A (over D), C (over B) and, in the final, A (over C). -/
def fullStore : Store :=
  ((Store.empty.set "r0-m0" "p_a").set "r0-m1" "p_c").set "r1-m0" "p_a"

/-- The round list derived from `fullRound0` and `fullStore`. -/
def fullRounds : List (List Match) :=
  [ [ { id := "r0-m0", winnerId := some (WinnerId.id "p_a"),
        playerA := some { id := "p_a", name := "A", seed := 1, isBye := false },
        playerB := some { id := "p_d", name := "D", seed := 4, isBye := false } },
      { id := "r0-m1", winnerId := some (WinnerId.id "p_c"),
        playerA := some { id := "p_b", name := "B", seed := 2, isBye := false },
        playerB := some { id := "p_c", name := "C", seed := 3, isBye := false } } ],
    [ { id := "r1-m0", winnerId := some (WinnerId.id "p_a"),
        playerA := some { id := "p_a", name := "A", seed := 1, isBye := false },
        playerB := some { id := "p_c", name := "C", seed := 3, isBye := false } } ] ]

/-! ## Auxiliary definitions for the statements about match ids and the builder -/

/-- The number read from decimal digit characters, most significant first, after the digits
already read as `acc`. -/
def readDigits (acc : Nat) (cs : List Char) : Nat :=
  cs.foldl (fun a c => 10 * a + (c.toNat - 48)) acc

/-- The competitor `p` is the competitor for the seed value `s`, for the entrant names `names`
in their final order: the entrant at the 1-based position `s` (not a bye, seed `s`, that
entrant's name) when `s ≤ names.length`, and else a bye named "BYE" with the seed `s`. -/
def IsCompetitorFor (names : List String) (s : Nat) (p : Option Competitor) : Prop :=
  ∃ c, p = some c ∧ c.seed = s ∧
    ((s ≤ names.length ∧ c.isBye = false ∧ names[s - 1]? = some c.name) ∨
     (names.length < s ∧ c.isBye = true ∧ c.name = "BYE"))

/-- A source of random outcomes, for the examples. -/
def sampleRand : Rand :=
  { entrant := fun i => "e" ++ Nat.repr i, bye := fun i => "b" ++ Nat.repr i, draw := fun i => i }

/-- The entry that the body of `for (const m of round0)` writes for the match `m`, if any. -/
def autoEntry (m : Match) : Option String :=
  match m.playerA, m.playerB with
  | some a, some b =>
    if b.isBye && !a.isBye then some a.id
    else if a.isBye && !b.isBye then some b.id
    else none
  | _, _ => none

/-- The doubling step as worded with `S` the length of the current sequence: every entry `x`
is replaced, in order, by the pair `(x, S + 1 - x)`. -/
def claimedDoubling (arr : List Nat) : List Nat :=
  arr.flatMap fun x => [x, arr.length + 1 - x]

/-- The doubling step with `S` twice the length of the current sequence (the length of the
sequence that the step produces): every entry `x` is replaced, in order, by the pair
`(x, S + 1 - x)`. -/
def doubling (arr : List Nat) : List Nat :=
  arr.flatMap fun x => [x, 2 * arr.length + 1 - x]

/-- The entrant A of the examples. -/
def entrantA : Competitor := { id := "p_a", name := "A", seed := 1, isBye := false }

/-- The slots of the first round in their order: `playerA`, `playerB` of match 0, then of
match 1, and so on. -/
def round0Slots (round0 : List Match) : List (Option Competitor) :=
  round0.flatMap fun m => [m.playerA, m.playerB]

/-- The slot holds a bye. -/
def holdsBye (slot : Option Competitor) : Bool :=
  match slot with
  | some c => c.isBye
  | none => false

/-- The competitor in slot `p` of the first round: slot `2 * j` is `playerA` of match `j`,
slot `2 * j + 1` its `playerB`. -/
def slotAt (round0 : List Match) (p : Nat) : Option Competitor :=
  match (round0Slots round0)[p]? with
  | some slot => slot
  | none => none

/-- The ids of the competitors of the first round, slot by slot. -/
def round0Ids (round0 : List Match) : List String :=
  (round0Slots round0).filterMap fun slot => slot.map Competitor.id

/-- The facts about a round list that `deriveRounds_spec` gives for the tree derived from the
round-0 list `initialMatches` of length `2 ^ k` under the store `winnersMap`. -/
structure Derived (winnersMap : Store) (k : Nat) (initialMatches : List Match)
    (out : List (List Match)) : Prop where
  ids : out.map (List.map Match.id) = idTree k
  round0 : ∀ i m0, initialMatches[i]? = some m0 →
    ∃ m, matchAt out 0 i = some m ∧ m.playerA = m0.playerA ∧ m.playerB = m0.playerB
  link : ∀ r i m, r < k → matchAt out r i = some m →
    ∃ parent, matchAt out (r + 1) (i / 2) = some parent ∧
      parentSlot parent i = resolveWinner winnersMap m
  len : initialMatches.length = 2 ^ k

/-- A first round whose competitors have pairwise distinct ids, one of them the empty
string. -/
def emptyIdRound0 : List Match :=
  [ { id := "r0-m0", winnerId := none,
      playerA := some { id := "p_a", name := "A", seed := 1, isBye := false },
      playerB := some { id := "", name := "D", seed := 4, isBye := false } },
    { id := "r0-m1", winnerId := none,
      playerA := some { id := "p_b", name := "B", seed := 2, isBye := false },
      playerB := some { id := "p_c", name := "C", seed := 3, isBye := false } } ]

/-- A stored first round of two matches whose first match, an entrant against a bye, carries
the id "constructor". -/
def inheritedIdRound0 : List Match :=
  [ { id := "constructor", winnerId := none,
      playerA := some { id := "p_a", name := "A", seed := 1, isBye := false },
      playerB := some { id := "bye_x", name := "BYE", seed := 4, isBye := true } },
    { id := "r0-m1", winnerId := none,
      playerA := some { id := "p_b", name := "B", seed := 2, isBye := false },
      playerB := some { id := "p_c", name := "C", seed := 3, isBye := false } } ]

/-! # Properties

## Seed order: auxiliary facts -/

theorem pushPairs_length (S : Nat) (l : List Nat) : (pushPairs S l).length = 2 * l.length := by
  induction l with
  | nil => rfl
  | cons x xs ih => simp only [pushPairs, List.length_cons, ih]; omega

theorem pushPairs_even (S : Nat) (l : List Nat) (i : Nat) :
    (pushPairs S l)[2 * i]? = l[i]? := by
  induction l generalizing i with
  | nil => simp [pushPairs]
  | cons x xs ih =>
    cases i with
    | zero => simp [pushPairs]
    | succ i =>
      have h : 2 * (i + 1) = 2 * i + 1 + 1 := by omega
      simp only [pushPairs, h, List.getElem?_cons_succ, ih]

theorem pushPairs_odd (S : Nat) (l : List Nat) (i : Nat) :
    (pushPairs S l)[2 * i + 1]? = (l[i]?).map (fun x => S + 1 - x) := by
  induction l generalizing i with
  | nil => simp [pushPairs]
  | cons x xs ih =>
    cases i with
    | zero => simp [pushPairs]
    | succ i =>
      have h : 2 * (i + 1) + 1 = (2 * i + 1) + 1 + 1 := by omega
      simp only [pushPairs, h, List.getElem?_cons_succ, ih]

theorem seedIter_length (j : Nat) : (seedIter j).length = 2 ^ (j + 1) := by
  induction j with
  | zero => rfl
  | succ j ih =>
    simp only [seedIter, seedingStep, pushPairs_length, ih]
    rw [pow_succ 2 (j + 1)]; omega

/-- With enough passes allowed, the loop started from the array after `j` passes returns the
array after `j + d` passes when `size = 2 ^ (j + 1 + d)`. -/
theorem generateSeedingLoop_seedIter (d : Nat) :
    ∀ (j fuel : Nat), d ≤ fuel →
      generateSeedingLoop fuel (2 ^ (j + 1 + d)) (seedIter j) = seedIter (j + d) := by
  induction d with
  | zero =>
    intro j fuel _
    cases fuel with
    | zero => rfl
    | succ f => simp [generateSeedingLoop, seedIter_length]
  | succ d ih =>
    intro j fuel hf
    cases fuel with
    | zero => omega
    | succ f =>
      have hlt : 2 ^ (j + 1) < 2 ^ (j + 1 + (d + 1)) :=
        Nat.pow_lt_pow_right (by decide) (by omega)
      have hstep := ih (j + 1) f (by omega)
      have e1 : j + 1 + 1 + d = j + 1 + (d + 1) := by omega
      have e2 : j + 1 + d = j + (d + 1) := by omega
      rw [e1, e2] at hstep
      simp only [generateSeedingLoop, seedIter_length, hlt, if_true]
      exact hstep

/-- The closed form of `generateSeeding` on a power of two: `k` passes after `[1, 2]`. -/
theorem generateSeeding_pow (k : Nat) : generateSeeding (2 ^ (k + 1)) = seedIter k := by
  have h2 : ¬ 2 ^ (k + 1) < 2 := by
    have : 1 ≤ 2 ^ k := Nat.one_le_two_pow
    rw [pow_succ]; omega
  have hk : k ≤ 2 ^ (k + 1) := by
    have : k + 1 < 2 ^ (k + 1) := Nat.lt_two_pow (k + 1)
    omega
  have h := generateSeedingLoop_seedIter k 0 (2 ^ (k + 1)) hk
  simp only [Nat.zero_add] at h
  have e : 0 + 1 + k = k + 1 := by omega
  rw [e] at h
  simp only [generateSeeding, h2, if_false]
  exact h

theorem seedingStep_length (arr : List Nat) : (seedingStep arr).length = 2 * arr.length := by
  simp only [seedingStep, pushPairs_length]

/-- One more allowed pass does not change the result once `size ≤ fuel + arr.length`. -/
theorem generateSeedingLoop_succ (fuel : Nat) :
    ∀ (size : Nat) (arr : List Nat), 1 ≤ arr.length → size ≤ fuel + arr.length →
      generateSeedingLoop (fuel + 1) size arr = generateSeedingLoop fuel size arr := by
  induction fuel with
  | zero =>
    intro size arr _ h
    have hn : ¬ arr.length < size := by omega
    simp [generateSeedingLoop, hn]
  | succ f ih =>
    intro size arr h1 h
    by_cases hlt : arr.length < size
    · have hs := ih size (seedingStep arr) (by rw [seedingStep_length]; omega)
        (by rw [seedingStep_length]; omega)
      rw [generateSeedingLoop, if_pos hlt, hs]
      conv => rhs; rw [generateSeedingLoop, if_pos hlt]
    · rw [generateSeedingLoop, if_neg hlt]
      conv => rhs; rw [generateSeedingLoop, if_neg hlt]

/-- The bound on the number of passes in `generateSeeding` is never the reason for leaving the
loop: every larger bound gives the same array. -/
theorem generateSeedingLoop_fuel (size extra : Nat) :
    generateSeedingLoop (size + extra) size [1, 2] = generateSeedingLoop size size [1, 2] := by
  induction extra with
  | zero => rfl
  | succ e ih =>
    have h := generateSeedingLoop_succ (size + e) size [1, 2] (by simp) (by simp; omega)
    rw [← ih, ← h]; rfl

/-- Every entry of the array after `j` passes lies between 1 and the length of the array, so
the subtraction `S + 1 - x` of the next pass is exact. -/
theorem seedIter_bounds (j : Nat) : ∀ x ∈ seedIter j, 1 ≤ x ∧ x ≤ 2 ^ (j + 1) := by
  induction j with
  | zero => intro x hx; simp [seedIter] at hx; omega
  | succ j ih =>
    have hp : ∀ (S : Nat) (l : List Nat), (∀ x ∈ l, 1 ≤ x ∧ 2 * x ≤ S) →
        ∀ y ∈ pushPairs S l, 1 ≤ y ∧ y ≤ S := by
      intro S l
      induction l with
      | nil => intro _ y hy; simp [pushPairs] at hy
      | cons a as iha =>
        intro hl y hy
        have ha := hl a (List.mem_cons_self a as)
        simp only [pushPairs, List.mem_cons] at hy
        rcases hy with rfl | rfl | hy
        · omega
        · omega
        · exact iha (fun x hx => hl x (List.mem_cons_of_mem a hx)) y hy
    intro x hx
    have hS : (seedIter j).length * 2 = 2 ^ (j + 1 + 1) := by
      rw [seedIter_length, pow_succ 2 (j + 1)]
    simp only [seedIter, seedingStep, hS] at hx
    refine hp _ _ ?_ x hx
    intro y hy
    have := ih y hy
    rw [pow_succ 2 (j + 1)]; omega

theorem pushPairs_count (S : Nat) (l : List Nat) (hl : ∀ x ∈ l, 1 ≤ x ∧ 2 * x ≤ S) (v : Nat)
    (hv1 : 1 ≤ v) (hv2 : v ≤ S) :
    (pushPairs S l).count v = if 2 * v ≤ S then l.count v else l.count (S + 1 - v) := by
  induction l with
  | nil => simp [pushPairs]
  | cons a as ih =>
    have ha := hl a (List.mem_cons_self a as)
    have ih1 := ih (fun x hx => hl x (List.mem_cons_of_mem a hx))
    simp only [pushPairs, List.count_cons, ih1, beq_iff_eq]
    split_ifs <;> omega

/-- Every integer from 1 to the length occurs exactly once in the array after `j` passes. -/
theorem seedIter_count (j : Nat) : ∀ v, 1 ≤ v → v ≤ 2 ^ (j + 1) → (seedIter j).count v = 1 := by
  induction j with
  | zero =>
    intro v h1 h2
    have : v = 1 ∨ v = 2 := by simp at h2; omega
    rcases this with rfl | rfl <;> decide
  | succ j ih =>
    intro v h1 h2
    have hS : (seedIter j).length * 2 = 2 ^ (j + 1 + 1) := by
      rw [seedIter_length, pow_succ 2 (j + 1)]
    have hb : ∀ x ∈ seedIter j, 1 ≤ x ∧ 2 * x ≤ 2 ^ (j + 1 + 1) := by
      intro x hx
      have := seedIter_bounds j x hx
      rw [pow_succ 2 (j + 1)]; omega
    simp only [seedIter, seedingStep, hS]
    rw [pushPairs_count _ _ hb v h1 h2]
    have hp : 2 ^ (j + 1 + 1) = 2 * 2 ^ (j + 1) := by rw [pow_succ 2 (j + 1)]; omega
    split
    · exact ih v h1 (by omega)
    · exact ih _ (by omega) (by omega)

/-- Where the small seeds sit: in the array after `j` passes (length `2 ^ (j + 1)`), the entry at
position `p` is at most `2 ^ t` exactly when `p` is a multiple of `2 ^ (j + 1 - t)`. -/
theorem seedIter_small_iff (j : Nat) : ∀ (t p v : Nat), t ≤ j + 1 → (seedIter j)[p]? = some v →
    (v ≤ 2 ^ t ↔ 2 ^ (j + 1 - t) ∣ p) := by
  induction j with
  | zero =>
    intro t p v ht hp
    have hp2 : p < 2 := by
      have := (List.getElem?_eq_some_iff.mp hp).1
      simpa [seedIter] using this
    have ht2 : t = 0 ∨ t = 1 := by omega
    have hpc : p = 0 ∨ p = 1 := by omega
    rcases hpc with rfl | rfl <;> rcases ht2 with rfl | rfl <;>
      simp [seedIter] at hp <;> subst hp <;> decide
  | succ j ih =>
    intro t p v ht hp
    have hS : (seedIter j).length * 2 = 2 ^ (j + 1 + 1) := by
      rw [seedIter_length, pow_succ 2 (j + 1)]
    simp only [seedIter, seedingStep, hS] at hp
    have hpow : 2 ^ (j + 1 + 1) = 2 * 2 ^ (j + 1) := by rw [pow_succ 2 (j + 1)]; omega
    by_cases htop : t = j + 1 + 1
    · subst htop
      have hv : v ≤ 2 ^ (j + 1 + 1) := by
        have hmem : v ∈ seedIter (j + 1) := by
          simp only [seedIter, seedingStep, hS]
          exact List.getElem?_mem hp
        exact (seedIter_bounds (j + 1) v hmem).2
      simp [hv]
    · have htj : t ≤ j + 1 := by omega
      have hexp : j + 1 + 1 - t = (j + 1 - t) + 1 := by omega
      rcases Nat.even_or_odd' p with ⟨i, rfl | rfl⟩
      · rw [pushPairs_even] at hp
        rw [ih t i v htj hp, hexp, pow_succ, Nat.mul_comm (2 ^ (j + 1 - t)) 2]
        exact (Nat.mul_dvd_mul_iff_left (by decide)).symm
      · rw [pushPairs_odd] at hp
        obtain ⟨x, hx, rfl⟩ := Option.map_eq_some'.mp hp
        have hxb := seedIter_bounds j x (List.getElem?_mem hx)
        have hle : 2 ^ t ≤ 2 ^ (j + 1) := Nat.pow_le_pow_right (by decide) htj
        constructor
        · intro h; omega
        · intro h
          exfalso
          have h2 : 2 ∣ 2 * i + 1 := by
            refine Dvd.dvd.trans ?_ h
            rw [hexp, pow_succ]
            exact Dvd.intro_left _ rfl
          omega

/-! ## Seed order: the claims -/

/-- C3: for every k ≥ 1, `generateSeeding (2 ^ k)` is a permutation of the integers 1..2^k: its
length is 2^k, every integer from 1 to 2^k occurs in it exactly once, and it is a rearrangement
of the list 1, 2, ..., 2^k. -/
theorem generateSeeding_permutation (k : Nat) (hk : 1 ≤ k) :
    (generateSeeding (2 ^ k)).length = 2 ^ k ∧
    (∀ v, 1 ≤ v → v ≤ 2 ^ k → (generateSeeding (2 ^ k)).count v = 1) ∧
    List.Perm (generateSeeding (2 ^ k)) (List.range' 1 (2 ^ k)) := by
  obtain ⟨j, rfl⟩ : ∃ j, k = j + 1 := ⟨k - 1, by omega⟩
  rw [generateSeeding_pow]
  refine ⟨seedIter_length j, seedIter_count j, ?_⟩
  rw [List.perm_iff_count]
  intro v
  by_cases hv : 1 ≤ v ∧ v ≤ 2 ^ (j + 1)
  · rw [seedIter_count j v hv.1 hv.2]
    symm
    refine List.count_eq_one_of_mem (List.nodup_range' 1 (2 ^ (j + 1))) ?_
    rw [List.mem_range'_1]; omega
  · have h1 : v ∉ seedIter j := fun hm => hv (seedIter_bounds j v hm)
    have h2 : v ∉ List.range' 1 (2 ^ (j + 1)) := by
      rw [List.mem_range'_1]; omega
    rw [List.count_eq_zero_of_not_mem h1, List.count_eq_zero_of_not_mem h2]

theorem generateSeeding_permutation_witness :
    1 ≤ 2 ∧
    (generateSeeding (2 ^ 2)).length = 2 ^ 2 ∧
    (∀ v, 1 ≤ v → v ≤ 2 ^ 2 → (generateSeeding (2 ^ 2)).count v = 1) ∧
    List.Perm (generateSeeding (2 ^ 2)) (List.range' 1 (2 ^ 2)) :=
  ⟨by decide, generateSeeding_permutation 2 (by decide)⟩

/-- C8: seed separation.  For every k ≥ 1 and every j with 1 ≤ j ≤ k, cut the positions of
`generateSeeding (2 ^ k)` into the 2^j aligned blocks of 2^(k-j) consecutive positions (the block
of position p is p / 2^(k-j)).  Every block holds exactly one of the seeds 1..2^j, and two
different seeds among 1..2^j never lie in the same block.  (j = 1: seeds 1 and 2 lie in opposite
halves; j = 2: seeds 1, 2, 3, 4 lie in four different quarters.) -/
theorem generateSeeding_seed_separation (k j : Nat) (hj1 : 1 ≤ j) (hjk : j ≤ k) :
    (∀ b, b < 2 ^ j →
      ∃! p, p / 2 ^ (k - j) = b ∧
        ∃ s, (generateSeeding (2 ^ k))[p]? = some s ∧ 1 ≤ s ∧ s ≤ 2 ^ j) ∧
    (∀ p q s t, (generateSeeding (2 ^ k))[p]? = some s → (generateSeeding (2 ^ k))[q]? = some t →
      s ≤ 2 ^ j → t ≤ 2 ^ j → s ≠ t → p / 2 ^ (k - j) ≠ q / 2 ^ (k - j)) := by
  obtain ⟨i, rfl⟩ : ∃ i, k = i + 1 := ⟨k - 1, by omega⟩
  rw [generateSeeding_pow]
  have hB : 0 < 2 ^ (i + 1 - j) := Nat.two_pow_pos _
  have hprod : 2 ^ j * 2 ^ (i + 1 - j) = 2 ^ (i + 1) := by
    rw [← pow_add]; congr 1; omega
  -- a position holding a small seed is the first position of its block
  have hfirst : ∀ p s, (seedIter i)[p]? = some s → s ≤ 2 ^ j →
      p = p / 2 ^ (i + 1 - j) * 2 ^ (i + 1 - j) := by
    intro p s hp hs
    have hd := (seedIter_small_iff i j p s hjk hp).mp hs
    exact (Nat.div_mul_cancel hd).symm
  constructor
  · intro b hb
    have hlt : b * 2 ^ (i + 1 - j) < (seedIter i).length := by
      rw [seedIter_length, ← hprod]
      exact Nat.mul_lt_mul_of_pos_right hb hB
    refine ⟨b * 2 ^ (i + 1 - j), ⟨Nat.mul_div_cancel b hB, (seedIter i)[b * 2 ^ (i + 1 - j)], ?_, ?_, ?_⟩, ?_⟩
    · exact List.getElem?_eq_getElem hlt
    · exact (seedIter_bounds i _ (List.getElem_mem hlt)).1
    · exact (seedIter_small_iff i j _ _ hjk (List.getElem?_eq_getElem hlt)).mpr
        (Dvd.intro_left b rfl)
    · rintro p ⟨hpb, s, hps, _, hs⟩
      have := hfirst p s hps hs
      rw [hpb] at this
      exact this
  · intro p q s t hp hq hs ht hne hblock
    have e1 := hfirst p s hp hs
    have e2 := hfirst q t hq ht
    rw [hblock] at e1
    have hpq : p = q := e1.trans e2.symm
    subst hpq
    rw [hp] at hq
    exact hne (Option.some.inj hq)

theorem generateSeeding_seed_separation_witness :
    1 ≤ 1 ∧ 1 ≤ 3 ∧
    (∀ b, b < 2 ^ 1 →
      ∃! p, p / 2 ^ (3 - 1) = b ∧
        ∃ s, (generateSeeding (2 ^ 3))[p]? = some s ∧ 1 ≤ s ∧ s ≤ 2 ^ 1) ∧
    (∀ p q s t, (generateSeeding (2 ^ 3))[p]? = some s → (generateSeeding (2 ^ 3))[q]? = some t →
      s ≤ 2 ^ 1 → t ≤ 2 ^ 1 → s ≠ t → p / 2 ^ (3 - 1) ≠ q / 2 ^ (3 - 1)) :=
  ⟨by decide, by decide, generateSeeding_seed_separation 3 1 (by decide) (by decide)⟩

/-- C9: mirrored first-round pairing.  For every k ≥ 1 and every i < 2^(k-1), the entries of
`generateSeeding (2 ^ k)` at positions 2i and 2i+1 exist and sum to 2^k + 1. -/
theorem generateSeeding_mirrored_pairs (k i : Nat) (hk : 1 ≤ k) (hi : i < 2 ^ (k - 1)) :
    ∃ a b, (generateSeeding (2 ^ k))[2 * i]? = some a ∧
      (generateSeeding (2 ^ k))[2 * i + 1]? = some b ∧ a + b = 2 ^ k + 1 := by
  obtain ⟨j, rfl⟩ : ∃ j, k = j + 1 := ⟨k - 1, by omega⟩
  rw [generateSeeding_pow]
  simp only [Nat.add_sub_cancel] at hi
  cases j with
  | zero =>
    have : i = 0 := by simpa using hi
    subst this
    exact ⟨1, 2, rfl, rfl, rfl⟩
  | succ j =>
    have hlen : i < (seedIter j).length := by rw [seedIter_length]; exact hi
    have hx : (seedIter j)[i]? = some (seedIter j)[i] := List.getElem?_eq_getElem hlen
    have hb := seedIter_bounds j _ (List.getElem_mem hlen)
    have hS : (seedIter j).length * 2 = 2 ^ (j + 1 + 1) := by
      rw [seedIter_length, pow_succ 2 (j + 1)]
    refine ⟨(seedIter j)[i], 2 ^ (j + 1 + 1) + 1 - (seedIter j)[i], ?_, ?_, ?_⟩
    · simp only [seedIter, seedingStep]
      rw [pushPairs_even, hx]
    · simp only [seedIter, seedingStep]
      rw [pushPairs_odd, hx, hS]; rfl
    · have hp : 2 ^ (j + 1 + 1) = 2 * 2 ^ (j + 1) := by rw [pow_succ 2 (j + 1)]; omega
      omega

theorem generateSeeding_mirrored_pairs_witness :
    1 ≤ 3 ∧ 1 < 2 ^ (3 - 1) ∧
    ∃ a b, (generateSeeding (2 ^ 3))[2 * 1]? = some a ∧
      (generateSeeding (2 ^ 3))[2 * 1 + 1]? = some b ∧ a + b = 2 ^ 3 + 1 :=
  ⟨by decide, by decide, generateSeeding_mirrored_pairs 3 1 (by decide) (by decide)⟩

/-! ## Round derivation: one pass of the inner loop -/

theorem placed_none (i j : Nat) (parent : Match) : placed i none j parent = parent := by
  unfold placed orKeep
  split_ifs <;> rfl

theorem placed_ne (i : Nat) (w : Option Competitor) (j : Nat) (parent : Match) (h : ¬ j = i / 2) :
    placed i w j parent = parent := by
  simp only [placed, h, if_false]

theorem orKeep_none (old : Option Competitor) : orKeep none old = old := rfl

theorem placeNext_spec (nextRound : List Match) (i : Nat) (w : Option Competitor)
    (hb : i / 2 < nextRound.length) :
    ∃ next1, placeNext nextRound i w = some next1 ∧ next1.length = nextRound.length ∧
      ∀ j, next1[j]? = (nextRound[j]?).map (placed i w j) := by
  cases w with
  | none =>
    refine ⟨nextRound, rfl, rfl, fun j => ?_⟩
    cases h : nextRound[j]? with
    | none => rfl
    | some p => simp [placed_none]
  | some c =>
    have hp : nextRound[i / 2]? = some nextRound[i / 2] := List.getElem?_eq_getElem hb
    by_cases hpar : i % 2 = 0
    · refine ⟨nextRound.set (i / 2) { nextRound[i / 2] with playerA := some c }, ?_, ?_, fun j => ?_⟩
      · simp only [placeNext, hp, hpar, if_true]
      · simp
      · rw [List.getElem?_set]
        by_cases hj : i / 2 = j
        · subst hj
          simp [hb, placed, hpar, orKeep]
        · have hj2 : ¬ j = i / 2 := fun h => hj h.symm
          simp only [hj, if_false]
          cases nextRound[j]? with
          | none => rfl
          | some p => simp only [Option.map_some', placed_ne i _ j p hj2]
    · refine ⟨nextRound.set (i / 2) { nextRound[i / 2] with playerB := some c }, ?_, ?_, fun j => ?_⟩
      · simp only [placeNext, hp, hpar, if_false]
      · simp
      · rw [List.getElem?_set]
        by_cases hj : i / 2 = j
        · subst hj
          simp [hb, placed, hpar, orKeep]
        · have hj2 : ¬ j = i / 2 := fun h => hj h.symm
          simp only [hj, if_false]
          cases nextRound[j]? with
          | none => rfl
          | some p => simp only [Option.map_some', placed_ne i _ j p hj2]

theorem winnerAt_cons (winnersMap : Store) (i : Nat) (m : Match) (rest : List Match) (t : Nat) :
    winnerAt winnersMap i (m :: rest) t =
      if t = i then resolveWinner winnersMap m else winnerAt winnersMap (i + 1) rest t := by
  unfold winnerAt
  by_cases h1 : t = i
  · subst h1; simp
  · by_cases h2 : i ≤ t
    · have h3 : i + 1 ≤ t := by omega
      have h4 : t - i = (t - (i + 1)) + 1 := by omega
      simp only [h1, h2, h3, if_true, if_false]
      rw [h4, List.getElem?_cons_succ]
    · have h3 : ¬ i + 1 ≤ t := by omega
      simp [h1, h2, h3]

theorem winnerAt_nil (winnersMap : Store) (i t : Nat) : winnerAt winnersMap i [] t = none := by
  unfold winnerAt; split <;> simp

theorem fed_placed (winnersMap : Store) (i : Nat) (m : Match) (rest : List Match) (j : Nat)
    (parent : Match) :
    fed winnersMap (i + 1) rest j (placed i (resolveWinner winnersMap m) j parent) =
      fed winnersMap i (m :: rest) j parent := by
  have hlo : ∀ t, t ≤ i → winnerAt winnersMap (i + 1) rest t = none := by
    intro t ht; unfold winnerAt; have : ¬ i + 1 ≤ t := by omega
    simp [this]
  unfold fed placed
  simp only [winnerAt_cons]
  by_cases hj : j = i / 2
  · by_cases hpar : i % 2 = 0
    · have e1 : 2 * j = i := by omega
      have e2 : ¬ 2 * j + 1 = i := by omega
      simp only [hj, hpar, if_true] 
      have e3 : ¬ i + 1 = i := by omega
      simp only [← hj, e1, e2, e3, if_true, if_false, hlo i (le_refl i), orKeep_none]
    · have e1 : ¬ 2 * j = i := by omega
      have e2 : 2 * j + 1 = i := by omega
      simp only [hj, hpar, if_true, if_false] 
      simp only [← hj, e1, e2, if_true, if_false, hlo i (le_refl i), orKeep_none]
  · have e1 : ¬ 2 * j = i := by omega
    have e2 : ¬ 2 * j + 1 = i := by omega
    simp only [hj, e1, e2, if_false]

theorem processRound_spec (winnersMap : Store) (cur : List Match) :
    ∀ (i : Nat) (nextRound : List Match),
      (∀ t, t < cur.length → (i + t) / 2 < nextRound.length) →
      ∃ next1, processRound winnersMap i cur nextRound
          = some (cur.map (stampWinner winnersMap), next1) ∧
        next1.length = nextRound.length ∧
        ∀ j, next1[j]? = (nextRound[j]?).map (fed winnersMap i cur j) := by
  induction cur with
  | nil =>
    intro i nextRound _
    refine ⟨nextRound, rfl, rfl, fun j => ?_⟩
    cases h : nextRound[j]? with
    | none => rfl
    | some p => simp [fed, winnerAt_nil, orKeep]
  | cons m rest ih =>
    intro i nextRound hb
    obtain ⟨n1, hn1, hlen1, hget1⟩ :=
      placeNext_spec nextRound i (resolveWinner winnersMap m) (by simpa using hb 0 (by simp))
    obtain ⟨n2, hn2, hlen2, hget2⟩ := ih (i + 1) n1 (by
      intro t ht
      have := hb (t + 1) (by simpa using ht)
      rw [hlen1]
      have e : i + 1 + t = i + (t + 1) := by omega
      rw [e]; exact this)
    refine ⟨n2, ?_, by rw [hlen2, hlen1], fun j => ?_⟩
    · simp only [processRound, hn1, hn2, List.map_cons]
    · rw [hget2, hget1, Option.map_map]
      congr 1
      funext parent
      exact fed_placed winnersMap i m rest j parent

/-! ## Round derivation: the outer loop -/

theorem core_stampWinner (winnersMap : Store) (m : Match) :
    core (stampWinner winnersMap m) = core m := by
  unfold stampWinner
  split <;> rfl

theorem resolveWinner_congr (winnersMap : Store) (m m' : Match) (h : core m = core m') :
    resolveWinner winnersMap m = resolveWinner winnersMap m' := by
  simp only [core, Prod.mk.injEq] at h
  obtain ⟨h1, h2, h3⟩ := h
  simp only [resolveWinner, h1, h2, h3]

theorem parentSlot_congr (m m' : Match) (i : Nat) (h : core m = core m') :
    parentSlot m i = parentSlot m' i := by
  simp only [core, Prod.mk.injEq] at h
  obtain ⟨_, h2, h3⟩ := h
  simp only [parentSlot, h2, h3]

theorem map_core_getElem? (l l' : List Match) (h : l.map core = l'.map core) (i : Nat) (m : Match)
    (hm : l[i]? = some m) : ∃ m', l'[i]? = some m' ∧ core m = core m' := by
  have h1 : (l.map core)[i]? = some (core m) := by rw [List.getElem?_map, hm]; rfl
  rw [h, List.getElem?_map] at h1
  obtain ⟨m', hm', hc⟩ := Option.map_eq_some'.mp h1
  exact ⟨m', hm', hc.symm⟩

theorem propagate_spec (winnersMap : Store) (rest : List (List Match)) :
    ∀ cur : List Match, Halving cur rest → Blank rest →
      ∃ out0 tail, propagate winnersMap cur rest = some (out0 :: tail) ∧
        out0.map core = cur.map core ∧
        (rest ≠ [] → out0 = cur.map (stampWinner winnersMap)) ∧
        tail.map (List.map Match.id) = rest.map (List.map Match.id) ∧
        ∀ r i m, r < rest.length → matchAt (out0 :: tail) r i = some m →
          ∃ parent, matchAt (out0 :: tail) (r + 1) (i / 2) = some parent ∧
            parentSlot parent i = resolveWinner winnersMap m := by
  induction rest with
  | nil =>
    intro cur _ _
    refine ⟨cur, [], rfl, rfl, fun h => absurd rfl h, rfl, ?_⟩
    intro r i m hr _
    simp at hr
  | cons nextRound rest ih =>
    intro cur hH hB
    obtain ⟨hle, hH'⟩ := hH
    obtain ⟨n1, hn1, hlen1, hget1⟩ := processRound_spec winnersMap cur 0 nextRound (by
      intro t ht; omega)
    have hB' : Blank rest := fun rd hrd => hB rd (List.mem_cons_of_mem _ hrd)
    have hH1 : Halving n1 rest := by
      cases rest with
      | nil => trivial
      | cons a as => exact ⟨by rw [hlen1]; exact hH'.1, hH'.2⟩
    obtain ⟨o0, tl, hprop, hcore, _, hids, hlink⟩ := ih n1 hH1 hB'
    have hn1ids : n1.map Match.id = nextRound.map Match.id := by
      apply List.ext_getElem?
      intro j
      simp only [List.getElem?_map, hget1 j, Option.map_map]
      cases nextRound[j]? <;> rfl
    have ho0ids : o0.map Match.id = n1.map Match.id := by
      have := congrArg (List.map Prod.fst) hcore
      simpa [List.map_map, Function.comp, core] using this
    refine ⟨cur.map (stampWinner winnersMap), o0 :: tl, ?_, ?_, fun _ => rfl, ?_, ?_⟩
    · simp only [propagate, hn1, hprop]
    · simp only [List.map_map]
      congr 1
      funext m
      exact core_stampWinner winnersMap m
    · simp only [List.map_cons, hids, ho0ids, hn1ids]
    · intro r i m hr hm
      cases r with
      | zero =>
        simp only [matchAt, List.getElem?_cons_zero, List.getElem?_map] at hm
        obtain ⟨m0, hm0, rfl⟩ := Option.map_eq_some'.mp hm
        have hi : i < cur.length := (List.getElem?_eq_some_iff.mp hm0).1
        have hpar : i / 2 < nextRound.length := by omega
        have hnx : nextRound[i / 2]? = some nextRound[i / 2] := List.getElem?_eq_getElem hpar
        have hblank := hB nextRound (List.mem_cons_self _ _) _ (List.getElem_mem hpar)
        have hn1get := hget1 (i / 2)
        rw [hnx] at hn1get
        simp only [Option.map_some'] at hn1get
        have ho0len : o0.length = n1.length := by
          have := congrArg List.length hcore
          simpa using this
        have hpar0 : i / 2 < o0.length := by rw [ho0len, hlen1]; exact hpar
        have ho0get : o0[i / 2]? = some o0[i / 2] := List.getElem?_eq_getElem hpar0
        obtain ⟨p1, hp1, hcp⟩ := map_core_getElem? o0 n1 hcore (i / 2) _ ho0get
        rw [hn1get] at hp1
        refine ⟨o0[i / 2], ?_, ?_⟩
        · simp only [matchAt, List.getElem?_cons_succ, List.getElem?_cons_zero, ho0get]
        · rw [parentSlot_congr _ _ i hcp, ← Option.some.inj hp1,
            resolveWinner_congr winnersMap _ _ (core_stampWinner winnersMap m0)]
          have hw : winnerAt winnersMap 0 cur i = resolveWinner winnersMap m0 := by
            simp [winnerAt, hm0]
          simp only [parentSlot, fed, hblank.1, hblank.2, orKeep]
          by_cases hpi : i % 2 = 0
          · have e : 2 * (i / 2) = i := by omega
            simp only [hpi, if_true, e, hw]
            cases resolveWinner winnersMap m0 <;> rfl
          · have e : 2 * (i / 2) + 1 = i := by omega
            simp only [hpi, if_false, e, hw]
            cases resolveWinner winnersMap m0 <;> rfl
      | succ r =>
        have hr' : r < rest.length := by simpa using hr
        have hm' : matchAt (o0 :: tl) r i = some m := by
          simpa only [matchAt, List.getElem?_cons_succ] using hm
        obtain ⟨parent, hp, hs⟩ := hlink r i m hr' hm'
        refine ⟨parent, ?_, hs⟩
        simpa only [matchAt, List.getElem?_cons_succ] using hp

/-! ## Round derivation: the materialised rounds -/

theorem overlayRound0_length (winnersMap : Store) (l : List Match) : ∀ i,
    (overlayRound0 winnersMap i l).length = l.length := by
  induction l with
  | nil => intro i; rfl
  | cons m rest ih => intro i; simp only [overlayRound0, List.length_cons, ih (i + 1)]

theorem overlayRound0_getElem? (winnersMap : Store) (l : List Match) : ∀ i t,
    (overlayRound0 winnersMap i l)[t]? =
      (l[t]?).map fun (m : Match) =>
        { m with id := matchId 0 (i + t), winnerId := lookupOrNull winnersMap m.id } := by
  induction l with
  | nil => intro i t; rfl
  | cons m rest ih =>
    intro i t
    cases t with
    | zero => simp [overlayRound0]
    | succ t =>
      simp only [overlayRound0, List.getElem?_cons_succ, ih (i + 1) t]
      have e : i + 1 + t = i + (t + 1) := by omega
      rw [e]

theorem overlayRound0_ids (winnersMap : Store) (l : List Match) :
    (overlayRound0 winnersMap 0 l).map Match.id = (List.range l.length).map (matchId 0) := by
  apply List.ext_getElem?
  intro t
  simp only [List.getElem?_map, overlayRound0_getElem?, Option.map_map]
  by_cases ht : t < l.length
  · rw [List.getElem?_eq_getElem ht, List.getElem?_range ht]
    simp
  · rw [List.getElem?_eq_none (by omega), List.getElem?_eq_none (by simp; omega)]
    rfl

theorem blankRound_ids (winnersMap : Store) (r len : Nat) :
    (blankRound winnersMap r len).map Match.id = (List.range len).map (matchId r) := by
  simp only [blankRound, List.map_map]
  rfl

theorem blankRound_length (winnersMap : Store) (r len : Nat) :
    (blankRound winnersMap r len).length = len := by
  simp [blankRound]

theorem blankRound_blank (winnersMap : Store) (r len : Nat) :
    ∀ m ∈ blankRound winnersMap r len, m.playerA = none ∧ m.playerB = none := by
  intro m hm
  simp only [blankRound, List.mem_map] at hm
  obtain ⟨_, _, rfl⟩ := hm
  exact ⟨rfl, rfl⟩

/-- One more allowed pass does not change the blank rounds once `size ≤ fuel + r`: the bound on
the number of passes is not what ends the loop. -/
theorem blankRounds_succ (winnersMap : Store) (size : Nat) (fuel : Nat) :
    ∀ r, size ≤ fuel + r →
      blankRounds winnersMap size (fuel + 1) r = blankRounds winnersMap size fuel r := by
  induction fuel with
  | zero =>
    intro r h
    have : ¬ 2 ^ r < size := by
      have := Nat.lt_two_pow r
      omega
    simp [blankRounds, this]
  | succ f ih =>
    intro r h
    by_cases hlt : 2 ^ r < size
    · rw [blankRounds, if_pos hlt, ih (r + 1) (by omega)]
      conv => rhs; rw [blankRounds, if_pos hlt]
    · rw [blankRounds, if_neg hlt]
      conv => rhs; rw [blankRounds, if_neg hlt]

/-- The bound `size` on the number of passes in `deriveRounds` is not what ends the loop over
the later rounds: every larger bound gives the same rounds. -/
theorem blankRounds_fuel (winnersMap : Store) (size extra : Nat) :
    blankRounds winnersMap size (size + extra) 1 = blankRounds winnersMap size size 1 := by
  induction extra with
  | zero => rfl
  | succ e ih =>
    have h := blankRounds_succ winnersMap size (size + e) 1 (by omega)
    rw [← ih, ← h]; rfl

/-- The blank rounds over `2 ^ k` first-round matches: rounds `r`, ..., `k`, round `r'` with
`2 ^ (k - r')` matches. -/
theorem blankRounds_pow (winnersMap : Store) (k : Nat) (d : Nat) :
    ∀ r fuel, r + d = k + 1 → d ≤ fuel →
      blankRounds winnersMap (2 ^ k * 2) fuel r =
        (List.range' r d).map fun r' => blankRound winnersMap r' (2 ^ (k - r')) := by
  induction d with
  | zero =>
    intro r fuel hr _
    have hn : ¬ 2 ^ r < 2 ^ k * 2 := by
      have e : r = k + 1 := by omega
      rw [← pow_succ, e]; omega
    cases fuel with
    | zero => rfl
    | succ f => simp [blankRounds, hn]
  | succ d ih =>
    intro r fuel hr hf
    cases fuel with
    | zero => omega
    | succ f =>
      have hlt : 2 ^ r < 2 ^ k * 2 := by
        rw [← pow_succ]
        exact Nat.pow_lt_pow_right (by decide) (by omega)
      have hdiv : 2 ^ k * 2 / 2 ^ (r + 1) = 2 ^ (k - r) := by
        rw [← pow_succ, Nat.pow_div (by omega) (by decide)]
        congr 1; omega
      simp only [blankRounds, hlt, if_true, hdiv, List.range'_succ, List.map_cons,
        ih (r + 1) f (by omega) (by omega)]

theorem halving_blank (winnersMap : Store) (k d : Nat) :
    ∀ (r : Nat) (cur : List Match), r + d = k + 1 → 1 ≤ r → cur.length = 2 ^ (k + 1 - r) →
      Halving cur ((List.range' r d).map fun r' => blankRound winnersMap r' (2 ^ (k - r'))) := by
  induction d with
  | zero => intro r cur _ _ _; trivial
  | succ d ih =>
    intro r cur hr h1 hc
    simp only [List.range'_succ, List.map_cons]
    refine ⟨?_, ih (r + 1) _ (by omega) (by omega) ?_⟩
    · rw [hc, blankRound_length]
      have e : k + 1 - r = (k - r) + 1 := by omega
      rw [e, pow_succ]; omega
    · rw [blankRound_length]
      congr 1
      omega

theorem blank_blankRounds (winnersMap : Store) (k r d : Nat) :
    Blank ((List.range' r d).map fun r' => blankRound winnersMap r' (2 ^ (k - r'))) := by
  intro round hround m hm
  simp only [List.mem_map] at hround
  obtain ⟨r', _, rfl⟩ := hround
  exact blankRound_blank winnersMap r' _ m hm

/-- The derivation over `2 ^ k` first-round matches: it returns a round list, whose ids are those
of `idTree k`, whose round 0 holds the players of the input, and in which every match below the
final feeds the computed winner to its slot of the parent match. -/
theorem deriveRounds_spec (winnersMap : Store) (k : Nat) (initialMatches : List Match)
    (hlen : initialMatches.length = 2 ^ k) :
    ∃ out, deriveRounds initialMatches winnersMap = some out ∧
      out.map (List.map Match.id) = idTree k ∧
      (∀ i m0, initialMatches[i]? = some m0 →
        ∃ m, matchAt out 0 i = some m ∧ m.playerA = m0.playerA ∧ m.playerB = m0.playerB) ∧
      (∀ r i m, r < k → matchAt out r i = some m →
        ∃ parent, matchAt out (r + 1) (i / 2) = some parent ∧
          parentSlot parent i = resolveWinner winnersMap m) := by
  have hpos : 0 < 2 ^ k := Nat.two_pow_pos k
  have hne : ¬ initialMatches.length = 0 := by omega
  have hblank := blankRounds_pow winnersMap k k 1 (2 ^ k * 2) (by omega)
    (by have := Nat.lt_two_pow k; omega)
  have hH := halving_blank winnersMap k k 1 (overlayRound0 winnersMap 0 initialMatches)
    (by omega) (le_refl 1) (by rw [overlayRound0_length, hlen]; congr 1)
  have hB := blank_blankRounds winnersMap k 1 k
  obtain ⟨out0, tail, hprop, hcore, _, hids, hlink⟩ :=
    propagate_spec winnersMap _ (overlayRound0 winnersMap 0 initialMatches) hH hB
  refine ⟨out0 :: tail, ?_, ?_, ?_, ?_⟩
  · have hne2 : ¬ 2 ^ k = 0 := by omega
    simp only [deriveRounds, hlen, hblank, hprop, hne2, if_false]
  · have h0 : out0.map Match.id = (List.range (2 ^ k)).map (matchId 0) := by
      have := congrArg (List.map Prod.fst) hcore
      simp only [List.map_map] at this
      have e : (Prod.fst ∘ core) = Match.id := rfl
      rw [e, overlayRound0_ids, hlen] at this
      exact this
    simp only [List.map_cons, h0, hids, idTree, List.range'_succ, List.map_map, Nat.sub_zero]
    congr 1
    apply List.map_congr_left
    intro r' _
    simp only [Function.comp, blankRound_ids]
  · intro i m0 hm0
    have hov : (overlayRound0 winnersMap 0 initialMatches)[i]? =
        some { m0 with id := matchId 0 (0 + i), winnerId := lookupOrNull winnersMap m0.id } := by
      rw [overlayRound0_getElem?, hm0]; rfl
    obtain ⟨m, hm, hc⟩ := map_core_getElem? _ out0 hcore.symm i _ hov
    refine ⟨m, ?_, ?_, ?_⟩
    · simpa only [matchAt, List.getElem?_cons_zero] using hm
    · have := congrArg (fun c => c.2.1) hc
      exact this.symm
    · have := congrArg (fun c => c.2.2) hc
      exact this.symm
  · intro r i m hr hm
    exact hlink r i m (by simpa using hr) hm

/-- What the ids of `idTree k` say about a round list: `k + 1` rounds, round `r` with
`2 ^ (k - r)` matches, the match at position `i` of round `r` with the id `matchId r i`. -/
theorem idTree_shape (k : Nat) (out : List (List Match))
    (h : out.map (List.map Match.id) = idTree k) :
    out.length = k + 1 ∧
    ∀ r, r ≤ k → ∃ round, out[r]? = some round ∧ round.length = 2 ^ (k - r) ∧
      ∀ i, i < 2 ^ (k - r) → ∃ m, round[i]? = some m ∧ m.id = matchId r i := by
  have hl : out.length = k + 1 := by
    have := congrArg List.length h
    simpa [idTree] using this
  refine ⟨hl, fun r hr => ?_⟩
  have hr' : r < out.length := by omega
  have hget : (out.map (List.map Match.id))[r]? = (idTree k)[r]? := by rw [h]
  rw [List.getElem?_map, List.getElem?_eq_getElem hr'] at hget
  have hid : (idTree k)[r]? = some ((List.range (2 ^ (k - r))).map (matchId r)) := by
    simp only [idTree, List.getElem?_map]
    rw [List.getElem?_range' 0 1 (by omega : r < k + 1)]
    simp
  rw [hid] at hget
  simp only [Option.map_some', Option.some.injEq] at hget
  have hlen : (out[r]).length = 2 ^ (k - r) := by
    have := congrArg List.length hget
    simpa using this
  refine ⟨out[r], List.getElem?_eq_getElem hr', hlen, fun i hi => ?_⟩
  have hi' : i < (out[r]).length := by omega
  refine ⟨(out[r])[i], List.getElem?_eq_getElem hi', ?_⟩
  have hget2 : ((out[r]).map Match.id)[i]? = ((List.range (2 ^ (k - r))).map (matchId r))[i]? := by
    rw [hget]
  rw [List.getElem?_map, List.getElem?_eq_getElem hi', List.getElem?_map,
    List.getElem?_range hi] at hget2
  simpa using hget2

/-! ## The winner rule -/

theorem findById_eq_playerWithId (m : Match) (entry : String) :
    findById m.playerA m.playerB entry = playerWithId m entry := by
  unfold findById playerWithId
  cases m.playerA <;> cases m.playerB <;> simp [List.filterMap, List.find?] <;>
    split_ifs <;> simp_all

theorem resolveWinner_eq_ruleWinner (winnersMap : Store) (m : Match) :
    resolveWinner winnersMap m = ruleWinner winnersMap m := by
  unfold resolveWinner ruleWinner orNull byeAdvance
  cases h : winnersMap m.id with
  | none =>
    simp only
    cases m.playerA <;> cases m.playerB <;> try rfl
    rename_i a b
    cases ha : a.isBye <;> cases hb : b.isBye <;> simp [ha, hb]
  | some e =>
    by_cases he : e = ""
    · simp only [he, if_true]
      cases m.playerA <;> cases m.playerB <;> try rfl
      rename_i a b
      cases ha : a.isBye <;> cases hb : b.isBye <;> simp [ha, hb]
    · simp only [he, if_false, findById_eq_playerWithId]

/-! ## Round derivation and champion: the claims -/

/-- C1 (as worded, refuted): with the store entry "" for the match `r0-m0` (an entrant against
a bye), the claimed winner of the derived match (0,0) is none, since no player has the id "",
yet the code places the entrant into slot A of the derived match (1,0). -/
theorem propagation_rule_counterexample :
    staleRound0.length = 2 ^ 1 ∧
    ∃ out child parent, deriveRounds staleRound0 emptyEntryStore = some out ∧
      matchAt out 0 0 = some child ∧ matchAt out 1 (0 / 2) = some parent ∧
      claimedWinner emptyEntryStore child = none ∧
      parentSlot parent 0 = some { id := "p_a", name := "A", seed := 1, isBye := false } ∧
      parentSlot parent 0 ≠ claimedWinner emptyEntryStore child := by
  refine ⟨rfl, _, _, _, rfl, rfl, rfl, ?_, ?_, ?_⟩ <;> decide

/-- C1 (amended): for every round-0 list of length 2^k and every outcome store, derivation
returns a round list in which, for every round r < k and position i < 2^(k-r), the slot of the
derived match (r+1, i/2) selected by the parity of i (playerA for even i, playerB for odd i)
equals the winner of the derived match (r,i), where the winner is: if the store has a non-empty
entry for the match id, the player (playerA first, then playerB) whose id equals the entry, or
none if neither does; otherwise (no entry, or the empty string as entry), if both players are
present and exactly one is a bye, the non-bye player; otherwise none. -/
theorem propagation_rule (winnersMap : Store) (k : Nat) (initialMatches : List Match)
    (hlen : initialMatches.length = 2 ^ k) :
    ∃ out, deriveRounds initialMatches winnersMap = some out ∧
      ∀ r i, r < k → i < 2 ^ (k - r) →
        ∃ child parent, matchAt out r i = some child ∧
          matchAt out (r + 1) (i / 2) = some parent ∧
          parentSlot parent i = ruleWinner winnersMap child := by
  obtain ⟨out, hout, hids, _, hlink⟩ := deriveRounds_spec winnersMap k initialMatches hlen
  refine ⟨out, hout, fun r i hr hi => ?_⟩
  obtain ⟨_, hshape⟩ := idTree_shape k out hids
  obtain ⟨round, hround, _, hget⟩ := hshape r (by omega)
  obtain ⟨child, hchild, _⟩ := hget i hi
  have hc : matchAt out r i = some child := by simp only [matchAt, hround, hchild]
  obtain ⟨parent, hparent, hslot⟩ := hlink r i child hr hc
  exact ⟨child, parent, hc, hparent, by rw [hslot, resolveWinner_eq_ruleWinner]⟩

theorem propagation_rule_witness :
    staleRound0.length = 2 ^ 1 ∧
    ∃ out, deriveRounds staleRound0 emptyEntryStore = some out ∧
      ∀ r i, r < 1 → i < 2 ^ (1 - r) →
        ∃ child parent, matchAt out r i = some child ∧
          matchAt out (r + 1) (i / 2) = some parent ∧
          parentSlot parent i = ruleWinner emptyEntryStore child :=
  ⟨rfl, propagation_rule emptyEntryStore 1 staleRound0 rfl⟩

/-- C2: champion rule.  For every round list and every outcome store, the champion is the
competitor c if and only if the first match of the final round has both playerA and playerB
present, the store has an entry for that match's id, and c is the player of that match
(playerA first) whose id equals the entry; in every other case, and for the empty round list,
there is no champion. -/
theorem champion_rule (rounds : List (List Match)) (winnersMap : Store) :
    (∀ c, champion rounds winnersMap = some c ↔
      ∃ lastRound final a b entry, rounds.getLast? = some lastRound ∧
        lastRound[0]? = some final ∧ final.playerA = some a ∧ final.playerB = some b ∧
        winnersMap final.id = some entry ∧
        ((a.id = entry ∧ c = a) ∨ (a.id ≠ entry ∧ b.id = entry ∧ c = b))) ∧
    champion [] winnersMap = none := by
  refine ⟨fun c => ?_, rfl⟩
  unfold champion
  cases hl : rounds.getLast? with
  | none => simp
  | some lastRound =>
    cases hf : lastRound[0]? with
    | none => simp [hf]
    | some final =>
      cases ha : final.playerA with
      | none => simp [hf, ha]
      | some a =>
        cases hb : final.playerB with
        | none => simp [hf, ha, hb]
        | some b =>
          cases he : winnersMap final.id with
          | none => simp [hf, ha, hb, he]
          | some entry =>
            simp only [hf, ha, hb, he, Option.some.injEq, findById]
            constructor
            · intro h
              refine ⟨lastRound, final, a, b, entry, rfl, hf, ha, hb, he, ?_⟩
              by_cases h1 : a.id = entry
              · simp only [h1, if_true, Option.some.injEq] at h
                exact Or.inl ⟨h1, h.symm⟩
              · simp only [h1, if_false] at h
                by_cases h2 : b.id = entry
                · simp only [h2, if_true, Option.some.injEq] at h
                  exact Or.inr ⟨h1, h2, h.symm⟩
                · simp [h2] at h
            · rintro ⟨lr, fin, a', b', e', hlr, hfin, ha', hb', he', hcase⟩
              cases hlr
              rw [hf] at hfin
              cases hfin
              rw [ha] at ha'
              rw [hb] at hb'
              rw [he] at he'
              cases ha'; cases hb'; cases he'
              rcases hcase with ⟨h1, rfl⟩ | ⟨h1, h2, rfl⟩
              · simp [h1]
              · simp [h1, h2]

/-- C7: shape of the derived tree.  For every round-0 list of length 2^k and every outcome
store, derivation returns exactly k+1 rounds; round r (0 ≤ r ≤ k) has exactly 2^(k-r) matches,
which is size / 2^(r+1) for size = twice the number of round-0 matches; the match at position i
of round r has the id `matchId r i`; and the final round consists of exactly one match. -/
theorem deriveRounds_shape (winnersMap : Store) (k : Nat) (initialMatches : List Match)
    (hlen : initialMatches.length = 2 ^ k) :
    ∃ out, deriveRounds initialMatches winnersMap = some out ∧
      out.length = k + 1 ∧
      (∀ r, r ≤ k → ∃ round, out[r]? = some round ∧
        round.length = 2 ^ (k - r) ∧
        round.length = initialMatches.length * 2 / 2 ^ (r + 1) ∧
        ∀ i, i < 2 ^ (k - r) → ∃ m, round[i]? = some m ∧ m.id = matchId r i) ∧
      ∃ final, out.getLast? = some [final] := by
  obtain ⟨out, hout, hids, _, _⟩ := deriveRounds_spec winnersMap k initialMatches hlen
  obtain ⟨hl, hshape⟩ := idTree_shape k out hids
  refine ⟨out, hout, hl, fun r hr => ?_, ?_⟩
  · obtain ⟨round, hround, hrl, hget⟩ := hshape r hr
    refine ⟨round, hround, hrl, ?_, hget⟩
    rw [hrl, hlen, ← pow_succ, Nat.pow_div (by omega) (by decide)]
    congr 1; omega
  · obtain ⟨round, hround, hrl, _⟩ := hshape k (le_refl k)
    simp only [Nat.sub_self, pow_zero] at hrl
    obtain ⟨final, rfl⟩ := List.length_eq_one.mp hrl
    refine ⟨final, ?_⟩
    rw [List.getLast?_eq_getElem?, hl]
    simpa using hround

theorem deriveRounds_shape_witness :
    (List.replicate 4 (Match.mk "m" none none none)).length = 2 ^ 2 ∧
    ∃ out, deriveRounds (List.replicate 4 (Match.mk "m" none none none)) Store.empty = some out ∧
      out.length = 2 + 1 ∧
      (∀ r, r ≤ 2 → ∃ round, out[r]? = some round ∧
        round.length = 2 ^ (2 - r) ∧
        round.length = (List.replicate 4 (Match.mk "m" none none none)).length * 2 / 2 ^ (r + 1) ∧
        ∀ i, i < 2 ^ (2 - r) → ∃ m, round[i]? = some m ∧ m.id = matchId r i) ∧
      ∃ final, out.getLast? = some [final] :=
  ⟨rfl, deriveRounds_shape Store.empty 2 _ rfl⟩

theorem matchAt_mem (out : List (List Match)) (r i : Nat) (m : Match)
    (h : matchAt out r i = some m) : ∃ round ∈ out, m ∈ round := by
  unfold matchAt at h
  cases hr : out[r]? with
  | none => simp [hr] at h
  | some round =>
    simp only [hr] at h
    exact ⟨round, List.getElem?_mem hr, List.getElem?_mem h⟩

theorem mem_matchAt (out : List (List Match)) (round : List Match) (m : Match)
    (hr : round ∈ out) (hm : m ∈ round) : ∃ r i, r < out.length ∧ matchAt out r i = some m := by
  obtain ⟨r, hr'⟩ := List.getElem?_of_mem hr
  obtain ⟨i, hi'⟩ := List.getElem?_of_mem hm
  refine ⟨r, i, (List.getElem?_eq_some_iff.mp hr').1, ?_⟩
  simp only [matchAt, hr', hi']

/-- A pick that names one of two present players with non-empty ids resolves to that player. -/
theorem resolveWinner_picked (winnersMap : Store) (m : Match) (a b : Competitor)
    (ha : m.playerA = some a) (hb : m.playerB = some b) (hna : a.id ≠ "") (hnb : b.id ≠ "")
    (hpick : winnersMap m.id = some a.id ∨ winnersMap m.id = some b.id) :
    ∃ c, resolveWinner winnersMap m = some c ∧ (c = a ∨ c = b) := by
  unfold resolveWinner orNull findById
  rcases hpick with h | h
  · simp [h, hna, ha, hb]
  · simp only [h, hnb, if_false, ha, hb]
    by_cases hab : a.id = b.id
    · exact ⟨a, by simp [hab], Or.inl rfl⟩
    · exact ⟨b, by simp [hab], Or.inr rfl⟩

/-- C10: complete picks give a champion.  For every round-0 list of length 2^k whose matches all
have both players present, with non-empty ids, and every outcome store, derivation returns a
round list such that: if every derived match that has both players present has a store entry
equal to the id of one of its two players, then every derived match in every round has both
players present and resolves to one of them (no match is unresolved), and the champion exists
and is one of the two players of the single match of the final round. -/
theorem complete_picks_champion (winnersMap : Store) (k : Nat) (initialMatches : List Match)
    (hlen : initialMatches.length = 2 ^ k)
    (hplayers : ∀ m ∈ initialMatches, ∃ a b, m.playerA = some a ∧ m.playerB = some b ∧
      a.id ≠ "" ∧ b.id ≠ "") :
    ∃ out, deriveRounds initialMatches winnersMap = some out ∧
      ((∀ round ∈ out, ∀ m ∈ round, ∀ a b, m.playerA = some a → m.playerB = some b →
          (winnersMap m.id = some a.id ∨ winnersMap m.id = some b.id)) →
        (∀ round ∈ out, ∀ m ∈ round, ∃ a b, m.playerA = some a ∧ m.playerB = some b ∧
          ∃ w, resolveWinner winnersMap m = some w ∧ (w = a ∨ w = b)) ∧
        ∃ final a b c, out.getLast? = some [final] ∧ final.playerA = some a ∧
          final.playerB = some b ∧ champion out winnersMap = some c ∧ (c = a ∨ c = b)) := by
  obtain ⟨out, hout, hids, h0, hlink⟩ := deriveRounds_spec winnersMap k initialMatches hlen
  obtain ⟨hl, hshape⟩ := idTree_shape k out hids
  refine ⟨out, hout, fun hpick => ?_⟩
  have hat : ∀ r i, r ≤ k → i < 2 ^ (k - r) → ∃ m, matchAt out r i = some m := by
    intro r i hr hi
    obtain ⟨round, hround, _, hget⟩ := hshape r hr
    obtain ⟨m, hm, _⟩ := hget i hi
    exact ⟨m, by simp only [matchAt, hround, hm]⟩
  have hbound : ∀ r i m, r ≤ k → matchAt out r i = some m → i < 2 ^ (k - r) := by
    intro r i m hr hm
    obtain ⟨round, hround, hrl, _⟩ := hshape r hr
    simp only [matchAt, hround] at hm
    have := (List.getElem?_eq_some_iff.mp hm).1
    omega
  have hall : ∀ r, r ≤ k → ∀ i m, matchAt out r i = some m →
      ∃ a b, m.playerA = some a ∧ m.playerB = some b ∧ a.id ≠ "" ∧ b.id ≠ "" := by
    intro r
    induction r with
    | zero =>
      intro _ i m hm
      have hi := hbound 0 i m (Nat.zero_le k) hm
      simp only [Nat.sub_zero] at hi
      have hi' : i < initialMatches.length := by omega
      obtain ⟨m', hm', hA, hB⟩ := h0 i _ (List.getElem?_eq_getElem hi')
      rw [hm] at hm'
      cases hm'
      obtain ⟨a, b, ha, hb, hn⟩ := hplayers _ (List.getElem_mem hi')
      exact ⟨a, b, hA.trans ha, hB.trans hb, hn⟩
    | succ r ih =>
      intro hr j p hp
      have hj := hbound (r + 1) j p hr hp
      have hpow : 2 ^ (k - r) = 2 * 2 ^ (k - (r + 1)) := by
        have e : k - r = (k - (r + 1)) + 1 := by omega
        rw [e, pow_succ]; omega
      have hside : ∀ i, i / 2 = j → i < 2 ^ (k - r) →
          ∃ c, parentSlot p i = some c ∧ c.id ≠ "" := by
        intro i hij hi
        obtain ⟨child, hchild⟩ := hat r i (by omega) hi
        obtain ⟨a, b, ha, hb, hna, hnb⟩ := ih (by omega) i child hchild
        obtain ⟨round, hround, hmem⟩ := matchAt_mem out r i child hchild
        obtain ⟨c, hc, hcab⟩ := resolveWinner_picked winnersMap child a b ha hb hna hnb
          (hpick round hround child hmem a b ha hb)
        obtain ⟨parent, hparent, hslot⟩ := hlink r i child (by omega) hchild
        rw [hij, hp] at hparent
        cases hparent
        refine ⟨c, by rw [hslot, hc], ?_⟩
        rcases hcab with rfl | rfl
        · exact hna
        · exact hnb
      obtain ⟨ca, hca, hna⟩ := hside (2 * j) (by omega) (by omega)
      obtain ⟨cb, hcb, hnb⟩ := hside (2 * j + 1) (by omega) (by omega)
      refine ⟨ca, cb, ?_, ?_, hna, hnb⟩
      · simpa [parentSlot] using hca
      · have : (2 * j + 1) % 2 ≠ 0 := by omega
        simpa [parentSlot, this] using hcb
  constructor
  · intro round hround m hm
    obtain ⟨r, i, hr, hmat⟩ := mem_matchAt out round m hround hm
    obtain ⟨a, b, ha, hb, hna, hnb⟩ := hall r (by omega) i m hmat
    exact ⟨a, b, ha, hb, resolveWinner_picked winnersMap m a b ha hb hna hnb
      (hpick round hround m hm a b ha hb)⟩
  · obtain ⟨round, hround, hrl, _⟩ := hshape k (le_refl k)
    simp only [Nat.sub_self, pow_zero] at hrl
    obtain ⟨final, rfl⟩ := List.length_eq_one.mp hrl
    have hlast : out.getLast? = some [final] := by
      rw [List.getLast?_eq_getElem?, hl]
      simpa using hround
    have hfin : matchAt out k 0 = some final := by simp only [matchAt, hround]; rfl
    obtain ⟨a, b, ha, hb, _, _⟩ := hall k (le_refl k) 0 final hfin
    have hp := hpick [final] (List.getElem?_mem hround) final (List.mem_singleton_self final)
      a b ha hb
    have hch : champion out winnersMap = findById (some a) (some b) a.id ∨
        champion out winnersMap = findById (some a) (some b) b.id := by
      rcases hp with h | h
      · left; simp [champion, hlast, ha, hb, h]
      · right; simp [champion, hlast, ha, hb, h]
    rcases hch with h | h
    · exact ⟨final, a, b, a, hlast, ha, hb, by rw [h]; simp [findById], Or.inl rfl⟩
    · by_cases hab : a.id = b.id
      · exact ⟨final, a, b, a, hlast, ha, hb, by rw [h]; simp [findById, hab], Or.inl rfl⟩
      · exact ⟨final, a, b, b, hlast, ha, hb, by rw [h]; simp [findById, hab], Or.inr rfl⟩

theorem complete_picks_champion_witness :
    fullRound0.length = 2 ^ 1 ∧
    (∀ m ∈ fullRound0, ∃ a b, m.playerA = some a ∧ m.playerB = some b ∧ a.id ≠ "" ∧ b.id ≠ "") ∧
    ∃ out, deriveRounds fullRound0 fullStore = some out ∧
      (∀ round ∈ out, ∀ m ∈ round, ∀ a b, m.playerA = some a → m.playerB = some b →
          (fullStore m.id = some a.id ∨ fullStore m.id = some b.id)) ∧
      (∀ round ∈ out, ∀ m ∈ round, ∃ a b, m.playerA = some a ∧ m.playerB = some b ∧
        ∃ w, resolveWinner fullStore m = some w ∧ (w = a ∨ w = b)) ∧
      ∃ final a b c, out.getLast? = some [final] ∧ final.playerA = some a ∧
        final.playerB = some b ∧ champion out fullStore = some c ∧ (c = a ∨ c = b) := by
  have hplayers : ∀ m ∈ fullRound0, ∃ a b, m.playerA = some a ∧ m.playerB = some b ∧
      a.id ≠ "" ∧ b.id ≠ "" := by
    intro m hm
    simp only [fullRound0, List.mem_cons, List.mem_singleton, List.not_mem_nil, or_false] at hm
    rcases hm with rfl | rfl <;> exact ⟨_, _, rfl, rfl, by decide, by decide⟩
  obtain ⟨out, hout, himp⟩ := complete_picks_champion fullStore 1 fullRound0 rfl hplayers
  have hval : deriveRounds fullRound0 fullStore = some fullRounds := by decide
  rw [hval] at hout
  cases hout
  have hpick : ∀ round ∈ fullRounds, ∀ m ∈ round, ∀ a b, m.playerA = some a →
      m.playerB = some b → (fullStore m.id = some a.id ∨ fullStore m.id = some b.id) := by
    intro round hround m hm a b ha hb
    simp only [fullRounds, List.mem_cons, List.mem_singleton, List.not_mem_nil, or_false]
      at hround
    rcases hround with rfl | rfl <;>
      simp only [List.mem_cons, List.mem_singleton, List.not_mem_nil, or_false] at hm
    · rcases hm with rfl | rfl <;> cases ha <;> cases hb <;> decide
    · subst hm; cases ha; cases hb; decide
  exact ⟨rfl, hplayers, fullRounds, hval, hpick, himp hpick⟩

/-! ## `nextPowerOfTwo` -/

theorem shl1_of_lt (p : Int) (h0 : 0 ≤ p) (h1 : p < 1073741824) : shl1 p = 2 * p := by
  unfold shl1 toInt32
  simp only
  have e1 : p % 4294967296 = p := Int.emod_eq_of_lt h0 (by omega)
  have e2 : (p * 2) % 4294967296 = p * 2 := Int.emod_eq_of_lt (by omega) (by omega)
  have n1 : ¬ p ≥ 2147483648 := by omega
  have n2 : ¬ p * 2 ≥ 2147483648 := by omega
  simp only [e1, n1, if_false, e2, n2]
  omega

theorem nextPowerOfTwoLoop_zero (n : Int) (hn : 0 < n) :
    ∀ fuel, nextPowerOfTwoLoop fuel 0 n = none := by
  intro fuel
  induction fuel with
  | zero => rfl
  | succ f ih =>
    have e : shl1 0 = 0 := by decide
    simp only [nextPowerOfTwoLoop, hn, if_true, e, ih]

/-- A larger bound on the number of tests does not change a result of the loop. -/
theorem nextPowerOfTwoLoop_mono (n : Int) : ∀ (fuel : Nat) (p q : Int),
    nextPowerOfTwoLoop fuel p n = some q → nextPowerOfTwoLoop (fuel + 1) p n = some q := by
  intro fuel
  induction fuel with
  | zero => intro p q h; simp [nextPowerOfTwoLoop] at h
  | succ f ih =>
    intro p q h
    rw [nextPowerOfTwoLoop] at h
    rw [nextPowerOfTwoLoop]
    split_ifs at h ⊢ with hlt
    · exact ih _ _ h
    · exact h

/-- For `n ≤ 2 ^ 30` the loop entered with `p = 2 ^ j` is left with the smallest power of two
`2 ^ t`, `t ≥ j`, that is at least `n`. -/
theorem nextPowerOfTwoLoop_pow (n : Nat) (hn : n ≤ 2 ^ 30) (d : Nat) :
    ∀ (j fuel : Nat), j + d = 30 → d < fuel →
      ∃ t, j ≤ t ∧ t ≤ 30 ∧ nextPowerOfTwoLoop fuel ((2 : Int) ^ j) (n : Int) = some ((2 : Int) ^ t) ∧
        n ≤ 2 ^ t ∧ (t = j ∨ 2 ^ (t - 1) < n) := by
  induction d with
  | zero =>
    intro j fuel hj hf
    obtain ⟨f, rfl⟩ : ∃ f, fuel = f + 1 := ⟨fuel - 1, by omega⟩
    have e : j = 30 := by omega
    subst e
    refine ⟨30, le_refl _, le_refl _, ?_, hn, Or.inl rfl⟩
    have hlt : ¬ ((2 : Int) ^ 30 < (n : Int)) := by
      have : (n : Int) ≤ 2 ^ 30 := by exact_mod_cast hn
      omega
    simp only [nextPowerOfTwoLoop, hlt, if_false]
  | succ d ih =>
    intro j fuel hj hf
    obtain ⟨f, rfl⟩ : ∃ f, fuel = f + 1 := ⟨fuel - 1, by omega⟩
    by_cases hlt : (2 : Int) ^ j < (n : Int)
    · have hjlt : (2 : Int) ^ j < 1073741824 := by
        have h1 : (2 : Int) ^ j < 2 ^ 30 := by
          have : (2 : Nat) ^ j < 2 ^ 30 := Nat.pow_lt_pow_right (by decide) (by omega)
          exact_mod_cast this
        simpa using h1
      have hsh : shl1 ((2 : Int) ^ j) = (2 : Int) ^ (j + 1) := by
        rw [shl1_of_lt _ (by positivity) hjlt, pow_succ]; ring
      obtain ⟨t, ht1, ht2, hloop, hle, hmin⟩ := ih (j + 1) f (by omega) (by omega)
      refine ⟨t, by omega, ht2, ?_, hle, Or.inr ?_⟩
      · simp only [nextPowerOfTwoLoop, hlt, if_true, hsh, hloop]
      · rcases hmin with rfl | h
        · simp only [Nat.add_sub_cancel]
          exact_mod_cast hlt
        · exact h
    · refine ⟨j, le_refl _, by omega, ?_, ?_, Or.inl rfl⟩
      · simp only [nextPowerOfTwoLoop, hlt, if_false]
      · have : ¬ ((2 : Nat) ^ j < n) := by
          intro h; apply hlt; exact_mod_cast h
        omega

/-- For `n > 2 ^ 30` the loop entered with `p = 2 ^ j`, `j ≤ 30`, is never left: `p` becomes
`-2 ^ 31` and then stays `0`. -/
theorem nextPowerOfTwoLoop_diverges (n : Nat) (hn : 2 ^ 30 < n) (d : Nat) :
    ∀ (j fuel : Nat), j + d = 30 → nextPowerOfTwoLoop fuel ((2 : Int) ^ j) (n : Int) = none := by
  have hn' : (2 : Int) ^ 30 < (n : Int) := by exact_mod_cast hn
  induction d with
  | zero =>
    intro j fuel hj
    have e : j = 30 := by omega
    subst e
    cases fuel with
    | zero => rfl
    | succ f =>
      have e1 : shl1 ((2 : Int) ^ 30) = -2147483648 := by decide
      simp only [nextPowerOfTwoLoop, hn', if_true, e1]
      cases f with
      | zero => rfl
      | succ f =>
        have e2 : shl1 (-2147483648) = 0 := by decide
        have h3 : (-2147483648 : Int) < (n : Int) := by omega
        simp only [nextPowerOfTwoLoop, h3, if_true, e2]
        exact nextPowerOfTwoLoop_zero _ (by omega) f
  | succ d ih =>
    intro j fuel hj
    cases fuel with
    | zero => rfl
    | succ f =>
      have hpl : (2 : Int) ^ j < 2 ^ 30 := by
        have : (2 : Nat) ^ j < 2 ^ 30 := Nat.pow_lt_pow_right (by decide) (by omega)
        exact_mod_cast this
      have hlt : (2 : Int) ^ j < (n : Int) := by omega
      have hsh : shl1 ((2 : Int) ^ j) = (2 : Int) ^ (j + 1) := by
        rw [shl1_of_lt _ (by positivity) (by simpa using hpl), pow_succ]; ring
      simp only [nextPowerOfTwoLoop, hlt, if_true, hsh]
      exact ih (j + 1) f (by omega)

/-- The function `nextPowerOfTwo` on `1 ≤ n ≤ 2 ^ 30` returns the smallest power of two that is
at least `n`. -/
theorem nextPowerOfTwo_spec (n : Nat) (hn : n ≤ 2 ^ 30) :
    ∃ t, t ≤ 30 ∧ nextPowerOfTwo n = some ((2 : Int) ^ t) ∧ n ≤ 2 ^ t ∧
      ∀ j, n ≤ 2 ^ j → 2 ^ t ≤ 2 ^ j := by
  obtain ⟨t, _, ht, hloop, hle, hmin⟩ := nextPowerOfTwoLoop_pow n hn 30 0 64 (by omega) (by omega)
  refine ⟨t, ht, ?_, hle, fun j hj => ?_⟩
  · simpa [nextPowerOfTwo] using hloop
  · rcases hmin with rfl | h
    · simp only [pow_zero]; exact Nat.one_le_two_pow
    · apply Nat.pow_le_pow_right (by decide)
      by_contra hc
      have : 2 ^ j ≤ 2 ^ (t - 1) := Nat.pow_le_pow_right (by decide) (by omega)
      omega

/-- The function `nextPowerOfTwo` on `n > 2 ^ 30` does not return, whatever the bound on the
number of tests of the loop condition. -/
theorem nextPowerOfTwo_diverges (n : Nat) (hn : 2 ^ 30 < n) :
    nextPowerOfTwo n = none ∧ ∀ fuel, nextPowerOfTwoLoop fuel 1 (n : Int) = none := by
  have h := fun fuel => nextPowerOfTwoLoop_diverges n hn 30 0 fuel (by omega)
  simp only [pow_zero] at h
  exact ⟨h 64, h⟩

/-- The bound of 64 tests in `nextPowerOfTwo` is not what ends the loop: every larger bound
gives the same result. -/
theorem nextPowerOfTwoLoop_fuel (n : Nat) (extra : Nat) :
    nextPowerOfTwoLoop (64 + extra) 1 (n : Int) = nextPowerOfTwoLoop 64 1 (n : Int) := by
  by_cases hn : n ≤ 2 ^ 30
  · obtain ⟨t, _, h, _, _⟩ := nextPowerOfTwo_spec n hn
    simp only [nextPowerOfTwo] at h
    rw [h]
    induction extra with
    | zero => exact h
    | succ e ih => exact nextPowerOfTwoLoop_mono _ _ _ _ ih
  · obtain ⟨_, h⟩ := nextPowerOfTwo_diverges n (by omega)
    rw [h, h]

/-! ## Match ids -/

theorem digitChar_toNat (d : Nat) (h : d < 10) : (Nat.digitChar d).toNat - 48 = d := by
  interval_cases d <;> rfl

theorem readDigits_toDigitsCore (fuel : Nat) : ∀ (n : Nat) (ds : List Char), n < fuel →
    readDigits 0 (Nat.toDigitsCore 10 fuel n ds) = readDigits n ds := by
  induction fuel with
  | zero => intro n ds h; omega
  | succ f ih =>
    intro n ds h
    have hd := digitChar_toNat (n % 10) (Nat.mod_lt n (by decide))
    rw [Nat.toDigitsCore]
    split_ifs with h0
    · simp only [readDigits, List.foldl_cons, hd]
      congr 1; omega
    · rw [ih (n / 10) _ (by omega)]
      simp only [readDigits, List.foldl_cons, hd]
      congr 1; omega

theorem repr_injective (a b : Nat) (h : Nat.repr a = Nat.repr b) : a = b := by
  have h1 : Nat.toDigits 10 a = Nat.toDigits 10 b := by
    simp only [Nat.repr, List.asString] at h
    exact congrArg String.data h
  have ha := readDigits_toDigitsCore (a + 1) a [] (by omega)
  have hb := readDigits_toDigitsCore (b + 1) b [] (by omega)
  simp only [Nat.toDigits] at h1
  rw [h1, hb] at ha
  simpa [readDigits] using ha.symm

/-- Within one round, different positions have different match ids. -/
theorem matchId_injective_right (r i j : Nat) (h : matchId r i = matchId r j) : i = j := by
  unfold matchId at h
  have h2 := congrArg String.data h
  simp only [String.data_append, List.append_cancel_left_eq] at h2
  exact repr_injective i j (String.ext h2)

/-! ## `buildBracket`: the parts -/

theorem mkSeeded_getElem? (rnd : Rand) (l : List String) : ∀ i s,
    (mkSeeded rnd i l)[s]? = (l[s]?).map fun (name : String) =>
      ({ id := uid "p" (rnd.entrant (i + s)), name := name, seed := i + s + 1,
         isBye := false } : Competitor) := by
  induction l with
  | nil => intro i s; rfl
  | cons x xs ih =>
    intro i s
    cases s with
    | zero => simp [mkSeeded]
    | succ s =>
      simp only [mkSeeded, List.getElem?_cons_succ, ih (i + 1) s]
      have e : i + 1 + s = i + (s + 1) := by omega
      rw [e]

theorem mkSeeded_length (rnd : Rand) (l : List String) : ∀ i,
    (mkSeeded rnd i l).length = l.length := by
  induction l with
  | nil => intro i; rfl
  | cons x xs ih => intro i; simp only [mkSeeded, List.length_cons, ih (i + 1)]

theorem mkSeeded_names (rnd : Rand) (l : List String) : ∀ i,
    (mkSeeded rnd i l).map Competitor.name = l := by
  induction l with
  | nil => intro i; rfl
  | cons x xs ih => intro i; simp only [mkSeeded, List.map_cons, ih (i + 1)]

theorem mkSeeded_isBye (rnd : Rand) (l : List String) : ∀ i, ∀ c ∈ mkSeeded rnd i l,
    c.isBye = false := by
  induction l with
  | nil => intro i c hc; simp [mkSeeded] at hc
  | cons x xs ih =>
    intro i c hc
    simp only [mkSeeded, List.mem_cons] at hc
    rcases hc with rfl | hc
    · rfl
    · exact ih (i + 1) c hc

/-- A swap rearranges the list. -/
theorem swap_perm (l : List Competitor) (i j : Nat) : List.Perm (swap l i j) l := by
  unfold swap
  cases hi : l[i]? with
  | none => simp
  | some a =>
    cases hj : l[j]? with
    | none => simp
    | some b =>
      simp only
      obtain ⟨hi', hia⟩ := List.getElem?_eq_some_iff.mp hi
      obtain ⟨hj', hjb⟩ := List.getElem?_eq_some_iff.mp hj
      rw [List.perm_iff_count]
      intro c
      have hj2 : j < (l.set i b).length := by simpa using hj'
      have hget : (l.set i b)[j] = b := by
        rw [List.getElem_set]
        split
        · rfl
        · exact hjb
      rw [List.count_set _ _ _ _ hj2, hget, List.count_set _ _ _ _ hi', hia]
      have ha : a == c → 1 ≤ l.count c := by
        intro h
        have : a = c := by simpa using h
        subst this
        exact List.count_pos_iff.mpr (hia ▸ List.getElem_mem hi')
      have hge : (if (a == c) = true then 1 else 0) ≤ l.count c := by
        split
        · exact ha ‹_›
        · omega
      split_ifs at hge ⊢ <;> omega

/-- The shuffle loop rearranges the list. -/
theorem shuffleLoop_perm (rnd : Rand) : ∀ (i : Nat) (l : List Competitor),
    List.Perm (shuffleLoop rnd i l) l := by
  intro i
  induction i with
  | zero => intro l; exact List.Perm.refl l
  | succ i ih =>
    intro l
    simp only [shuffleLoop]
    exact (ih _).trans (swap_perm l _ _)

theorem renumber_getElem? (l : List Competitor) : ∀ idx s,
    (renumber idx l)[s]? = (l[s]?).map fun (p : Competitor) => { p with seed := idx + s + 1 } := by
  induction l with
  | nil => intro idx s; rfl
  | cons x xs ih =>
    intro idx s
    cases s with
    | zero => simp [renumber]
    | succ s =>
      simp only [renumber, List.getElem?_cons_succ, ih (idx + 1) s]
      have e : idx + 1 + s = idx + (s + 1) := by omega
      rw [e]

theorem renumber_length (l : List Competitor) : ∀ idx, (renumber idx l).length = l.length := by
  induction l with
  | nil => intro idx; rfl
  | cons x xs ih => intro idx; simp only [renumber, List.length_cons, ih (idx + 1)]

theorem finalOrder_length (rnd : Rand) (shuffle : Bool) (entrants : List String) :
    (finalOrder rnd shuffle entrants).length = entrants.length := by
  unfold finalOrder
  cases shuffle with
  | false => simp [mkSeeded_length]
  | true =>
    simp only [if_true, renumber_length]
    rw [(shuffleLoop_perm rnd _ _).length_eq, mkSeeded_length]

/-- In the final order the competitor at index `s` is an entrant with the seed `s + 1`. -/
theorem finalOrder_getElem? (rnd : Rand) (shuffle : Bool) (entrants : List String) (s : Nat)
    (hs : s < entrants.length) :
    ∃ c, (finalOrder rnd shuffle entrants)[s]? = some c ∧ c.seed = s + 1 ∧ c.isBye = false := by
  unfold finalOrder
  cases shuffle with
  | false =>
    simp only [Bool.false_eq_true, if_false, mkSeeded_getElem?, List.getElem?_eq_getElem hs,
      Option.map_some']
    exact ⟨_, rfl, by simp, rfl⟩
  | true =>
    simp only [if_true, renumber_getElem?]
    have hperm := shuffleLoop_perm rnd ((mkSeeded rnd 0 entrants).length - 1)
      (mkSeeded rnd 0 entrants)
    have hlen : s < (shuffleLoop rnd ((mkSeeded rnd 0 entrants).length - 1)
        (mkSeeded rnd 0 entrants)).length := by
      rw [hperm.length_eq, mkSeeded_length]; exact hs
    rw [List.getElem?_eq_getElem hlen]
    refine ⟨_, rfl, by simp, ?_⟩
    exact mkSeeded_isBye rnd entrants 0
      ((shuffleLoop rnd ((mkSeeded rnd 0 entrants).length - 1) (mkSeeded rnd 0 entrants))[s])
      (hperm.subset (List.getElem_mem hlen))

theorem finalOrder_names_noShuffle (rnd : Rand) (entrants : List String) :
    (finalOrder rnd false entrants).map Competitor.name = entrants := by
  simp [finalOrder, mkSeeded_names]

theorem mkSlots_getElem? (rnd : Rand) (seeded : List Competitor) (n : Nat) (seq : List Nat) :
    ∀ pos t, (mkSlots rnd seeded n pos seq)[t]? =
      (seq[t]?).map (slotFor rnd seeded n (pos + t)) := by
  induction seq with
  | nil => intro pos t; rfl
  | cons x xs ih =>
    intro pos t
    cases t with
    | zero => simp [mkSlots]
    | succ t =>
      simp only [mkSlots, List.getElem?_cons_succ, ih (pos + 1) t]
      have e : pos + 1 + t = pos + (t + 1) := by omega
      rw [e]

theorem mkSlots_length (rnd : Rand) (seeded : List Competitor) (n : Nat) (seq : List Nat) :
    ∀ pos, (mkSlots rnd seeded n pos seq).length = seq.length := by
  induction seq with
  | nil => intro pos; rfl
  | cons x xs ih => intro pos; simp only [mkSlots, List.length_cons, ih (pos + 1)]

theorem pairUp_length (k : Nat) : ∀ (i : Nat) (slots : List (Option Competitor)),
    slots.length = 2 * k → (pairUp i slots).length = k := by
  induction k with
  | zero =>
    intro i slots h
    have : slots = [] := List.length_eq_zero.mp (by omega)
    subst this; rfl
  | succ k ih =>
    intro i slots h
    match slots, h with
    | a :: b :: rest, h =>
      simp only [List.length_cons] at h
      simp only [pairUp, List.length_cons, ih (i + 1) rest (by omega)]

theorem pairUp_getElem? (t : Nat) : ∀ (i : Nat) (slots : List (Option Competitor))
    (a b : Option Competitor),
    slots[2 * t]? = some a → slots[2 * t + 1]? = some b →
    (pairUp i slots)[t]? =
      some { id := matchId 0 (i + t), playerA := a, playerB := b, winnerId := none } := by
  induction t with
  | zero =>
    intro i slots a b ha hb
    match slots, ha, hb with
    | x :: y :: rest, ha, hb =>
      simp only [Nat.mul_zero, List.getElem?_cons_zero, Option.some.injEq] at ha
      simp only [Nat.mul_zero, Nat.zero_add, List.getElem?_cons_succ, List.getElem?_cons_zero,
        Option.some.injEq] at hb
      subst ha hb
      simp [pairUp]
    | [x], _, hb => simp at hb
  | succ t ih =>
    intro i slots a b ha hb
    have e1 : 2 * (t + 1) = 2 * t + 1 + 1 := by omega
    have e2 : 2 * (t + 1) + 1 = (2 * t + 1) + 1 + 1 := by omega
    match slots, ha, hb with
    | x :: y :: rest, ha, hb =>
      rw [e1, List.getElem?_cons_succ, List.getElem?_cons_succ] at ha
      rw [e2, List.getElem?_cons_succ, List.getElem?_cons_succ] at hb
      simp only [pairUp, List.getElem?_cons_succ, ih (i + 1) rest a b ha hb]
      have e : i + 1 + t = i + (t + 1) := by omega
      rw [e]
    | [x], _, hb => simp at hb

/-! ## `buildBracket`: the whole -/

theorem bracketSize_toNat (t : Nat) : (max 2 ((2 : Int) ^ t)).toNat = 2 ^ (max 1 t) := by
  cases t with
  | zero => rfl
  | succ t =>
    have h1 : max 1 (t + 1) = t + 1 := by omega
    have h2 : (2 : Int) ≤ 2 ^ (t + 1) := by
      have : (1 : Int) ≤ 2 ^ t := one_le_pow₀ (by decide)
      rw [pow_succ]; omega
    rw [h1, max_eq_right h2]
    have : ((2 : Int) ^ (t + 1)) = (((2 : Nat) ^ (t + 1) : Nat) : Int) := by push_cast; rfl
    rw [this, Int.toNat_natCast]

/-- What `buildBracket` returns for 1 to 2^30 entrants, with `2 ^ t` the smallest power of two that
is at least the number of entrants and `2 ^ max 1 t` the bracket size. -/
theorem buildBracket_eq (rnd : Rand) (shuffle : Bool) (entrants : List String)
    (hne : entrants ≠ []) (hN : entrants.length ≤ 2 ^ 30) :
    ∃ t, t ≤ 30 ∧ entrants.length ≤ 2 ^ t ∧ (∀ j, entrants.length ≤ 2 ^ j → 2 ^ t ≤ 2 ^ j) ∧
      buildBracket rnd shuffle entrants = some (BuildResult.built
        (pairUp 0 (mkSlots rnd (finalOrder rnd shuffle entrants) entrants.length 0
          (generateSeeding (2 ^ (max 1 t)))))
        (mkAutoWins (pairUp 0 (mkSlots rnd (finalOrder rnd shuffle entrants) entrants.length 0
          (generateSeeding (2 ^ (max 1 t))))))) := by
  obtain ⟨t, ht, hnp, hle, hmin⟩ := nextPowerOfTwo_spec entrants.length hN
  refine ⟨t, ht, hle, hmin, ?_⟩
  have h0 : ¬ entrants.length = 0 := by
    intro h; exact hne (List.length_eq_zero.mp h)
  simp only [buildBracket, h0, if_false, hnp, bracketSize_toNat]

theorem round0_length (rnd : Rand) (seeded : List Competitor) (n u : Nat) (hu : 1 ≤ u) :
    (pairUp 0 (mkSlots rnd seeded n 0 (generateSeeding (2 ^ u)))).length = 2 ^ (u - 1) := by
  obtain ⟨j, rfl⟩ : ∃ j, u = j + 1 := ⟨u - 1, by omega⟩
  apply pairUp_length
  rw [mkSlots_length, generateSeeding_pow, seedIter_length, Nat.add_sub_cancel, pow_succ]
  omega

theorem slotFor_isCompetitorFor (rnd : Rand) (shuffle : Bool) (entrants : List String)
    (pos s : Nat) (hs : 1 ≤ s) :
    IsCompetitorFor ((finalOrder rnd shuffle entrants).map Competitor.name) s
      (slotFor rnd (finalOrder rnd shuffle entrants) entrants.length pos s) := by
  unfold IsCompetitorFor slotFor
  have hlen : ((finalOrder rnd shuffle entrants).map Competitor.name).length = entrants.length := by
    rw [List.length_map, finalOrder_length]
  by_cases h : s ≤ entrants.length
  · obtain ⟨s', rfl⟩ : ∃ s', s = s' + 1 := ⟨s - 1, by omega⟩
    obtain ⟨c, hc, hseed, hbye⟩ := finalOrder_getElem? rnd shuffle entrants s' (by omega)
    refine ⟨c, ?_, hseed, Or.inl ⟨by rw [hlen]; exact h, hbye, ?_⟩⟩
    · simp only [h, if_true, seededAt, hc]
    · simp only [Nat.add_sub_cancel, List.getElem?_map, hc, Option.map_some']
  · refine ⟨{ id := uid "bye" (rnd.bye pos), name := "BYE", seed := s, isBye := true }, ?_, rfl,
      Or.inr ⟨by rw [hlen]; omega, rfl, rfl⟩⟩
    simp only [h, if_false]

theorem autoWinsStep_apply (acc : Store) (m : Match) (key : String) :
    autoWinsStep acc m key =
      if key = m.id then (match autoEntry m with | some v => some v | none => acc key)
      else acc key := by
  unfold autoWinsStep autoEntry
  cases m.playerA with
  | none => simp
  | some a =>
    cases m.playerB with
    | none => simp
    | some b =>
      cases ha : a.isBye <;> cases hb : b.isBye <;> by_cases hk : key = m.id <;>
        simp [Store.set, ha, hb, hk]

theorem foldl_autoWinsStep_frame (l : List Match) : ∀ (acc : Store) (key : String),
    (∀ m ∈ l, m.id ≠ key) → l.foldl autoWinsStep acc key = acc key := by
  induction l with
  | nil => intro acc key _; rfl
  | cons x xs ih =>
    intro acc key h
    simp only [List.foldl_cons]
    rw [ih _ key (fun m hm => h m (List.mem_cons_of_mem x hm)), autoWinsStep_apply]
    have : ¬ key = x.id := fun e => h x (List.mem_cons_self x xs) e.symm
    simp only [this, if_false]

theorem foldl_autoWinsStep_mem (l : List Match) : ∀ (acc : Store) (m : Match),
    (l.map Match.id).Nodup → m ∈ l → acc m.id = none →
      l.foldl autoWinsStep acc m.id = autoEntry m := by
  induction l with
  | nil => intro acc m _ hm; simp at hm
  | cons x xs ih =>
    intro acc m hnd hm hacc
    simp only [List.map_cons, List.nodup_cons, List.mem_map, not_exists, not_and] at hnd
    simp only [List.foldl_cons]
    rcases List.mem_cons.mp hm with rfl | hm'
    · rw [foldl_autoWinsStep_frame xs _ _ (fun y hy => hnd.1 y hy), autoWinsStep_apply]
      simp only [if_true, hacc]
      cases autoEntry m <;> rfl
    · have hne : ¬ m.id = x.id := hnd.1 m hm'
      apply ih _ m hnd.2 hm'
      rw [autoWinsStep_apply]
      simp only [hne, if_false, hacc]

theorem foldl_autoWinsStep_keys (l : List Match) : ∀ (acc : Store) (key : String),
    l.foldl autoWinsStep acc key ≠ none → acc key ≠ none ∨ ∃ m ∈ l, m.id = key := by
  induction l with
  | nil => intro acc key h; exact Or.inl h
  | cons x xs ih =>
    intro acc key h
    simp only [List.foldl_cons] at h
    rcases ih _ key h with h1 | ⟨m, hm, hk⟩
    · rw [autoWinsStep_apply] at h1
      by_cases hx : key = x.id
      · exact Or.inr ⟨x, List.mem_cons_self x xs, hx.symm⟩
      · simp only [hx, if_false] at h1
        exact Or.inl h1
    · exact Or.inr ⟨m, List.mem_cons_of_mem x hm, hk⟩

theorem pairUp_ids (k : Nat) : ∀ (i : Nat) (slots : List (Option Competitor)),
    slots.length = 2 * k → (pairUp i slots).map Match.id = (List.range' i k).map (matchId 0) := by
  induction k with
  | zero =>
    intro i slots h
    have : slots = [] := List.length_eq_zero.mp (by omega)
    subst this; rfl
  | succ k ih =>
    intro i slots h
    match slots, h with
    | a :: b :: rest, h =>
      simp only [List.length_cons] at h
      simp only [pairUp, List.map_cons, List.range'_succ, ih (i + 1) rest (by omega)]

theorem pairUp_ids_nodup (k i : Nat) (slots : List (Option Competitor))
    (h : slots.length = 2 * k) : ((pairUp i slots).map Match.id).Nodup := by
  rw [pairUp_ids k i slots h]
  exact (List.nodup_range' i k).map (fun a b hab => matchId_injective_right 0 a b hab)

/-- The match at position `i` of the first round built over the seed order `seedIter u`. -/
theorem round0_getElem? (rnd : Rand) (seeded : List Competitor) (n u i : Nat) (hi : i < 2 ^ u) :
    ∃ sa sb, (seedIter u)[2 * i]? = some sa ∧ (seedIter u)[2 * i + 1]? = some sb ∧
      1 ≤ sa ∧ 1 ≤ sb ∧
      (pairUp 0 (mkSlots rnd seeded n 0 (seedIter u)))[i]? = some
        { id := matchId 0 i, playerA := slotFor rnd seeded n (2 * i) sa,
          playerB := slotFor rnd seeded n (2 * i + 1) sb, winnerId := none } := by
  have h1 : 2 * i < (seedIter u).length := by rw [seedIter_length, pow_succ]; omega
  have h2 : 2 * i + 1 < (seedIter u).length := by rw [seedIter_length, pow_succ]; omega
  have hs1 : (mkSlots rnd seeded n 0 (seedIter u))[2 * i]? =
      some (slotFor rnd seeded n (0 + 2 * i) (seedIter u)[2 * i]) := by
    rw [mkSlots_getElem?, List.getElem?_eq_getElem h1]; rfl
  have hs2 : (mkSlots rnd seeded n 0 (seedIter u))[2 * i + 1]? =
      some (slotFor rnd seeded n (0 + (2 * i + 1)) (seedIter u)[2 * i + 1]) := by
    rw [mkSlots_getElem?, List.getElem?_eq_getElem h2]; rfl
  refine ⟨(seedIter u)[2 * i], (seedIter u)[2 * i + 1], List.getElem?_eq_getElem h1,
    List.getElem?_eq_getElem h2, (seedIter_bounds u _ (List.getElem_mem h1)).1,
    (seedIter_bounds u _ (List.getElem_mem h2)).1, ?_⟩
  have := pairUp_getElem? i 0 _ _ _ hs1 hs2
  simpa using this

/-! ## `buildBracket`: the claims -/

/-- For more than 2^30 entrants `buildBracket` does not return. -/
theorem buildBracket_diverges (rnd : Rand) (shuffle : Bool) (entrants : List String)
    (hN : 2 ^ 30 < entrants.length) : buildBracket rnd shuffle entrants = none := by
  have h0 : ¬ entrants.length = 0 := by omega
  simp only [buildBracket, h0, if_false, (nextPowerOfTwo_diverges entrants.length hN).1]

/-- C6 (as worded, refuted): one entrant gives one round-0 match, so the bracket size is 2,
while the smallest power of two that is at least 1 is 2^0 = 1; and for 2^30 + 1 entrants
`buildBracket` does not return, so that there is no bracket size at all. -/
theorem bracket_size_counterexample :
    (∃ round0 autoWins, buildBracket sampleRand false ["A"] = some (BuildResult.built round0 autoWins) ∧
      2 * round0.length = 2 ∧ ["A"].length ≤ 2 ^ 0 ∧ 2 ^ 0 < 2 * round0.length) ∧
    buildBracket sampleRand false (List.replicate 1073741825 "A") = none := by
  constructor
  · refine ⟨_, _, rfl, ?_, ?_, ?_⟩ <;> decide
  · exact buildBracket_diverges _ _ _ (by rw [List.length_replicate]; decide)

/-- C6 (amended): for every entrant count N with 1 ≤ N ≤ 2^30, `buildBracket` returns round-0
matches such that the bracket size (twice their number) equals the larger of 2 and the
smallest power of two that is at least N, and the number of rounds derived from those round-0
matches is log2 of the bracket size (2 to the number of rounds is the bracket size). -/
theorem bracket_size (rnd : Rand) (shuffle : Bool) (entrants : List String)
    (h1 : 1 ≤ entrants.length) (hN : entrants.length ≤ 2 ^ 30) :
    ∃ round0 autoWins t, buildBracket rnd shuffle entrants = some (BuildResult.built round0 autoWins) ∧
      entrants.length ≤ 2 ^ t ∧ (∀ j, entrants.length ≤ 2 ^ j → 2 ^ t ≤ 2 ^ j) ∧
      2 * round0.length = max 2 (2 ^ t) ∧
      ∀ winnersMap, ∃ out, deriveRounds round0 winnersMap = some out ∧
        2 ^ out.length = 2 * round0.length := by
  have hne : entrants ≠ [] := by
    intro h; rw [h] at h1; simp at h1
  obtain ⟨t, _, hle, hmin, hb⟩ := buildBracket_eq rnd shuffle entrants hne hN
  have hu : 1 ≤ max 1 t := le_max_left 1 t
  have hlen := round0_length rnd (finalOrder rnd shuffle entrants) entrants.length (max 1 t) hu
  refine ⟨_, _, t, hb, hle, hmin, ?_, fun winnersMap => ?_⟩
  · have e : 2 * 2 ^ (max 1 t - 1) = 2 ^ (max 1 t) := by
      have : max 1 t = (max 1 t - 1) + 1 := by omega
      conv => rhs; rw [this, pow_succ]
      omega
    rw [hlen, e]
    cases t with
    | zero => rfl
    | succ t =>
      have h2 : 2 ≤ 2 ^ (t + 1) := by
        have : 1 ≤ 2 ^ t := Nat.one_le_two_pow
        rw [pow_succ]; omega
      rw [max_eq_right h2]
      congr 1; omega
  · obtain ⟨out, hout, hids, _, _⟩ := deriveRounds_spec winnersMap (max 1 t - 1) _ hlen
    obtain ⟨hl, _⟩ := idTree_shape _ out hids
    refine ⟨out, hout, ?_⟩
    rw [hl, hlen, pow_succ]; omega

theorem bracket_size_witness :
    1 ≤ ["A", "B", "C"].length ∧ ["A", "B", "C"].length ≤ 2 ^ 30 ∧
    ∃ round0 autoWins t, buildBracket sampleRand false ["A", "B", "C"]
        = some (BuildResult.built round0 autoWins) ∧
      ["A", "B", "C"].length ≤ 2 ^ t ∧ (∀ j, ["A", "B", "C"].length ≤ 2 ^ j → 2 ^ t ≤ 2 ^ j) ∧
      2 * round0.length = max 2 (2 ^ t) ∧
      ∀ winnersMap, ∃ out, deriveRounds round0 winnersMap = some out ∧
        2 ^ out.length = 2 * round0.length :=
  ⟨by decide, by decide, bracket_size sampleRand false ["A", "B", "C"] (by decide) (by decide)⟩

/-- C4 (as worded, refuted): for the entrant list of 2^30 + 1 names `buildBracket` does not
return, so there is no round-0 match 0 holding the competitors for the first two seeds. -/
theorem buildBracket_slots_counterexample :
    (List.replicate 1073741825 "A") ≠ [] ∧
    ¬ ∃ round0 autoWins m, buildBracket sampleRand false (List.replicate 1073741825 "A")
        = some (BuildResult.built round0 autoWins) ∧ round0[0]? = some m := by
  refine ⟨fun h => ?_, ?_⟩
  · have hl := congrArg List.length h
    rw [List.length_replicate] at hl
    exact absurd hl (by decide)
  rintro ⟨round0, autoWins, m, h, _⟩
  rw [buildBracket_diverges _ _ _ (by rw [List.length_replicate]; decide)] at h
  cases h

/-- C4 (amended): slot placement.  For every non-empty entrant list of length N ≤ 2^30, with
`names` the entrant names in their final order (the input order when shuffle is off), size the
bracket size (twice the number of round-0 matches) and seq = `generateSeeding size`,
`buildBracket` returns round-0 matches of which match i (0 ≤ i < size/2) has the id
`matchId 0 i`, no winnerId, playerA the competitor for seq[2i] and playerB the competitor for
seq[2i+1]; the competitor for a seed value s is the entrant at the 1-based position s
(isBye = false, seed = s, that entrant's name) when s ≤ N, and otherwise a bye with the name
"BYE", isBye = true and seed = s. -/
theorem buildBracket_slots (rnd : Rand) (shuffle : Bool) (entrants : List String)
    (hne : entrants ≠ []) (hN : entrants.length ≤ 2 ^ 30) :
    ∃ round0 autoWins names,
      buildBracket rnd shuffle entrants = some (BuildResult.built round0 autoWins) ∧
      names = (finalOrder rnd shuffle entrants).map Competitor.name ∧
      names.length = entrants.length ∧ (shuffle = false → names = entrants) ∧
      ∀ i, i < 2 * round0.length / 2 →
        ∃ m sa sb, round0[i]? = some m ∧
          (generateSeeding (2 * round0.length))[2 * i]? = some sa ∧
          (generateSeeding (2 * round0.length))[2 * i + 1]? = some sb ∧
          1 ≤ sa ∧ 1 ≤ sb ∧ m.id = matchId 0 i ∧ m.winnerId = none ∧
          IsCompetitorFor names sa m.playerA ∧ IsCompetitorFor names sb m.playerB := by
  obtain ⟨t, _, _, _, hb⟩ := buildBracket_eq rnd shuffle entrants hne hN
  have hu : 1 ≤ max 1 t := le_max_left 1 t
  have hlen := round0_length rnd (finalOrder rnd shuffle entrants) entrants.length (max 1 t) hu
  obtain ⟨u, hu'⟩ : ∃ u, max 1 t = u + 1 := ⟨max 1 t - 1, by omega⟩
  rw [hu'] at hb hlen
  simp only [Nat.add_sub_cancel] at hlen
  refine ⟨_, _, _, hb, rfl, by rw [List.length_map, finalOrder_length], ?_, fun i hi => ?_⟩
  · intro hs; subst hs; exact finalOrder_names_noShuffle rnd entrants
  · have hsize : 2 * 2 ^ u = 2 ^ (u + 1) := by rw [pow_succ]; omega
    rw [hlen, hsize] at hi ⊢
    rw [generateSeeding_pow]
    have hi' : i < 2 ^ u := by omega
    have h1 : 2 * i < (seedIter u).length := by rw [seedIter_length]; omega
    have h2 : 2 * i + 1 < (seedIter u).length := by rw [seedIter_length]; omega
    have hb1 := (seedIter_bounds u _ (List.getElem_mem h1)).1
    have hb2 := (seedIter_bounds u _ (List.getElem_mem h2)).1
    have hs1 : (mkSlots rnd (finalOrder rnd shuffle entrants) entrants.length 0
        (seedIter u))[2 * i]? = some
        (slotFor rnd (finalOrder rnd shuffle entrants) entrants.length (0 + 2 * i)
          (seedIter u)[2 * i]) := by
      rw [mkSlots_getElem?, List.getElem?_eq_getElem h1]; rfl
    have hs2 : (mkSlots rnd (finalOrder rnd shuffle entrants) entrants.length 0
        (seedIter u))[2 * i + 1]? = some
        (slotFor rnd (finalOrder rnd shuffle entrants) entrants.length (0 + (2 * i + 1))
          (seedIter u)[2 * i + 1]) := by
      rw [mkSlots_getElem?, List.getElem?_eq_getElem h2]; rfl
    refine ⟨_, (seedIter u)[2 * i], (seedIter u)[2 * i + 1],
      pairUp_getElem? i 0 _ _ _ hs1 hs2, List.getElem?_eq_getElem h1,
      List.getElem?_eq_getElem h2, hb1, hb2, by simp, rfl, ?_, ?_⟩
    · exact slotFor_isCompetitorFor rnd shuffle entrants _ _ hb1
    · exact slotFor_isCompetitorFor rnd shuffle entrants _ _ hb2

theorem buildBracket_slots_witness :
    ["A", "B", "C"] ≠ [] ∧ ["A", "B", "C"].length ≤ 2 ^ 30 ∧
    ∃ round0 autoWins names,
      buildBracket sampleRand false ["A", "B", "C"] = some (BuildResult.built round0 autoWins) ∧
      names = (finalOrder sampleRand false ["A", "B", "C"]).map Competitor.name ∧
      names.length = ["A", "B", "C"].length ∧ (false = false → names = ["A", "B", "C"]) ∧
      ∀ i, i < 2 * round0.length / 2 →
        ∃ m sa sb, round0[i]? = some m ∧
          (generateSeeding (2 * round0.length))[2 * i]? = some sa ∧
          (generateSeeding (2 * round0.length))[2 * i + 1]? = some sb ∧
          1 ≤ sa ∧ 1 ≤ sb ∧ m.id = matchId 0 i ∧ m.winnerId = none ∧
          IsCompetitorFor names sa m.playerA ∧ IsCompetitorFor names sb m.playerB :=
  ⟨by decide, by decide, buildBracket_slots sampleRand false ["A", "B", "C"] (by decide) (by decide)⟩

/-- C5 (as worded, refuted): for the entrant list of 2^30 + 1 names `buildBracket` does not
return, so it returns no store at all. -/
theorem buildBracket_autoWins_counterexample :
    (List.replicate 1073741825 "B") ≠ [] ∧
    ¬ ∃ round0 autoWins, buildBracket sampleRand true (List.replicate 1073741825 "B")
        = some (BuildResult.built round0 autoWins) := by
  refine ⟨fun h => ?_, ?_⟩
  · have hl := congrArg List.length h
    rw [List.length_replicate] at hl
    exact absurd hl (by decide)
  rintro ⟨round0, autoWins, h⟩
  rw [buildBracket_diverges _ _ _ (by rw [List.length_replicate]; decide)] at h
  cases h

/-- C5 (amended): initial outcome entries.  For every non-empty entrant list of length
N ≤ 2^30, `buildBracket` returns round-0 matches and a store such that every round-0 match has
both players and the store has an entry for its id if and only if exactly one side is a bye,
the value then being the id of the non-bye side (matches with two real entrants or two byes get
no entry); and the store has no key that is not the id of a round-0 match. -/
theorem buildBracket_autoWins (rnd : Rand) (shuffle : Bool) (entrants : List String)
    (hne : entrants ≠ []) (hN : entrants.length ≤ 2 ^ 30) :
    ∃ round0 autoWins,
      buildBracket rnd shuffle entrants = some (BuildResult.built round0 autoWins) ∧
      (∀ m ∈ round0, ∃ a b, m.playerA = some a ∧ m.playerB = some b ∧
        (a.isBye = true ∧ b.isBye = false → autoWins m.id = some b.id) ∧
        (a.isBye = false ∧ b.isBye = true → autoWins m.id = some a.id) ∧
        (a.isBye = b.isBye → autoWins m.id = none)) ∧
      (∀ key, autoWins key ≠ none → ∃ m ∈ round0, m.id = key) := by
  obtain ⟨t, _, _, _, hb⟩ := buildBracket_eq rnd shuffle entrants hne hN
  have hu : 1 ≤ max 1 t := le_max_left 1 t
  have hlen := round0_length rnd (finalOrder rnd shuffle entrants) entrants.length (max 1 t) hu
  obtain ⟨u, hu'⟩ : ∃ u, max 1 t = u + 1 := ⟨max 1 t - 1, by omega⟩
  rw [hu'] at hb hlen
  simp only [Nat.add_sub_cancel] at hlen
  rw [generateSeeding_pow] at hb hlen
  have hnd : ((pairUp 0 (mkSlots rnd (finalOrder rnd shuffle entrants) entrants.length 0
      (seedIter u))).map Match.id).Nodup := by
    apply pairUp_ids_nodup (2 ^ u)
    rw [mkSlots_length, seedIter_length, pow_succ]; omega
  refine ⟨_, _, hb, fun m hm => ?_, fun key hkey => ?_⟩
  · obtain ⟨i, hi⟩ := List.getElem?_of_mem hm
    have hilt : i < 2 ^ u := by
      have := (List.getElem?_eq_some_iff.mp hi).1
      omega
    obtain ⟨sa, sb, _, _, h1a, h1b, hget⟩ :=
      round0_getElem? rnd (finalOrder rnd shuffle entrants) entrants.length u i hilt
    rw [hi] at hget
    have hm' := Option.some.inj hget
    obtain ⟨a, ha, _, _⟩ := slotFor_isCompetitorFor rnd shuffle entrants (2 * i) sa h1a
    obtain ⟨b, hb', _, _⟩ := slotFor_isCompetitorFor rnd shuffle entrants (2 * i + 1) sb h1b
    have hA : m.playerA = some a := by rw [hm']; exact ha
    have hB : m.playerB = some b := by rw [hm']; exact hb'
    have hentry := foldl_autoWinsStep_mem _ Store.empty m hnd hm rfl
    have hval : mkAutoWins (pairUp 0 (mkSlots rnd (finalOrder rnd shuffle entrants)
        entrants.length 0 (seedIter u))) m.id = autoEntry m := hentry
    refine ⟨a, b, hA, hB, ?_, ?_, ?_⟩
    · rintro ⟨h1, h2⟩
      rw [hval]; simp [autoEntry, hA, hB, h1, h2]
    · rintro ⟨h1, h2⟩
      rw [hval]; simp [autoEntry, hA, hB, h1, h2]
    · intro h1
      rw [hval]
      cases h2 : b.isBye <;> simp [autoEntry, hA, hB, h1, h2]
  · rcases foldl_autoWinsStep_keys _ Store.empty key hkey with h | h
    · exact absurd rfl h
    · exact h

theorem buildBracket_autoWins_witness :
    ["A", "B", "C"] ≠ [] ∧ ["A", "B", "C"].length ≤ 2 ^ 30 ∧
    ∃ round0 autoWins,
      buildBracket sampleRand true ["A", "B", "C"] = some (BuildResult.built round0 autoWins) ∧
      (∀ m ∈ round0, ∃ a b, m.playerA = some a ∧ m.playerB = some b ∧
        (a.isBye = true ∧ b.isBye = false → autoWins m.id = some b.id) ∧
        (a.isBye = false ∧ b.isBye = true → autoWins m.id = some a.id) ∧
        (a.isBye = b.isBye → autoWins m.id = none)) ∧
      (∀ key, autoWins key ≠ none → ∃ m ∈ round0, m.id = key) :=
  ⟨by decide, by decide, buildBracket_autoWins sampleRand true ["A", "B", "C"] (by decide) (by decide)⟩

/-! ## The doubling step -/

theorem pushPairs_eq_flatMap (S : Nat) (l : List Nat) :
    pushPairs S l = l.flatMap fun x => [x, S + 1 - x] := by
  induction l with
  | nil => rfl
  | cons x xs ih => simp only [pushPairs, List.flatMap_cons, ih, List.cons_append, List.nil_append]

theorem seedingStep_eq_doubling (arr : List Nat) : seedingStep arr = doubling arr := by
  simp only [seedingStep, doubling, pushPairs_eq_flatMap, Nat.mul_comm]

theorem doubling_iterate (j : Nat) : doubling^[j] [1, 2] = seedIter j := by
  induction j with
  | zero => rfl
  | succ j ih => rw [Function.iterate_succ_apply', ih, seedIter, seedingStep_eq_doubling]

/-- The loop of `generateSeeding`, entered with the array after `j` passes, stops with the
array after the least number `t` of passes that gives a length of at least `size`. -/
theorem generateSeedingLoop_least (size : Nat) (fuel : Nat) :
    ∀ j, size ≤ fuel + (seedIter j).length → (∀ j', j' < j → (seedIter j').length < size) →
      ∃ t, generateSeedingLoop fuel size (seedIter j) = seedIter t ∧
        size ≤ (seedIter t).length ∧ ∀ j', j' < t → (seedIter j').length < size := by
  induction fuel with
  | zero =>
    intro j h hlt
    exact ⟨j, rfl, by omega, hlt⟩
  | succ f ih =>
    intro j h hlt
    by_cases hc : (seedIter j).length < size
    · have hpos : 1 ≤ (seedIter j).length := by
        rw [seedIter_length]; exact Nat.one_le_two_pow
      obtain ⟨t, ht, hle, hmin⟩ := ih (j + 1)
        (by simp only [seedIter, seedingStep_length]; omega)
        (by
          intro j' hj'
          rcases Nat.lt_succ_iff_lt_or_eq.mp hj' with h1 | h1
          · exact hlt j' h1
          · rw [h1]; exact hc)
      refine ⟨t, ?_, hle, hmin⟩
      rw [generateSeedingLoop, if_pos hc]
      exact ht
    · refine ⟨j, ?_, by omega, hlt⟩
      rw [generateSeedingLoop, if_neg hc]

/-- C17 (as worded, refuted): with S the length of the current sequence the step maps [1, 2] to
[1, 2, 2, 1], while `generateSeeding 4` is [1, 4, 2, 3]; and `generateSeeding 1` is [1], not
the start [1, 2], whose length has already reached 1. -/
theorem doubling_step_counterexample :
    claimedDoubling [1, 2] = [1, 2, 2, 1] ∧ generateSeeding 4 = [1, 4, 2, 3] ∧
    generateSeeding 4 ≠ claimedDoubling [1, 2] ∧
    1 ≤ [1, 2].length ∧ generateSeeding 1 ≠ [1, 2] := by
  decide

/-- C17 (amended): for every size ≥ 2, `generateSeeding size` is the result of repeating,
starting from [1, 2], the doubling step that replaces, in order, each entry x of the current
sequence with the pair (x, S + 1 - x), where S is twice the length of the current sequence,
until the length reaches size: the least number of steps that gives a length of at least
size.  One pass of the loop of the source is this step. -/
theorem doubling_step (size : Nat) (h : 2 ≤ size) :
    (∀ arr, seedingStep arr = arr.flatMap fun x => [x, 2 * arr.length + 1 - x]) ∧
    ∃ j, generateSeeding size = doubling^[j] [1, 2] ∧
      size ≤ (doubling^[j] [1, 2]).length ∧
      ∀ j', j' < j → (doubling^[j'] [1, 2]).length < size := by
  refine ⟨fun arr => seedingStep_eq_doubling arr, ?_⟩
  have h2 : ¬ size < 2 := by omega
  obtain ⟨t, ht, hle, hmin⟩ := generateSeedingLoop_least size size 0 (by omega)
    (fun j' hj' => absurd hj' (Nat.not_lt_zero j'))
  refine ⟨t, ?_, ?_, ?_⟩
  · rw [doubling_iterate]
    simp only [generateSeeding, h2, if_false]
    exact ht
  · rw [doubling_iterate]; exact hle
  · intro j' hj'
    rw [doubling_iterate]; exact hmin j' hj'

theorem doubling_step_witness :
    2 ≤ 8 ∧
    (∀ arr, seedingStep arr = arr.flatMap fun x => [x, 2 * arr.length + 1 - x]) ∧
    ∃ j, generateSeeding 8 = doubling^[j] [1, 2] ∧
      8 ≤ (doubling^[j] [1, 2]).length ∧
      ∀ j', j' < j → (doubling^[j'] [1, 2]).length < 8 :=
  ⟨by decide, doubling_step 8 (by decide)⟩

/-- C18: `generateSeeding 8` is the canonical ordering [1, 8, 4, 5, 2, 7, 3, 6]. -/
theorem generateSeeding_eight : generateSeeding 8 = [1, 8, 4, 5, 2, 7, 3, 6] := by
  decide

/-! ## Match ids are injective -/

theorem digitChar_ne_dash (d : Nat) (h : d < 10) : Nat.digitChar d ≠ '-' := by
  interval_cases d <;> decide

theorem toDigitsCore_no_dash (fuel : Nat) : ∀ (n : Nat) (ds : List Char),
    (∀ c ∈ ds, c ≠ '-') → ∀ c ∈ Nat.toDigitsCore 10 fuel n ds, c ≠ '-' := by
  induction fuel with
  | zero => intro n ds hds c hc; exact hds c hc
  | succ f ih =>
    intro n ds hds c hc
    have hd := digitChar_ne_dash (n % 10) (Nat.mod_lt n (by decide))
    have hds' : ∀ c ∈ Nat.digitChar (n % 10) :: ds, c ≠ '-' := by
      intro c hc
      rcases List.mem_cons.mp hc with rfl | h
      · exact hd
      · exact hds c h
    rw [Nat.toDigitsCore] at hc
    split_ifs at hc
    · exact hds' c hc
    · exact ih _ _ hds' c hc

/-- The decimal digits of a number do not contain the character '-'. -/
theorem repr_no_dash (n : Nat) : ∀ c ∈ (Nat.repr n).data, c ≠ '-' := by
  intro c hc
  simp only [Nat.repr, List.asString] at hc
  exact toDigitsCore_no_dash _ n [] (fun _ h => absurd h (List.not_mem_nil _)) c hc

theorem append_cons_inj (a : Char) : ∀ (l1 l2 t1 t2 : List Char), a ∉ l1 → a ∉ l2 →
    l1 ++ a :: t1 = l2 ++ a :: t2 → l1 = l2 ∧ t1 = t2 := by
  intro l1
  induction l1 with
  | nil =>
    intro l2 t1 t2 _ h2 h
    cases l2 with
    | nil => simpa using h
    | cons b bs =>
      simp only [List.nil_append, List.cons_append, List.cons.injEq] at h
      exact absurd (h.1 ▸ List.mem_cons_self a bs) h2
  | cons x xs ih =>
    intro l2 t1 t2 h1 h2 h
    cases l2 with
    | nil =>
      simp only [List.nil_append, List.cons_append, List.cons.injEq] at h
      exact absurd (h.1 ▸ List.mem_cons_self x xs) h1
    | cons b bs =>
      simp only [List.cons_append, List.cons.injEq] at h
      obtain ⟨e1, e2⟩ := ih bs t1 t2 (fun hm => h1 (List.mem_cons_of_mem x hm))
        (fun hm => h2 (List.mem_cons_of_mem b hm)) h.2
      exact ⟨by rw [h.1, e1], e2⟩

/-- Different positions of the tree have different match ids. -/
theorem matchId_injective (r i r' i' : Nat) (h : matchId r i = matchId r' i') :
    r = r' ∧ i = i' := by
  unfold matchId at h
  have h2 := congrArg String.data h
  simp only [String.data_append, List.append_assoc] at h2
  have h3 : (Nat.repr r).data ++ '-' :: ('m' :: (Nat.repr i).data) =
      (Nat.repr r').data ++ '-' :: ('m' :: (Nat.repr i').data) := by
    simpa using h2
  obtain ⟨e1, e2⟩ := append_cons_inj '-' _ _ _ _
    (fun hm => repr_no_dash r _ hm rfl) (fun hm => repr_no_dash r' _ hm rfl) h3
  simp only [List.cons.injEq, true_and] at e2
  exact ⟨repr_injective r r' (String.ext e1), repr_injective i i' (String.ext e2)⟩

/-- C20: match ids are injective.  For all natural numbers r, i, r', i', the ids
`matchId r i` and `matchId r' i'` are equal if and only if r = r' and i = i'; so in the tree
derived from a round-0 list of length 2^k two matches with the same id sit at the same round
and position. -/
theorem matchId_eq_iff :
    (∀ r i r' i', matchId r i = matchId r' i' ↔ r = r' ∧ i = i') ∧
    (∀ (winnersMap : Store) (k : Nat) (initialMatches : List Match),
      initialMatches.length = 2 ^ k →
      ∃ out, deriveRounds initialMatches winnersMap = some out ∧
        ∀ r i r' i' m m', matchAt out r i = some m → matchAt out r' i' = some m' →
          m.id = m'.id → r = r' ∧ i = i') := by
  refine ⟨fun r i r' i' => ⟨matchId_injective r i r' i', fun h => by rw [h.1, h.2]⟩, ?_⟩
  intro winnersMap k initialMatches hlen
  obtain ⟨out, hout, hids, _, _⟩ := deriveRounds_spec winnersMap k initialMatches hlen
  obtain ⟨hl, hshape⟩ := idTree_shape k out hids
  have hid : ∀ r i m, matchAt out r i = some m → m.id = matchId r i := by
    intro r i m hm
    unfold matchAt at hm
    cases hr : out[r]? with
    | none => simp [hr] at hm
    | some round =>
      simp only [hr] at hm
      have hrk : r ≤ k := by
        have := (List.getElem?_eq_some_iff.mp hr).1
        omega
      obtain ⟨round', hround', hrl, hget⟩ := hshape r hrk
      rw [hr] at hround'
      cases hround'
      have hi : i < 2 ^ (k - r) := by
        have := (List.getElem?_eq_some_iff.mp hm).1
        omega
      obtain ⟨m', hm', hid'⟩ := hget i hi
      rw [hm] at hm'
      cases hm'
      exact hid'
  refine ⟨out, hout, fun r i r' i' m m' hm hm' he => ?_⟩
  rw [hid r i m hm, hid r' i' m' hm'] at he
  exact matchId_injective r i r' i' he

theorem matchId_eq_iff_witness :
    (matchId 1 2 = matchId 1 2 ↔ 1 = 1 ∧ 2 = 2) ∧
    (matchId 1 12 = matchId 11 2 ↔ 1 = 11 ∧ 12 = 2) ∧
    fullRound0.length = 2 ^ 1 ∧
    ∃ out, deriveRounds fullRound0 fullStore = some out ∧
      ∀ r i r' i' m m', matchAt out r i = some m → matchAt out r' i' = some m' →
        m.id = m'.id → r = r' ∧ i = i' :=
  ⟨matchId_eq_iff.1 1 2 1 2, matchId_eq_iff.1 1 12 11 2, rfl,
    matchId_eq_iff.2 fullStore 1 fullRound0 rfl⟩

/-! ## `handlePickWinner`: the claims -/

/-- A pick is ignored when the round exists and the match does not, or the pick is unset, or
the pick is a bye. -/
theorem handlePickWinner_ignored (rounds : List (List Match)) (winnersMap : Store)
    (rIdx mIdx : Nat) (pick : Option Competitor) (round : List Match)
    (hround : rounds[rIdx]? = some round)
    (h : round[mIdx]? = none ∨ pick = none ∨ ∃ p, pick = some p ∧ p.isBye = true) :
    handlePickWinner rounds winnersMap rIdx mIdx pick = some winnersMap := by
  unfold handlePickWinner
  simp only [hround]
  rcases h with h | h | ⟨p, rfl, hp⟩
  · simp [h]
  · subst h
    cases round[mIdx]? <;> rfl
  · cases round[mIdx]? with
    | none => rfl
    | some m => simp [hp]

/-- C14 (the code at the failing input): for a round list of two rounds and the round index 2
the call of `handlePickWinner` raises an error (the read `rounds[2][0]` of a property of
`undefined`) instead of leaving the store unchanged; with the round index 1 and the match
index 5, out of range as well, the store is returned unchanged. -/
theorem handlePickWinner_missing_round :
    fullRounds.length = 2 ∧
    handlePickWinner fullRounds fullStore 2 0 (some entrantA) = none ∧
    handlePickWinner fullRounds fullStore 1 5 (some entrantA) = some fullStore :=
  ⟨rfl, rfl, rfl⟩

/-- C15: recording a pick.  For every round list, every outcome store, every existing match m
(at round rIdx, position mIdx) and every non-bye competitor p, `handlePickWinner` returns a
store in which the entry for m.id is p.id, whatever the prior entry, and in which every other
key has exactly the entry, or the absence of an entry, that it had before. -/
theorem handlePickWinner_records (rounds : List (List Match)) (winnersMap : Store)
    (rIdx mIdx : Nat) (m : Match) (p : Competitor)
    (hm : matchAt rounds rIdx mIdx = some m) (hp : p.isBye = false) :
    ∃ store, handlePickWinner rounds winnersMap rIdx mIdx (some p) = some store ∧
      store m.id = some p.id ∧ ∀ key, key ≠ m.id → store key = winnersMap key := by
  unfold matchAt at hm
  cases hr : rounds[rIdx]? with
  | none => simp [hr] at hm
  | some round =>
    simp only [hr] at hm
    refine ⟨winnersMap.set m.id p.id, ?_, ?_, ?_⟩
    · simp [handlePickWinner, hr, hm, hp]
    · simp [Store.set]
    · intro key hk
      simp [Store.set, hk]

theorem handlePickWinner_records_witness :
    matchAt fullRounds 1 0 = some (Match.mk "r1-m0"
      (some { id := "p_a", name := "A", seed := 1, isBye := false })
      (some { id := "p_c", name := "C", seed := 3, isBye := false })
      (some (WinnerId.id "p_a"))) ∧
    ({ id := "p_c", name := "C", seed := 3, isBye := false } : Competitor).isBye = false ∧
    ∃ store, handlePickWinner fullRounds fullStore 1 0
        (some { id := "p_c", name := "C", seed := 3, isBye := false }) = some store ∧
      store "r1-m0" = some "p_c" ∧ ∀ key, key ≠ "r1-m0" → store key = fullStore key :=
  ⟨rfl, rfl, handlePickWinner_records fullRounds fullStore 1 0 _ _ rfl rfl⟩

/-! ## Round derivation: winner ids and stale entries -/

/-- Round 0 of the derived tree over `2 ^ k` first-round matches: the overlaid input, with the
winner ids stamped when there is a later round. -/
theorem deriveRounds_round0 (winnersMap : Store) (k : Nat) (initialMatches : List Match)
    (hlen : initialMatches.length = 2 ^ k) :
    ∃ out0 tail, deriveRounds initialMatches winnersMap = some (out0 :: tail) ∧
      (k = 0 → out0 = overlayRound0 winnersMap 0 initialMatches) ∧
      (1 ≤ k → out0 = (overlayRound0 winnersMap 0 initialMatches).map (stampWinner winnersMap)) := by
  have hpos : 0 < 2 ^ k := Nat.two_pow_pos k
  have hblank := blankRounds_pow winnersMap k k 1 (2 ^ k * 2) (by omega)
    (by have := Nat.lt_two_pow k; omega)
  have hH := halving_blank winnersMap k k 1 (overlayRound0 winnersMap 0 initialMatches)
    (by omega) (le_refl 1) (by rw [overlayRound0_length, hlen]; congr 1)
  have hB := blank_blankRounds winnersMap k 1 k
  obtain ⟨out0, tail, hprop, hcore, hstamp, _, _⟩ :=
    propagate_spec winnersMap _ (overlayRound0 winnersMap 0 initialMatches) hH hB
  have hne2 : ¬ 2 ^ k = 0 := by omega
  refine ⟨out0, tail, ?_, ?_, ?_⟩
  · simp only [deriveRounds, hlen, hblank, hprop, hne2, if_false]
  · intro h0
    subst h0
    simp only [List.range'_zero, List.map_nil, propagate, Option.some.injEq, List.cons.injEq]
      at hprop
    exact hprop.1.symm
  · intro h1
    apply hstamp
    obtain ⟨j, rfl⟩ : ∃ j, k = j + 1 := ⟨k - 1, by omega⟩
    simp [List.range'_succ]

theorem stampWinner_empty (m : Match) : stampWinner Store.empty m = m := rfl

/-- Every name inherited from `Object.prototype` starts with a letter other than "r". -/
theorem inheritedKeys_head : ∀ key ∈ inheritedKeys, key.data.head? ≠ some 'r' := by decide

/-- A match id of the effect is never the name of an inherited property. -/
theorem matchId_not_inherited (r i : Nat) : matchId r i ∉ inheritedKeys := by
  intro h
  apply inheritedKeys_head _ h
  simp [matchId, String.data_append]

/-- Under a key `matchId r i` the lookup `winnersMap[key] || null` is decided by the own keys. -/
theorem lookupOrNull_matchId (winnersMap : Store) (r i : Nat) :
    lookupOrNull winnersMap (matchId r i) =
      (orNull (winnersMap (matchId r i))).map WinnerId.id := by
  unfold lookupOrNull orNull
  cases h : winnersMap (matchId r i) with
  | none => simp [matchId_not_inherited]
  | some s => by_cases hs : s = "" <;> simp [hs]

/-- The lookup `winnersMap[key] || null` in the empty store never answers a string. -/
theorem lookupOrNull_empty (key : String) :
    lookupOrNull Store.empty key =
      (if key ∈ inheritedKeys then some (WinnerId.inherited key) else none) := rfl

/-- With the empty store the winnerId of a derived round-0 match is what the lookup under the
id of the stored match answers. -/
theorem deriveRounds_empty_winnerId (k : Nat) (initialMatches : List Match)
    (hlen : initialMatches.length = 2 ^ k) (out : List (List Match))
    (hout : deriveRounds initialMatches Store.empty = some out) (i : Nat) (m0 m : Match)
    (hm0 : initialMatches[i]? = some m0) (hm : matchAt out 0 i = some m) :
    m.winnerId = lookupOrNull Store.empty m0.id := by
  obtain ⟨out0, tail, hd, h0, h1⟩ := deriveRounds_round0 Store.empty k initialMatches hlen
  rw [hd] at hout
  cases hout
  have hout0 : out0 = overlayRound0 Store.empty 0 initialMatches := by
    rcases Nat.eq_zero_or_pos k with hk | hk
    · exact h0 hk
    · rw [h1 hk]
      conv => rhs; rw [← List.map_id (overlayRound0 Store.empty 0 initialMatches)]
      apply List.map_congr_left
      intro x _
      exact stampWinner_empty x
  simp only [matchAt, List.getElem?_cons_zero, hout0, overlayRound0_getElem?, hm0,
    Option.map_some', Option.some.injEq] at hm
  rw [← hm]

/-- C12 (as worded, refuted): with the empty store, the derived round-0 match of the entrant A
against a bye has no winnerId, not the id of A. -/
theorem bye_auto_resolution_counterexample :
    staleRound0.length = 2 ^ 1 ∧
    ∃ out m a b, deriveRounds staleRound0 Store.empty = some out ∧
      matchAt out 0 0 = some m ∧ m.playerA = some a ∧ m.playerB = some b ∧
      a.isBye = false ∧ b.isBye = true ∧ m.winnerId = none ∧
      m.winnerId ≠ some (WinnerId.id a.id) := by
  refine ⟨rfl, _, _, _, _, rfl, rfl, rfl, rfl, ?_, ?_, ?_, ?_⟩ <;> decide

/-- C12 (amended): bye auto-resolution with an empty store.  For every round-0 list of length
2^k with k ≥ 1 and every round-0 match in it where one side is a bye and the other is not,
after deriving the rounds with an empty outcome store the non-bye side appears as that match's
winner in the slot of the round-1 match that it feeds (match floor(i/2), playerA for even i,
playerB for odd i).  The winnerId of the derived match is no competitor id: it is unset, unless
the id that the stored match carries is the name of a property inherited from
`Object.prototype`, in which case it is that property. -/
theorem bye_auto_resolution (k : Nat) (initialMatches : List Match)
    (hlen : initialMatches.length = 2 ^ k) (hk : 1 ≤ k) (i : Nat) (m0 : Match)
    (a b : Competitor) (hm0 : initialMatches[i]? = some m0)
    (ha : m0.playerA = some a) (hb : m0.playerB = some b) (hbye : a.isBye ≠ b.isBye) :
    ∃ out m parent, deriveRounds initialMatches Store.empty = some out ∧
      matchAt out 0 i = some m ∧
      m.winnerId = (if m0.id ∈ inheritedKeys then some (WinnerId.inherited m0.id) else none) ∧
      (∀ id : String, m.winnerId ≠ some (WinnerId.id id)) ∧
      matchAt out 1 (i / 2) = some parent ∧
      parentSlot parent i = some (if a.isBye then b else a) := by
  obtain ⟨out, hout, _, h0, hlink⟩ := deriveRounds_spec Store.empty k initialMatches hlen
  obtain ⟨m, hm, hA, hB⟩ := h0 i m0 hm0
  obtain ⟨parent, hparent, hslot⟩ := hlink 0 i m (by omega) hm
  have hw := deriveRounds_empty_winnerId k initialMatches hlen out hout i m0 m hm0 hm
  rw [lookupOrNull_empty] at hw
  refine ⟨out, m, parent, hout, hm, hw, ?_, hparent, ?_⟩
  · intro id hid
    rw [hw] at hid
    split at hid <;> cases hid
  · rw [hslot]
    simp only [resolveWinner, Store.empty, orNull, hA, hB, ha, hb]
    cases h1 : a.isBye <;> cases h2 : b.isBye <;> simp_all

theorem bye_auto_resolution_witness :
    inheritedIdRound0.length = 2 ^ 1 ∧ 1 ≤ 1 ∧
    inheritedIdRound0[0]? = some (Match.mk "constructor"
      (some { id := "p_a", name := "A", seed := 1, isBye := false })
      (some { id := "bye_x", name := "BYE", seed := 4, isBye := true }) none) ∧
    ∃ out m parent, deriveRounds inheritedIdRound0 Store.empty = some out ∧
      matchAt out 0 0 = some m ∧
      m.winnerId = (if "constructor" ∈ inheritedKeys
        then some (WinnerId.inherited "constructor") else none) ∧
      (∀ id : String, m.winnerId ≠ some (WinnerId.id id)) ∧
      matchAt out 1 (0 / 2) = some parent ∧
      parentSlot parent 0 = some (if false then
        ({ id := "bye_x", name := "BYE", seed := 4, isBye := true } : Competitor)
        else { id := "p_a", name := "A", seed := 1, isBye := false }) :=
  ⟨rfl, by decide, rfl,
    bye_auto_resolution 1 inheritedIdRound0 rfl (by decide) 0 _ _ _ rfl rfl rfl (by decide)⟩

/-- C13 (as worded, refuted): the store entry "" of the derived match (0,0), an entrant against
a bye, equals the id of neither player, yet the entrant is placed into slot A of the derived
match (1,0). -/
theorem stale_entry_counterexample :
    staleRound0.length = 2 ^ 1 ∧
    ∃ out child parent a b, deriveRounds staleRound0 emptyEntryStore = some out ∧
      matchAt out 0 0 = some child ∧ child.playerA = some a ∧ child.playerB = some b ∧
      emptyEntryStore child.id = some "" ∧ a.id ≠ "" ∧ b.id ≠ "" ∧
      matchAt out 1 (0 / 2) = some parent ∧ parentSlot parent 0 = some a := by
  refine ⟨rfl, _, _, _, _, _, rfl, rfl, rfl, rfl, ?_, ?_, ?_, rfl, ?_⟩ <;> decide

/-- C13 (amended): stale entries resolve to no winner without failing.  For every round-0
list of length 2^k and every outcome store, derivation returns a round list (no error), and for
every derived match (r,i) with r < k whose store entry is not the empty string and equals the
id of neither of its present players, the slot of the match (r+1, floor(i/2)) fed by that match
is empty, also when one side of the match is a bye. -/
theorem stale_entry (winnersMap : Store) (k : Nat) (initialMatches : List Match)
    (hlen : initialMatches.length = 2 ^ k) :
    ∃ out, deriveRounds initialMatches winnersMap = some out ∧
      ∀ r i m entry, r < k → matchAt out r i = some m →
        winnersMap m.id = some entry → entry ≠ "" →
        (∀ a, m.playerA = some a → a.id ≠ entry) →
        (∀ b, m.playerB = some b → b.id ≠ entry) →
        ∃ parent, matchAt out (r + 1) (i / 2) = some parent ∧ parentSlot parent i = none := by
  obtain ⟨out, hout, _, _, hlink⟩ := deriveRounds_spec winnersMap k initialMatches hlen
  refine ⟨out, hout, fun r i m entry hr hm he hne hA hB => ?_⟩
  obtain ⟨parent, hparent, hslot⟩ := hlink r i m hr hm
  refine ⟨parent, hparent, ?_⟩
  rw [hslot]
  simp only [resolveWinner, orNull, he, hne, if_false, findById]
  cases hpa : m.playerA with
  | none =>
    cases hpb : m.playerB with
    | none => rfl
    | some b => simp [hB b hpb]
  | some a =>
    cases hpb : m.playerB with
    | none => simp [hA a hpa]
    | some b => simp [hA a hpa, hB b hpb]

theorem stale_entry_witness :
    staleRound0.length = 2 ^ 1 ∧
    ∃ out m parent, deriveRounds staleRound0 (Store.empty.set "r0-m0" "p_gone") = some out ∧
      matchAt out 0 0 = some m ∧
      (Store.empty.set "r0-m0" "p_gone") m.id = some "p_gone" ∧ "p_gone" ≠ "" ∧
      (∀ a, m.playerA = some a → a.id ≠ "p_gone") ∧
      (∀ b, m.playerB = some b → b.id ≠ "p_gone") ∧
      matchAt out (0 + 1) (0 / 2) = some parent ∧ parentSlot parent 0 = none := by
  obtain ⟨out, hout, h⟩ := stale_entry (Store.empty.set "r0-m0" "p_gone") 1 staleRound0 rfl
  have hm : ∃ m, matchAt out 0 0 = some m ∧ m.id = "r0-m0" ∧
      m.playerA = some { id := "p_a", name := "A", seed := 1, isBye := false } ∧
      m.playerB = some { id := "bye_x", name := "BYE", seed := 4, isBye := true } := by
    have hval : deriveRounds staleRound0 (Store.empty.set "r0-m0" "p_gone") = some
        [[Match.mk "r0-m0" (some { id := "p_a", name := "A", seed := 1, isBye := false })
            (some { id := "bye_x", name := "BYE", seed := 4, isBye := true })
            (some (WinnerId.id "p_gone")),
          Match.mk "r0-m1" (some { id := "p_b", name := "B", seed := 2, isBye := false })
            (some { id := "p_c", name := "C", seed := 3, isBye := false }) none],
         [Match.mk "r1-m0" none none none]] := by decide
    rw [hval] at hout
    cases hout
    exact ⟨_, rfl, rfl, rfl, rfl⟩
  obtain ⟨m, hm0, hid, hA, hB⟩ := hm
  have he : (Store.empty.set "r0-m0" "p_gone") m.id = some "p_gone" := by rw [hid]; rfl
  have h1 : ∀ a, m.playerA = some a → a.id ≠ "p_gone" := by
    intro a ha; rw [hA] at ha; cases ha; decide
  have h2 : ∀ b, m.playerB = some b → b.id ≠ "p_gone" := by
    intro b hb; rw [hB] at hb; cases hb; decide
  obtain ⟨parent, hp, hs⟩ := h 0 0 m "p_gone" (by decide) hm0 he (by decide) h1 h2
  exact ⟨rfl, out, m, parent, hout, hm0, he, by decide, h1, h2, hp, hs⟩

/-! ## Byes in the first round -/

/-- C19: byes are only ever playerB.  For every entrant count N ≥ 1, shuffle on or off:
`buildBracket` returns round-0 matches when N ≤ 2^30, and in every round-0 match that it
returns both players are present and playerA is a real entrant (isBye = false); hence no
round-0 match has two byes, a bye (playerB) faces a real entrant, and the condition
`playerA.isBye && !playerB.isBye` of the branch that awards the automatic win to playerB is
false. -/
theorem byes_only_playerB (rnd : Rand) (shuffle : Bool) (entrants : List String)
    (h1 : 1 ≤ entrants.length) :
    (entrants.length ≤ 2 ^ 30 →
      ∃ round0 autoWins, buildBracket rnd shuffle entrants
        = some (BuildResult.built round0 autoWins)) ∧
    ∀ round0 autoWins,
      buildBracket rnd shuffle entrants = some (BuildResult.built round0 autoWins) →
      ∀ m ∈ round0, ∃ a b, m.playerA = some a ∧ m.playerB = some b ∧ a.isBye = false ∧
        ¬ (a.isBye = true ∧ b.isBye = true) ∧ (b.isBye = true → a.isBye = false) ∧
        (a.isBye && !b.isBye) = false := by
  have hne : entrants ≠ [] := by
    intro h; rw [h] at h1; simp at h1
  constructor
  · intro hN
    obtain ⟨t, _, _, _, hb⟩ := buildBracket_eq rnd shuffle entrants hne hN
    exact ⟨_, _, hb⟩
  · intro round0 autoWins hb m hm
    by_cases hN : entrants.length ≤ 2 ^ 30
    · obtain ⟨t, _, hle, hmin, hb'⟩ := buildBracket_eq rnd shuffle entrants hne hN
      rw [hb'] at hb
      simp only [Option.some.injEq, BuildResult.built.injEq] at hb
      obtain ⟨hr0, _⟩ := hb
      subst hr0
      have hu : 1 ≤ max 1 t := le_max_left 1 t
      have hlen := round0_length rnd (finalOrder rnd shuffle entrants) entrants.length
        (max 1 t) hu
      obtain ⟨u, hu'⟩ : ∃ u, max 1 t = u + 1 := ⟨max 1 t - 1, by omega⟩
      rw [hu'] at hm hlen
      simp only [Nat.add_sub_cancel] at hlen
      rw [generateSeeding_pow] at hm hlen
      -- half the bracket size is at most the number of entrants
      have hhalf : 2 ^ u ≤ entrants.length := by
        rcases Nat.eq_zero_or_pos t with ht | ht
        · have : u = 0 := by omega
          rw [this]; simpa using h1
        · have hut : u = t - 1 := by omega
          by_contra hc
          have h2 := hmin u (by omega)
          have h3 : 2 ^ u < 2 ^ t := Nat.pow_lt_pow_right (by decide) (by omega)
          omega
      obtain ⟨i, hi⟩ := List.getElem?_of_mem hm
      have hilt : i < 2 ^ u := by
        have := (List.getElem?_eq_some_iff.mp hi).1
        omega
      obtain ⟨sa, sb, hsa, _, h1a, h1b, hget⟩ :=
        round0_getElem? rnd (finalOrder rnd shuffle entrants) entrants.length u i hilt
      rw [hi] at hget
      have hm' := Option.some.inj hget
      have hsmall : sa ≤ 2 ^ u :=
        (seedIter_small_iff u u (2 * i) sa (by omega) hsa).mpr
          (by simp only [Nat.add_sub_cancel_left, pow_one]; exact Dvd.intro i rfl)
      obtain ⟨a, ha, _, hcase⟩ := slotFor_isCompetitorFor rnd shuffle entrants (2 * i) sa h1a
      obtain ⟨b, hb2, _, _⟩ := slotFor_isCompetitorFor rnd shuffle entrants (2 * i + 1) sb h1b
      have haBye : a.isBye = false := by
        rcases hcase with ⟨_, h, _⟩ | ⟨h, _, _⟩
        · exact h
        · rw [List.length_map, finalOrder_length] at h
          omega
      refine ⟨a, b, by rw [hm']; exact ha, by rw [hm']; exact hb2, haBye, ?_, fun _ => haBye, ?_⟩
      · rintro ⟨h, _⟩
        rw [haBye] at h
        exact Bool.false_ne_true h
      · simp [haBye]
    · rw [buildBracket_diverges rnd shuffle entrants (by omega)] at hb
      cases hb

theorem byes_only_playerB_witness :
    1 ≤ ["A", "B", "C"].length ∧ ["A", "B", "C"].length ≤ 2 ^ 30 ∧
    ∃ round0 autoWins,
      buildBracket sampleRand true ["A", "B", "C"] = some (BuildResult.built round0 autoWins) ∧
      ∀ m ∈ round0, ∃ a b, m.playerA = some a ∧ m.playerB = some b ∧ a.isBye = false ∧
        ¬ (a.isBye = true ∧ b.isBye = true) ∧ (b.isBye = true → a.isBye = false) ∧
        (a.isBye && !b.isBye) = false := by
  have h := byes_only_playerB sampleRand true ["A", "B", "C"] (by decide)
  obtain ⟨round0, autoWins, hb⟩ := h.1 (by decide)
  exact ⟨by decide, by decide, round0, autoWins, hb, h.2 round0 autoWins hb⟩

/-! ## Shuffle and the slots of the first round -/

theorem round0Slots_pairUp (k : Nat) : ∀ (i : Nat) (slots : List (Option Competitor)),
    slots.length = 2 * k → round0Slots (pairUp i slots) = slots := by
  induction k with
  | zero =>
    intro i slots h
    have : slots = [] := List.length_eq_zero.mp (by omega)
    subst this; rfl
  | succ k ih =>
    intro i slots h
    match slots, h with
    | a :: b :: rest, h =>
      simp only [List.length_cons] at h
      have := ih (i + 1) rest (by omega)
      simp only [round0Slots] at this
      simp only [round0Slots, pairUp, List.flatMap_cons, this, List.cons_append,
        List.nil_append]

theorem mkSlots_countP (rnd : Rand) (seeded : List Competitor) (n : Nat)
    (q : Option Competitor → Bool) (g : Nat → Bool) (seq : List Nat) :
    ∀ pos, (∀ p, ∀ s ∈ seq, q (slotFor rnd seeded n p s) = g s) →
      (mkSlots rnd seeded n pos seq).countP q = seq.countP g := by
  induction seq with
  | nil => intro pos _; rfl
  | cons x xs ih =>
    intro pos h
    simp only [mkSlots, List.countP_cons, h pos x (List.mem_cons_self x xs),
      ih (pos + 1) (fun p s hs => h p s (List.mem_cons_of_mem x hs))]

/-- The array after `j` passes is a rearrangement of 1, ..., 2^(j+1). -/
theorem seedIter_perm (j : Nat) : List.Perm (seedIter j) (List.range' 1 (2 ^ (j + 1))) := by
  rw [List.perm_iff_count]
  intro v
  by_cases hv : 1 ≤ v ∧ v ≤ 2 ^ (j + 1)
  · rw [seedIter_count j v hv.1 hv.2]
    symm
    refine List.count_eq_one_of_mem (List.nodup_range' 1 (2 ^ (j + 1))) ?_
    rw [List.mem_range'_1]; omega
  · have h1 : v ∉ seedIter j := fun hm => hv (seedIter_bounds j v hm)
    have h2 : v ∉ List.range' 1 (2 ^ (j + 1)) := by
      rw [List.mem_range'_1]; omega
    rw [List.count_eq_zero_of_not_mem h1, List.count_eq_zero_of_not_mem h2]

theorem countP_gt_range' (N : Nat) : ∀ n, N ≤ n →
    (List.range' 1 n).countP (fun s => decide (N < s)) = n - N := by
  intro n
  induction n with
  | zero => intro _; simp
  | succ n ih =>
    intro h
    rw [List.range'_concat, List.countP_append]
    have hlast : List.countP (fun s => decide (N < s)) [1 + 1 * n] = if N ≤ n then 1 else 0 := by
      by_cases hn : N ≤ n
      · have : N < 1 + 1 * n := by omega
        simp [List.countP_cons, hn]; omega
      · have : ¬ N < 1 + 1 * n := by omega
        simp [List.countP_cons, hn]; omega
    rw [hlast]
    by_cases hn : N ≤ n
    · rw [ih hn, if_pos hn]; omega
    · have hz : (List.range' 1 n).countP (fun s => decide (N < s)) = 0 := by
        rw [List.countP_eq_zero]
        intro s hs
        rw [List.mem_range'_1] at hs
        have : ¬ N < s := by omega
        simp [this]
      rw [hz, if_neg hn]; omega

/-- A slot computed for a seed value holds the competitor `c` of the final order at index `idx`
exactly when the seed value is `idx + 1`. -/
theorem slotFor_eq_iff (rnd : Rand) (shuffle : Bool) (entrants : List String) (idx : Nat)
    (c : Competitor) (hc : (finalOrder rnd shuffle entrants)[idx]? = some c) (p s : Nat)
    (hs : 1 ≤ s) :
    (slotFor rnd (finalOrder rnd shuffle entrants) entrants.length p s == some c) =
      decide (s = idx + 1) := by
  have hidx : idx < entrants.length := by
    have := (List.getElem?_eq_some_iff.mp hc).1
    rw [finalOrder_length] at this
    exact this
  obtain ⟨c0, hc0, hseed, hbye⟩ := finalOrder_getElem? rnd shuffle entrants idx hidx
  rw [hc] at hc0
  cases hc0
  by_cases hsn : s ≤ entrants.length
  · obtain ⟨s', rfl⟩ : ∃ s', s = s' + 1 := ⟨s - 1, by omega⟩
    obtain ⟨c', hc', hseed', _⟩ := finalOrder_getElem? rnd shuffle entrants s' (by omega)
    simp only [slotFor, hsn, if_true, seededAt, hc']
    by_cases he : s' = idx
    · subst he
      rw [hc] at hc'
      cases hc'
      simp
    · have hne : ¬ c' = c := by
        intro h
        rw [h, hseed] at hseed'
        omega
      simp [hne, he]
  · have hne : ¬ s = idx + 1 := by omega
    simp only [slotFor, hsn, if_false, hne, decide_False]
    rw [beq_eq_false_iff_ne]
    intro h
    have h2 := congrArg (fun o => o.map Competitor.isBye) h
    simp [hbye] at h2

/-- A slot computed for a seed value holds a bye exactly when the seed value exceeds the
number of entrants. -/
theorem slotFor_holdsBye (rnd : Rand) (shuffle : Bool) (entrants : List String) (p s : Nat)
    (hs : 1 ≤ s) :
    holdsBye (slotFor rnd (finalOrder rnd shuffle entrants) entrants.length p s) =
      decide (entrants.length < s) := by
  by_cases hsn : s ≤ entrants.length
  · obtain ⟨s', rfl⟩ : ∃ s', s = s' + 1 := ⟨s - 1, by omega⟩
    obtain ⟨c', hc', _, hbye⟩ := finalOrder_getElem? rnd shuffle entrants s' (by omega)
    have : ¬ entrants.length < s' + 1 := by omega
    simp [slotFor, hsn, seededAt, hc', holdsBye, hbye, this]
  · have : entrants.length < s := by omega
    simp [slotFor, hsn, holdsBye, this]

/-- C16 (as worded, refuted): for the entrant list of 2^30 + 1 names `buildBracket` does not
return, so that no round-0 slot exists that an entrant could occupy. -/
theorem shuffle_slots_counterexample :
    (List.replicate 1073741825 "C") ≠ [] ∧
    ¬ ∃ round0 autoWins c, buildBracket sampleRand true (List.replicate 1073741825 "C")
        = some (BuildResult.built round0 autoWins) ∧ (round0Slots round0).count (some c) = 1 := by
  refine ⟨fun h => ?_, ?_⟩
  · have hl := congrArg List.length h
    rw [List.length_replicate] at hl
    exact absurd hl (by decide)
  rintro ⟨round0, autoWins, c, h, _⟩
  rw [buildBracket_diverges _ _ _ (by rw [List.length_replicate]; decide)] at h
  cases h

/-- C16 (amended): shuffle is a renumbered permutation.  For every non-empty entrant list of
length N ≤ 2^30 and every outcome of the random draws: the competitor list after the shuffle
loop is a permutation of the competitors made from the input entrants (so it has the same names
and ids, and the length N), and after renumbering the competitor at the 0-based position idx
has the seed idx + 1 and is otherwise unchanged; and, with shuffle on or off, `buildBracket`
returns round-0 matches in whose 2 * (number of matches) = size slots every competitor of the
final order occupies exactly one slot and exactly size - N slots hold byes. -/
theorem shuffle_renumbered_permutation (rnd : Rand) (entrants : List String)
    (hne : entrants ≠ []) (hN : entrants.length ≤ 2 ^ 30) :
    (List.Perm (shuffleLoop rnd ((mkSeeded rnd 0 entrants).length - 1) (mkSeeded rnd 0 entrants))
        (mkSeeded rnd 0 entrants) ∧
      (shuffleLoop rnd ((mkSeeded rnd 0 entrants).length - 1) (mkSeeded rnd 0 entrants)).length
        = entrants.length ∧
      List.Perm ((shuffleLoop rnd ((mkSeeded rnd 0 entrants).length - 1)
        (mkSeeded rnd 0 entrants)).map Competitor.name) entrants ∧
      List.Perm ((shuffleLoop rnd ((mkSeeded rnd 0 entrants).length - 1)
        (mkSeeded rnd 0 entrants)).map Competitor.id) ((mkSeeded rnd 0 entrants).map Competitor.id) ∧
      ∀ (idx : Nat) (c : Competitor), (shuffleLoop rnd ((mkSeeded rnd 0 entrants).length - 1)
          (mkSeeded rnd 0 entrants))[idx]? = some c →
        (finalOrder rnd true entrants)[idx]? = some { c with seed := idx + 1 }) ∧
    ∀ shuffle, ∃ round0 autoWins,
      buildBracket rnd shuffle entrants = some (BuildResult.built round0 autoWins) ∧
      (round0Slots round0).length = 2 * round0.length ∧
      (∀ (idx : Nat) (c : Competitor), (finalOrder rnd shuffle entrants)[idx]? = some c →
        (round0Slots round0).count (some c) = 1) ∧
      (round0Slots round0).countP holdsBye = 2 * round0.length - entrants.length := by
  have hperm := shuffleLoop_perm rnd ((mkSeeded rnd 0 entrants).length - 1)
    (mkSeeded rnd 0 entrants)
  refine ⟨⟨hperm, by rw [hperm.length_eq, mkSeeded_length], ?_, hperm.map _, ?_⟩, ?_⟩
  · have := hperm.map Competitor.name
    rwa [mkSeeded_names] at this
  · intro idx c hc
    simp only [finalOrder, if_true, renumber_getElem?, hc, Option.map_some', Nat.zero_add]
  · intro shuffle
    obtain ⟨t, _, hle, _, hb⟩ := buildBracket_eq rnd shuffle entrants hne hN
    have hu : 1 ≤ max 1 t := le_max_left 1 t
    have hlen := round0_length rnd (finalOrder rnd shuffle entrants) entrants.length (max 1 t) hu
    obtain ⟨u, hu'⟩ : ∃ u, max 1 t = u + 1 := ⟨max 1 t - 1, by omega⟩
    rw [hu'] at hb hlen
    simp only [Nat.add_sub_cancel] at hlen
    rw [generateSeeding_pow] at hb hlen
    have hsize : 2 * 2 ^ u = 2 ^ (u + 1) := by rw [pow_succ]; omega
    have hNsize : entrants.length ≤ 2 ^ (u + 1) := by
      have : 2 ^ t ≤ 2 ^ (u + 1) := Nat.pow_le_pow_right (by decide) (by omega)
      omega
    have hslots : round0Slots (pairUp 0 (mkSlots rnd (finalOrder rnd shuffle entrants)
        entrants.length 0 (seedIter u))) =
        mkSlots rnd (finalOrder rnd shuffle entrants) entrants.length 0 (seedIter u) := by
      apply round0Slots_pairUp (2 ^ u)
      rw [mkSlots_length, seedIter_length, pow_succ]; omega
    refine ⟨_, _, hb, ?_, ?_, ?_⟩
    · rw [hslots, hlen, mkSlots_length, seedIter_length, hsize]
    · intro idx c hc
      have hidx : idx < entrants.length := by
        have := (List.getElem?_eq_some_iff.mp hc).1
        rw [finalOrder_length] at this
        exact this
      rw [hslots, List.count_eq_countP,
        mkSlots_countP rnd _ _ (fun x => x == some c) (fun s => decide (s = idx + 1)) _ 0
          (fun p s hs => slotFor_eq_iff rnd shuffle entrants idx c hc p s
            (seedIter_bounds u s hs).1)]
      have hone := seedIter_count u (idx + 1) (by omega) (by omega)
      rw [List.count_eq_countP] at hone
      refine Eq.trans (List.countP_congr ?_) hone
      intro x _
      simp
    · rw [hslots, hlen, hsize,
        mkSlots_countP rnd _ _ holdsBye (fun s => decide (entrants.length < s)) _ 0
          (fun p s hs => slotFor_holdsBye rnd shuffle entrants p s (seedIter_bounds u s hs).1),
        (seedIter_perm u).countP_eq, countP_gt_range' _ _ hNsize]

theorem shuffle_renumbered_permutation_witness :
    ["A", "B", "C"] ≠ [] ∧ ["A", "B", "C"].length ≤ 2 ^ 30 ∧
    ∃ round0 autoWins,
      buildBracket sampleRand true ["A", "B", "C"] = some (BuildResult.built round0 autoWins) ∧
      (round0Slots round0).length = 2 * round0.length ∧
      (∀ (idx : Nat) (c : Competitor), (finalOrder sampleRand true ["A", "B", "C"])[idx]? = some c →
        (round0Slots round0).count (some c) = 1) ∧
      (round0Slots round0).countP holdsBye = 2 * round0.length - ["A", "B", "C"].length :=
  ⟨by decide, by decide,
    (shuffle_renumbered_permutation sampleRand ["A", "B", "C"] (by decide) (by decide)).2 true⟩

/-! ## The overwrite law: auxiliary facts -/

theorem parentSlot_parity (m : Match) (i i' : Nat) (h : i % 2 = i' % 2) :
    parentSlot m i = parentSlot m i' := by
  simp only [parentSlot, h]

theorem slotAt_eq (round0 : List Match) : ∀ p,
    slotAt round0 p = match round0[p / 2]? with
      | some m => parentSlot m p
      | none => none := by
  induction round0 with
  | nil => intro p; simp [slotAt, round0Slots]
  | cons m ms ih =>
    intro p
    match p with
    | 0 => simp [slotAt, round0Slots, parentSlot]
    | 1 => simp [slotAt, round0Slots, parentSlot]
    | p + 2 =>
      have e : (p + 2) / 2 = p / 2 + 1 := by omega
      have := ih p
      simp only [slotAt, round0Slots] at this
      simp only [slotAt, round0Slots, List.flatMap_cons, List.cons_append, List.nil_append,
        List.getElem?_cons_succ, e, this]
      cases ms[p / 2]? with
      | none => rfl
      | some x => exact (parentSlot_parity x _ _ (by omega)).symm

theorem filterMap_nodup_index {α β : Type} (f : α → Option β) : ∀ (l : List α) (p q : Nat)
    (x y : α) (v : β), (l.filterMap f).Nodup → l[p]? = some x → l[q]? = some y →
    f x = some v → f y = some v → p = q := by
  intro l
  induction l with
  | nil => intro p q x y v _ hp; simp at hp
  | cons a as ih =>
    intro p q x y v hnd hp hq hx hy
    have htail : (as.filterMap f).Nodup := by
      rw [List.filterMap_cons] at hnd
      cases hfa : f a with
      | none => simpa [hfa] using hnd
      | some b =>
        simp only [hfa, List.nodup_cons] at hnd
        exact hnd.2
    have hhead : ∀ z, f a = some v → z ∈ as → f z = some v → False := by
      intro z hfa hz hfz
      rw [List.filterMap_cons, hfa] at hnd
      simp only [List.nodup_cons] at hnd
      exact hnd.1 (List.mem_filterMap.mpr ⟨z, hz, hfz⟩)
    cases p with
    | zero =>
      cases q with
      | zero => rfl
      | succ q =>
        simp only [List.getElem?_cons_zero, Option.some.injEq] at hp
        simp only [List.getElem?_cons_succ] at hq
        subst hp
        exact absurd (hhead y hx (List.getElem?_mem hq) hy) id
    | succ p =>
      cases q with
      | zero =>
        simp only [List.getElem?_cons_zero, Option.some.injEq] at hq
        simp only [List.getElem?_cons_succ] at hp
        subst hq
        exact absurd (hhead x hy (List.getElem?_mem hp) hx) id
      | succ q =>
        simp only [List.getElem?_cons_succ] at hp hq
        rw [ih p q x y v htail hp hq hx hy]

/-- With pairwise distinct ids, two slots of the first round that hold competitors with the
same id are the same slot. -/
theorem slotAt_injective (round0 : List Match) (hnd : (round0Ids round0).Nodup)
    (p q : Nat) (c d : Competitor) (hp : slotAt round0 p = some c)
    (hq : slotAt round0 q = some d) (hid : c.id = d.id) : p = q := by
  unfold slotAt at hp hq
  cases hp' : (round0Slots round0)[p]? with
  | none => simp [hp'] at hp
  | some sp =>
    cases hq' : (round0Slots round0)[q]? with
    | none => simp [hq'] at hq
    | some sq =>
      simp only [hp'] at hp
      simp only [hq'] at hq
      subst hp hq
      exact filterMap_nodup_index (fun (slot : Option Competitor) => slot.map Competitor.id)
        (round0Slots round0) p q _ _ c.id hnd hp' hq'
        rfl (by simp [hid])

theorem resolveWinner_mem (winnersMap : Store) (m : Match) (c : Competitor)
    (h : resolveWinner winnersMap m = some c) : m.playerA = some c ∨ m.playerB = some c := by
  unfold resolveWinner findById at h
  cases ha : m.playerA with
  | none =>
    cases hb : m.playerB with
    | none => simp [ha, hb] at h; split at h <;> simp at h
    | some b =>
      simp only [ha, hb] at h
      split at h
      · split_ifs at h
        · exact Or.inr h
      · simp at h
  | some a =>
    cases hb : m.playerB with
    | none =>
      simp only [ha, hb] at h
      split at h
      · split_ifs at h
        · exact Or.inl h
      · simp at h
    | some b =>
      simp only [ha, hb] at h
      split at h
      · split_ifs at h
        · exact Or.inl h
        · exact Or.inr h
      · split_ifs at h
        · exact Or.inl h
        · exact Or.inr h

theorem resolveWinner_set_ne (winnersMap : Store) (key value : String) (m : Match)
    (h : m.id ≠ key) : resolveWinner (winnersMap.set key value) m = resolveWinner winnersMap m := by
  simp only [resolveWinner, Store.set, h, if_false]

theorem derived_of_deriveRounds (winnersMap : Store) (k : Nat) (initialMatches : List Match)
    (hlen : initialMatches.length = 2 ^ k) (out : List (List Match))
    (hout : deriveRounds initialMatches winnersMap = some out) :
    Derived winnersMap k initialMatches out := by
  obtain ⟨out', hout', hids, h0, hlink⟩ := deriveRounds_spec winnersMap k initialMatches hlen
  rw [hout] at hout'
  cases hout'
  exact ⟨hids, h0, hlink, hlen⟩

theorem Derived.exists_at {winnersMap : Store} {k : Nat} {initialMatches : List Match}
    {out : List (List Match)} (h : Derived winnersMap k initialMatches out) (r i : Nat)
    (hr : r ≤ k) (hi : i < 2 ^ (k - r)) : ∃ m, matchAt out r i = some m := by
  obtain ⟨_, hshape⟩ := idTree_shape k out h.ids
  obtain ⟨round, hround, _, hget⟩ := hshape r hr
  obtain ⟨m, hm, _⟩ := hget i hi
  exact ⟨m, by simp only [matchAt, hround, hm]⟩

theorem Derived.bounds {winnersMap : Store} {k : Nat} {initialMatches : List Match}
    {out : List (List Match)} (h : Derived winnersMap k initialMatches out) (r i : Nat)
    (m : Match) (hm : matchAt out r i = some m) :
    r ≤ k ∧ i < 2 ^ (k - r) ∧ m.id = matchId r i := by
  obtain ⟨hl, hshape⟩ := idTree_shape k out h.ids
  unfold matchAt at hm
  cases hr : out[r]? with
  | none => simp [hr] at hm
  | some round =>
    simp only [hr] at hm
    have hrk : r ≤ k := by
      have := (List.getElem?_eq_some_iff.mp hr).1
      omega
    obtain ⟨round', hround', hrl, hget⟩ := hshape r hrk
    rw [hr] at hround'
    cases hround'
    have hi : i < 2 ^ (k - r) := by
      have := (List.getElem?_eq_some_iff.mp hm).1
      omega
    obtain ⟨m', hm', hid'⟩ := hget i hi
    rw [hm] at hm'
    cases hm'
    exact ⟨hrk, hi, hid'⟩

theorem parentSlot_cases (m : Match) (t : Nat) (c : Competitor) (h : parentSlot m t = some c) :
    m.playerA = some c ∨ m.playerB = some c := by
  unfold parentSlot at h
  split_ifs at h
  · exact Or.inl h
  · exact Or.inr h

/-- Where a competitor of the derived tree comes from: the competitor in slot `t` (0 for
playerA, 1 for playerB) of the match `(r, j)` sits in a slot `p` of the first round with
`p / 2 ^ r = 2 * j + t`. -/
theorem Derived.origin {winnersMap : Store} {k : Nat} {initialMatches : List Match}
    {out : List (List Match)} (h : Derived winnersMap k initialMatches out) (r : Nat) :
    ∀ (j t : Nat) (m : Match) (c : Competitor), t < 2 → matchAt out r j = some m →
      parentSlot m t = some c →
      ∃ p, p / 2 ^ r = 2 * j + t ∧ slotAt initialMatches p = some c := by
  induction r with
  | zero =>
    intro j t m c ht hm hc
    obtain ⟨_, hj, _⟩ := h.bounds 0 j m hm
    simp only [Nat.sub_zero] at hj
    have hj' : j < initialMatches.length := by rw [h.len]; exact hj
    obtain ⟨m', hm', hA, hB⟩ := h.round0 j _ (List.getElem?_eq_getElem hj')
    rw [hm] at hm'
    cases hm'
    refine ⟨2 * j + t, by simp, ?_⟩
    have e : (2 * j + t) / 2 = j := by omega
    rw [slotAt_eq, e, List.getElem?_eq_getElem hj']
    simp only
    rw [parentSlot_parity _ (2 * j + t) t (by omega)]
    simp only [parentSlot, ← hA, ← hB]
    exact hc
  | succ r ih =>
    intro j t m c ht hm hc
    obtain ⟨hrk, hj, _⟩ := h.bounds (r + 1) j m hm
    have hpow : 2 ^ (k - r) = 2 * 2 ^ (k - (r + 1)) := by
      have e : k - r = (k - (r + 1)) + 1 := by omega
      rw [e, pow_succ]; omega
    obtain ⟨child, hchild⟩ := h.exists_at r (2 * j + t) (by omega) (by omega)
    obtain ⟨parent, hparent, hslot⟩ := h.link r (2 * j + t) child (by omega) hchild
    have e : (2 * j + t) / 2 = j := by omega
    rw [e, hm] at hparent
    cases hparent
    rw [parentSlot_parity _ (2 * j + t) t (by omega), hc] at hslot
    have hmem := resolveWinner_mem winnersMap child c hslot.symm
    have hside : ∃ t', t' < 2 ∧ parentSlot child t' = some c := by
      rcases hmem with hA | hB
      · exact ⟨0, by decide, by simp [parentSlot, hA]⟩
      · exact ⟨1, by decide, by simp [parentSlot, hB]⟩
    obtain ⟨t', ht', hc'⟩ := hside
    obtain ⟨p, hp, hsl⟩ := ih (2 * j + t) t' child c ht' hchild hc'
    refine ⟨p, ?_, hsl⟩
    rw [pow_succ, ← Nat.div_div_eq_div_mul, hp]
    omega

/-! ## The overwrite law -/

/-- Changing the store entry of the match `(r, i)` changes nothing in the rounds up to `r`
but winner ids: the matches of those rounds keep their ids and players. -/
theorem Derived.agree {s1 s2 : Store} {k : Nat} {initialMatches : List Match}
    {out1 out2 : List (List Match)} (h1 : Derived s1 k initialMatches out1)
    (h2 : Derived s2 k initialMatches out2) (r i : Nat)
    (hs : ∀ key, key ≠ matchId r i → s2 key = s1 key) (r' : Nat) :
    r' ≤ r → ∀ j m1 m2, matchAt out1 r' j = some m1 → matchAt out2 r' j = some m2 →
      core m1 = core m2 := by
  induction r' with
  | zero =>
    intro _ j m1 m2 hm1 hm2
    obtain ⟨_, hj, hid1⟩ := h1.bounds 0 j m1 hm1
    obtain ⟨_, _, hid2⟩ := h2.bounds 0 j m2 hm2
    simp only [Nat.sub_zero] at hj
    have hj' : j < initialMatches.length := by rw [h1.len]; exact hj
    obtain ⟨m1', hm1', hA1, hB1⟩ := h1.round0 j _ (List.getElem?_eq_getElem hj')
    obtain ⟨m2', hm2', hA2, hB2⟩ := h2.round0 j _ (List.getElem?_eq_getElem hj')
    rw [hm1] at hm1'
    rw [hm2] at hm2'
    cases hm1'
    cases hm2'
    simp only [core, hid1, hid2, hA1, hA2, hB1, hB2]
  | succ r' ih =>
    intro hr j m1 m2 hm1 hm2
    obtain ⟨hrk, hj, hid1⟩ := h1.bounds (r' + 1) j m1 hm1
    obtain ⟨_, _, hid2⟩ := h2.bounds (r' + 1) j m2 hm2
    have hpow : 2 ^ (k - r') = 2 * 2 ^ (k - (r' + 1)) := by
      have e : k - r' = (k - (r' + 1)) + 1 := by omega
      rw [e, pow_succ]; omega
    have hside : ∀ t, t < 2 → parentSlot m1 t = parentSlot m2 t := by
      intro t ht
      obtain ⟨c1, hc1⟩ := h1.exists_at r' (2 * j + t) (by omega) (by omega)
      obtain ⟨c2, hc2⟩ := h2.exists_at r' (2 * j + t) (by omega) (by omega)
      obtain ⟨p1, hp1, hsl1⟩ := h1.link r' (2 * j + t) c1 (by omega) hc1
      obtain ⟨p2, hp2, hsl2⟩ := h2.link r' (2 * j + t) c2 (by omega) hc2
      have e : (2 * j + t) / 2 = j := by omega
      rw [e, hm1] at hp1
      rw [e, hm2] at hp2
      cases hp1
      cases hp2
      rw [parentSlot_parity _ (2 * j + t) t (by omega)] at hsl1 hsl2
      have hcore := ih (by omega) (2 * j + t) c1 c2 hc1 hc2
      obtain ⟨_, _, hidc⟩ := h2.bounds r' (2 * j + t) c2 hc2
      have hne : c2.id ≠ matchId r i := by
        rw [hidc]
        intro he
        have := (matchId_injective _ _ _ _ he).1
        omega
      have hres : resolveWinner s2 c2 = resolveWinner s1 c2 := by
        simp only [resolveWinner, hs c2.id hne]
      rw [hsl1, hsl2, hres]
      exact resolveWinner_congr s1 c1 c2 hcore
    have hA := hside 0 (by decide)
    have hB := hside 1 (by decide)
    simp only [parentSlot, Nat.zero_mod, if_true] at hA
    simp only [parentSlot] at hB
    simp only [core, hid1, hid2, hA]
    simpa using hB

/-- C11 (as worded, refuted): the competitors of the round-0 list have pairwise distinct ids
and the derived match (0,0) has both players; recording its playerB, whose id is the empty
string, as the winner leaves the parent slot of the re-derived tree empty. -/
theorem overwrite_law_counterexample :
    emptyIdRound0.length = 2 ^ 1 ∧ (round0Ids emptyIdRound0).Nodup ∧
    ∃ out m a b out2 parent, deriveRounds emptyIdRound0 Store.empty = some out ∧
      matchAt out 0 0 = some m ∧ m.playerA = some a ∧ m.playerB = some b ∧
      deriveRounds emptyIdRound0 (Store.empty.set (matchId 0 0) b.id) = some out2 ∧
      matchAt out2 1 (0 / 2) = some parent ∧ parentSlot parent 0 = none ∧
      parentSlot parent 0 ≠ some b := by
  refine ⟨rfl, by decide, _, _, _, _, _, _, rfl, rfl, rfl, rfl, rfl, rfl, ?_, ?_⟩ <;> decide

/-- C11 (amended): overwrite law.  For every round-0 list of length 2^k whose competitors have
pairwise distinct ids, every outcome store, and every derived match (r,i) with r < k whose two
players are both present, one of them, W, with a non-empty id, the other L: after recording W
as the winner of the match (the store with `matchId r i` mapped to the id of W) the re-derived
tree has W in the parent slot of (r,i), and L occupies no playerA or playerB slot of any match
in any round greater than r. -/
theorem overwrite_law (winnersMap : Store) (k : Nat) (initialMatches : List Match)
    (hlen : initialMatches.length = 2 ^ k) (hnd : (round0Ids initialMatches).Nodup)
    (r i : Nat) (hr : r < k) (out : List (List Match))
    (hout : deriveRounds initialMatches winnersMap = some out) (m : Match)
    (hm : matchAt out r i = some m) (w l : Competitor)
    (hwl : (m.playerA = some l ∧ m.playerB = some w) ∨ (m.playerA = some w ∧ m.playerB = some l))
    (hw : w.id ≠ "") :
    ∃ out2, deriveRounds initialMatches (winnersMap.set (matchId r i) w.id) = some out2 ∧
      (∃ parent, matchAt out2 (r + 1) (i / 2) = some parent ∧ parentSlot parent i = some w) ∧
      ∀ r' j m', r < r' → matchAt out2 r' j = some m' →
        m'.playerA ≠ some l ∧ m'.playerB ≠ some l := by
  have h1 := derived_of_deriveRounds winnersMap k initialMatches hlen out hout
  obtain ⟨out2, hout2, _⟩ :=
    deriveRounds_spec (winnersMap.set (matchId r i) w.id) k initialMatches hlen
  have h2 := derived_of_deriveRounds _ k initialMatches hlen out2 hout2
  -- the match (r, i) of the new tree has the same players
  obtain ⟨_, hi, _⟩ := h1.bounds r i m hm
  obtain ⟨m2, hm2⟩ := h2.exists_at r i (by omega) hi
  have hcore : core m = core m2 := h1.agree h2 r i
    (fun key hk => by simp [Store.set, hk]) r (le_refl r) i m m2 hm hm2
  obtain ⟨_, _, hid2⟩ := h2.bounds r i m2 hm2
  have hA2 : m2.playerA = m.playerA := (congrArg (fun c => c.2.1) hcore).symm
  have hB2 : m2.playerB = m.playerB := (congrArg (fun c => c.2.2) hcore).symm
  -- the two players sit in different slots of the first round, so their ids differ
  have hslots : ∃ tw tl, tw < 2 ∧ tl < 2 ∧ tw ≠ tl ∧ parentSlot m2 tw = some w ∧
      parentSlot m2 tl = some l := by
    rcases hwl with ⟨hl, hw'⟩ | ⟨hw', hl⟩
    · exact ⟨1, 0, by decide, by decide, by decide, by simp [parentSlot, hB2, hw'],
        by simp [parentSlot, hA2, hl]⟩
    · exact ⟨0, 1, by decide, by decide, by decide, by simp [parentSlot, hA2, hw'],
        by simp [parentSlot, hB2, hl]⟩
  obtain ⟨tw, tl, htw, htl, hne, hsw, hsl⟩ := hslots
  obtain ⟨pw, hpw, hpsw⟩ := h2.origin r i tw m2 w htw hm2 hsw
  obtain ⟨pl, hpl, hpsl⟩ := h2.origin r i tl m2 l htl hm2 hsl
  have hids : l.id ≠ w.id := by
    intro he
    have := slotAt_injective initialMatches hnd pl pw l w hpsl hpsw he
    rw [this, hpw] at hpl
    omega
  -- the winner of (r, i) under the new store is W
  have hres : resolveWinner (winnersMap.set (matchId r i) w.id) m2 = some w := by
    have hentry : (winnersMap.set (matchId r i) w.id) m2.id = some w.id := by
      simp [Store.set, hid2]
    simp only [resolveWinner, hentry, orNull, hw, if_false, findById, hA2, hB2]
    rcases hwl with ⟨hl, hw'⟩ | ⟨hw', hl⟩
    · simp [hl, hw', hids]
    · simp [hl, hw']
  have hlw : l ≠ w := fun he => hids (by rw [he])
  refine ⟨out2, hout2, ?_, ?_⟩
  · obtain ⟨parent, hparent, hslot⟩ := h2.link r i m2 hr hm2
    exact ⟨parent, hparent, by rw [hslot, hres]⟩
  · -- no slot of a later round holds L
    have hnone : ∀ d j t m', t < 2 → matchAt out2 (r + 1 + d) j = some m' →
        parentSlot m' t ≠ some l := by
      intro d
      induction d with
      | zero =>
        intro j t m' ht hm' hc
        obtain ⟨hrk, hj, _⟩ := h2.bounds (r + 1) j m' hm'
        have hpow : 2 ^ (k - r) = 2 * 2 ^ (k - (r + 1)) := by
          have e : k - r = (k - (r + 1)) + 1 := by omega
          rw [e, pow_succ]; omega
        obtain ⟨child, hchild⟩ := h2.exists_at r (2 * j + t) (by omega) (by omega)
        obtain ⟨parent, hparent, hslot⟩ := h2.link r (2 * j + t) child hr hchild
        have e : (2 * j + t) / 2 = j := by omega
        rw [e] at hparent
        rw [show r + 1 + 0 = r + 1 from rfl, hparent] at hm'
        cases hm'
        rw [parentSlot_parity _ (2 * j + t) t (by omega), hc] at hslot
        have hmem := resolveWinner_mem _ child l hslot.symm
        have hside : ∃ t', t' < 2 ∧ parentSlot child t' = some l := by
          rcases hmem with hA | hB
          · exact ⟨0, by decide, by simp [parentSlot, hA]⟩
          · exact ⟨1, by decide, by simp [parentSlot, hB]⟩
        obtain ⟨t', ht', hc'⟩ := hside
        obtain ⟨p, hp, hps⟩ := h2.origin r (2 * j + t) t' child l ht' hchild hc'
        have hpp := slotAt_injective initialMatches hnd p pl l l hps hpsl rfl
        rw [hpp, hpl] at hp
        have hji : 2 * j + t = i := by omega
        rw [hji, hm2] at hchild
        cases hchild
        rw [hres] at hslot
        exact hlw (Option.some.inj hslot)
      | succ d ih =>
        intro j t m' ht hm' hc
        have hr' : r + 1 + (d + 1) = (r + 1 + d) + 1 := by omega
        rw [hr'] at hm'
        obtain ⟨hrk, hj, _⟩ := h2.bounds (r + 1 + d + 1) j m' hm'
        have hpow : 2 ^ (k - (r + 1 + d)) = 2 * 2 ^ (k - (r + 1 + d + 1)) := by
          have e : k - (r + 1 + d) = (k - (r + 1 + d + 1)) + 1 := by omega
          rw [e, pow_succ]; omega
        obtain ⟨child, hchild⟩ := h2.exists_at (r + 1 + d) (2 * j + t) (by omega) (by omega)
        obtain ⟨parent, hparent, hslot⟩ := h2.link (r + 1 + d) (2 * j + t) child (by omega) hchild
        have e : (2 * j + t) / 2 = j := by omega
        rw [e, hm'] at hparent
        cases hparent
        rw [parentSlot_parity _ (2 * j + t) t (by omega), hc] at hslot
        rcases resolveWinner_mem _ child l hslot.symm with hA | hB
        · exact ih (2 * j + t) 0 child (by decide) hchild (by simp [parentSlot, hA])
        · exact ih (2 * j + t) 1 child (by decide) hchild (by simp [parentSlot, hB])
    intro r' j m' hrr hm'
    obtain ⟨d, rfl⟩ : ∃ d, r' = r + 1 + d := ⟨r' - (r + 1), by omega⟩
    refine ⟨fun hA => ?_, fun hB => ?_⟩
    · exact hnone d j 0 m' (by decide) hm' (by simp [parentSlot, hA])
    · exact hnone d j 1 m' (by decide) hm' (by simp [parentSlot, hB])

theorem overwrite_law_witness :
    fullRound0.length = 2 ^ 1 ∧ (round0Ids fullRound0).Nodup ∧ 0 < 1 ∧
    deriveRounds fullRound0 fullStore = some fullRounds ∧
    (∃ m, matchAt fullRounds 0 0 = some m ∧
      m.playerA = some { id := "p_a", name := "A", seed := 1, isBye := false } ∧
      m.playerB = some { id := "p_d", name := "D", seed := 4, isBye := false }) ∧
    "p_d" ≠ "" ∧
    ∃ out2, deriveRounds fullRound0 (fullStore.set (matchId 0 0) "p_d") = some out2 ∧
      (∃ parent, matchAt out2 (0 + 1) (0 / 2) = some parent ∧
        parentSlot parent 0 = some { id := "p_d", name := "D", seed := 4, isBye := false }) ∧
      ∀ r' j m', 0 < r' → matchAt out2 r' j = some m' →
        m'.playerA ≠ some { id := "p_a", name := "A", seed := 1, isBye := false } ∧
        m'.playerB ≠ some { id := "p_a", name := "A", seed := 1, isBye := false } :=
  ⟨rfl, by decide, by decide, by decide, ⟨_, rfl, rfl, rfl⟩, by decide,
    overwrite_law fullStore 1 fullRound0 rfl (by decide) 0 0 (by decide) fullRounds (by decide)
      _ rfl { id := "p_d", name := "D", seed := 4, isBye := false }
      { id := "p_a", name := "A", seed := 1, isBye := false } (Or.inl ⟨rfl, rfl⟩) (by decide)⟩

end Bracket

